import Mathlib

/-!
blobstash: the client-side file ingestion pipeline

A shallow embedding of `client/filewriter.go` (`FileWriter`, `SmallFileWriter`,
`PutFile`) and of the standalone `FileWriter` of `client/writer/file.go`, and
the properties of the chunking loop, the accounting record and the commands
sent to the blob store.

Modelling conventions.

* A file is the list of its bytes. `freader.Read` hands them out one at a time
  and then reports `io.EOF`; the file is a readable regular file that does not
  change while it is ingested, so `os.Stat(path).Size()` is the length of that
  list and the single `f.Read` of `SmallFileWriter` fills the whole buffer.
* Go `int` is modelled by `Int`. Every counter is bounded by the file size (an
  `int64`) or is a reply of the store, so no addition of the code wraps on a
  64-bit platform.
* `MinBlobSize` and `MaxBlobSize` are package-level *variables* in the source;
  the functions below take them as the arguments `minB` and `maxB`, and the
  initial values of the source are the constants `MinBlobSize`, `MaxBlobSize`.
* The packages `rolling` (rolling checksum) and `redigo/redis` (connection to
  the store), and the function `SHA1`, are not part of the sources at hand.
  They enter as parameters: `Rolling ρ`, `Conn σ` and `H : List Byte → String`.
  `sha1.New()` followed by `Write`s and a final `Sum` is modelled by the list of
  the bytes written and `H` of that list.
* A `panic` is the outcome `Outcome.panic`; the connection state and the
  history of commands are kept up to the panic.
-/

namespace Blobstash

/-- One byte of a file. -/
abbrev Byte := UInt8

/-- Initial value of the package variable `MinBlobSize` (64Kb). -/
def MinBlobSize : Nat := 64 <<< 10

/-- Initial value of the package variable `MaxBlobSize` (1MB). -/
def MaxBlobSize : Nat := 1 <<< 20

/-- The package variable `emptyHash`: the SHA-1 digest of the empty input. -/
def emptyHash : String := "da39a3ee5e6b4b0d3255bfef95601890afd80709"

/-- The rolling checksum consumed by `FileWriter`: `rolling.New(window)`,
`rs.Write(b)` for a one-byte slice `b`, and `rs.OnSplit()`. -/
structure Rolling (ρ : Type) where
  new : Nat → ρ
  write : ρ → Byte → ρ
  onSplit : ρ → Bool

/-- The fields of `WriteResult` that `filewriter.go` reads or writes. -/
structure WriteResult where
  Hash : String := ""
  Size : Int := 0
  BlobsCount : Int := 0
  BlobsUploaded : Int := 0
  BlobsSkipped : Int := 0
  SizeUploaded : Int := 0
  SizeSkipped : Int := 0
  FilesCount : Int := 0
  FilesUploaded : Int := 0
  FilesSkipped : Int := 0
  AlreadyExists : Bool := false
deriving DecidableEq, Repr

/-- The fields of `Meta` that `PutFile` fills in (`Type_` is the field `Type`). -/
structure Meta where
  Ref : String := ""
  Name : String := ""
  Size : Int := 0
  Type_ : String := ""
  ModTime : String := ""
  Mode : Nat := 0
deriving DecidableEq, Repr

/-- What `os.Stat` and the reads of the file deliver for a path that exists. -/
structure File where
  name : String
  data : List Byte
  modTime : String
  mode : Nat
deriving DecidableEq, Repr

/-- One command sent with `con.Do` (or by `meta.Save(con)`), with the reply as
the code sees it: `none`, or `false` for a command whose reply is discarded,
stands for `err != nil`. -/
inductive Event where
  | ladd (key : String) (offset : Int) (hash : String) (ok : Bool)
  | bexists (hash : String) (reply : Option Bool)
  | bput (data : List Byte) (reply : Option String)
  | llen (key : String) (reply : Option Int)
  | txinit (args : List String) (reply : Option String)
  | txcommit (ok : Bool)
  | metaSave (m : Meta) (ok : Bool)
deriving DecidableEq, Repr

/-- The connection to the blob store: each command maps the state of the store
to its next state and the reply (`redis.Bool`, `redis.String` and `redis.Int`
applied to the result of `con.Do`). -/
structure Conn (σ : Type) where
  LADD : σ → String → Int → String → σ × Bool
  BEXISTS : σ → String → σ × Option Bool
  BPUT : σ → List Byte → σ × Option String
  LLEN : σ → String → σ × Option Int
  TXINIT : σ → List String → σ × Option String
  TXCOMMIT : σ → σ × Bool
  metaSave : σ → Meta → σ × Bool

/-- The `panic` sites of `filewriter.go`. -/
inductive Panic where
  | dbLADD
  | dbError
  | errorBPUT
  | corrupted (rsha nsha : String)
deriving DecidableEq, Repr

/-- How a call ends: it returns a value, returns an error, or panics. -/
inductive Outcome (α : Type) where
  | ret (a : α)
  | err (msg : String)
  | panic (p : Panic)
deriving DecidableEq, Repr

/-- The state of the store together with the history of the run: the commands
issued so far and (ghost) the buffers finalized so far, oldest first. -/
structure World (σ : Type) where
  st : σ
  trace : List Event := []
  chunks : List (List Byte) := []

/-- Lines 62-91 of `FileWriter`: hash the buffer, feed the whole-file hash,
ask `BEXISTS`, upload with `BPUT` when absent, update the counters and append
the index entry with `LADD`. Returns the counters and the bytes fed to the
whole-file hash so far. -/
def finalize {σ : Type} (H : List Byte → String) (c : Conn σ) (key : String)
    (buf fullHash : List Byte) (wr : WriteResult) (w : World σ) :
    World σ × Except Panic (WriteResult × List Byte) :=
  let nsha := H buf
  let fullHash1 := fullHash ++ buf
  let r1 := c.BEXISTS w.st nsha
  let w1 : World σ :=
    { st := r1.1, trace := w.trace ++ [Event.bexists nsha r1.2], chunks := w.chunks ++ [buf] }
  match r1.2 with
  | none => (w1, .error Panic.dbError)
  | some false =>
      let r2 := c.BPUT w1.st buf
      let w2 : World σ := { w1 with st := r2.1, trace := w1.trace ++ [Event.bput buf r2.2] }
      match r2.2 with
      | none => (w2, .error Panic.errorBPUT)
      | some rsha =>
          let wr1 := { wr with BlobsUploaded := wr.BlobsUploaded + 1,
                               SizeUploaded := wr.SizeUploaded + buf.length }
          if rsha ≠ nsha then (w2, .error (Panic.corrupted rsha nsha))
          else
            let wr2 := { wr1 with Size := wr1.Size + buf.length, BlobsCount := wr1.BlobsCount + 1 }
            let r3 := c.LADD w2.st key wr2.Size nsha
            let w3 : World σ :=
              { w2 with st := r3.1, trace := w2.trace ++ [Event.ladd key wr2.Size nsha r3.2] }
            if r3.2 then (w3, .ok (wr2, fullHash1)) else (w3, .error Panic.dbLADD)
  | some true =>
      let wr1 := { wr with SizeSkipped := wr.SizeSkipped + buf.length,
                           BlobsSkipped := wr.BlobsSkipped + 1 }
      let wr2 := { wr1 with Size := wr1.Size + buf.length, BlobsCount := wr1.BlobsCount + 1 }
      let r3 := c.LADD w1.st key wr2.Size nsha
      let w3 : World σ :=
        { w1 with st := r3.1, trace := w1.trace ++ [Event.ladd key wr2.Size nsha r3.2] }
      if r3.2 then (w3, .ok (wr2, fullHash1)) else (w3, .error Panic.dbLADD)

/-- The `for` loop of `FileWriter` (lines 50-96), by recursion on the bytes
still to be read. `[]` is the iteration in which `Read` reports `io.EOF`. -/
def writerLoop {ρ σ : Type} (H : List Byte → String) (rs : Rolling ρ) (c : Conn σ)
    (minB maxB : Nat) (key : String) :
    List Byte → ρ → List Byte → List Byte → WriteResult → World σ →
      World σ × Except Panic (WriteResult × List Byte)
  | [], r, buf, fullHash, wr, w =>
      let eof := true
      let onSplit := rs.onSplit r
      if (onSplit && decide (buf.length > minB)) || decide (buf.length ≥ maxB) || eof then
        finalize H c key buf fullHash wr w
      else (w, .ok (wr, fullHash))
  | b :: rest, r, buf, fullHash, wr, w =>
      let eof := false
      let r1 := rs.write r b
      let buf1 := buf ++ [b]
      let onSplit := rs.onSplit r1
      if (onSplit && decide (buf1.length > minB)) || decide (buf1.length ≥ maxB) || eof then
        match finalize H c key buf1 fullHash wr w with
        | (w1, .error p) => (w1, .error p)
        | (w1, .ok (wr1, fullHash1)) => writerLoop H rs c minB maxB key rest r1 [] fullHash1 wr1 w1
      else writerLoop H rs c minB maxB key rest r1 buf1 fullHash wr w

/-- `client.FileWriter(con, key, path)`; `file = none` is a path that cannot be
opened. -/
def FileWriter {ρ σ : Type} (H : List Byte → String) (rs : Rolling ρ) (c : Conn σ)
    (minB maxB : Nat) (w : World σ) (key : String) (file : Option (List Byte)) :
    World σ × Outcome WriteResult :=
  match file with
  | none => (w, .err "can't open file")
  | some input =>
      let r0 := c.LADD w.st key 0 ""
      let w0 : World σ := { w with st := r0.1, trace := w.trace ++ [Event.ladd key 0 "" r0.2] }
      if r0.2 then
        match writerLoop H rs c minB maxB key input (rs.new 64) [] [] {} w0 with
        | (w1, .error p) => (w1, .panic p)
        | (w1, .ok (wr, fullHash)) =>
            (w1, .ret { wr with Hash := H fullHash,
                                FilesCount := wr.FilesCount + 1,
                                FilesUploaded := wr.FilesUploaded + 1 })
      else (w0, .panic Panic.dbLADD)

/-- `client.SmallFileWriter(con, key, path)`. The whole file is read into
`buf2` with one `Read` (which does not fail on a readable regular file, also
when the buffer is empty); lines 122-148 then repeat lines 62-91 of
`FileWriter` on `buf2`, without a whole-file hash accumulator, and `Hash` is the
hash `nsha` of that one buffer. -/
def SmallFileWriter {σ : Type} (H : List Byte → String) (c : Conn σ)
    (w : World σ) (key : String) (file : Option (List Byte)) :
    World σ × Outcome WriteResult :=
  match file with
  | none => (w, .err "can't open file")
  | some input =>
      let r0 := c.LADD w.st key 0 ""
      let w0 : World σ := { w with st := r0.1, trace := w.trace ++ [Event.ladd key 0 "" r0.2] }
      if r0.2 then
        let buf2 := input
        let nsha := H buf2
        match finalize H c key buf2 [] {} w0 with
        | (w1, .error p) => (w1, .panic p)
        | (w1, .ok (wr, _)) =>
            (w1, .ret { wr with Hash := nsha,
                                FilesCount := wr.FilesCount + 1,
                                FilesUploaded := wr.FilesUploaded + 1 })
      else (w0, .panic Panic.dbLADD)

/-- Lines 199-218 of `PutFile`: compare the hashes, fill in the `Meta`, save it
and commit the transaction. -/
def putFileFinish {σ : Type} (c : Conn σ) (f : File) (sha : String)
    (wr : WriteResult) (w : World σ) : World σ × Outcome (Meta × WriteResult) :=
  if sha ≠ wr.Hash then (w, .err "initial hash and WriteResult aren't the same")
  else
    let m : Meta :=
      { Ref := wr.Hash, Name := f.name, Size := wr.Size, Type_ := "file",
        ModTime := f.modTime, Mode := f.mode }
    let r1 := c.metaSave w.st m
    let w1 : World σ := { w with st := r1.1, trace := w.trace ++ [Event.metaSave m r1.2] }
    if r1.2 then
      let r2 := c.TXCOMMIT w1.st
      let w2 : World σ := { w1 with st := r2.1, trace := w1.trace ++ [Event.txcommit r2.2] }
      if r2.2 then (w2, .ret (m, wr)) else (w2, .err "error TXCOMMIT")
    else (w1, .err "Error saving meta")

/-- `client.PutFile(ctx, path)`; `file = none` is a path for which `os.Stat`
reports that it does not exist. `fullSHA1` is the pre-pass `FullSHA1(path)` as a
function of the bytes of the file, `args` is `ctx.Args()`. The upload counter
(`StartUpload`, `UploadDone`) and the deferred `con.Close()` send no command
and are left out. -/
def PutFile {ρ σ : Type} (H fullSHA1 : List Byte → String) (rs : Rolling ρ) (c : Conn σ)
    (minB maxB : Nat) (w : World σ) (args : List String) (file : Option File) :
    World σ × Outcome (Meta × WriteResult) :=
  match file with
  | none => (w, .err "file does not exist")
  | some f =>
      let sha := fullSHA1 f.data
      let r1 := c.TXINIT w.st args
      let w1 : World σ := { w with st := r1.1, trace := w.trace ++ [Event.txinit args r1.2] }
      match r1.2 with
      | none => (w1, .err "TXINIT")
      | some _ =>
          let r2 := c.LLEN w1.st sha
          let w2 : World σ := { w1 with st := r2.1, trace := w1.trace ++ [Event.llen sha r2.2] }
          match r2.2 with
          | none => (w2, .err "error LLEN")
          | some cnt =>
              if decide (cnt > 0) || decide (sha = emptyHash) then
                let wr : WriteResult :=
                  { Hash := sha, AlreadyExists := true, FilesSkipped := 1, FilesCount := 1,
                    SizeSkipped := f.data.length, Size := f.data.length,
                    BlobsCount := cnt, BlobsSkipped := cnt }
                putFileFinish c f sha wr w2
              else
                let r3 :=
                  if f.data.length > minB then FileWriter H rs c minB maxB w2 sha (some f.data)
                  else SmallFileWriter H c w2 sha (some f.data)
                match r3 with
                | (w3, .panic p) => (w3, .panic p)
                | (w3, .err _) => (w3, .err "FileWriter error")
                | (w3, .ret wr) => putFileFinish c f sha wr w3

/-! ## Proof devices: the chunk boundaries and the per-chunk store traffic -/

/-- The buffers that the loop of `FileWriter` finalizes, as a function of the
bytes still to be read, the rolling state and the current buffer: the loop
with the store traffic removed. -/
def chunker {ρ : Type} (rs : Rolling ρ) (minB maxB : Nat) :
    List Byte → ρ → List Byte → List (List Byte)
  | [], _, buf => [buf]
  | b :: rest, r, buf =>
      if (rs.onSplit (rs.write r b) && decide ((buf ++ [b]).length > minB))
          || decide ((buf ++ [b]).length ≥ maxB) then
        (buf ++ [b]) :: chunker rs minB maxB rest (rs.write r b) []
      else chunker rs minB maxB rest (rs.write r b) (buf ++ [b])

/-- Finalize the given buffers one after the other, stopping at the first
panic. -/
def runChunks {σ : Type} (H : List Byte → String) (c : Conn σ) (key : String) :
    List (List Byte) → List Byte → WriteResult → World σ →
      World σ × Except Panic (WriteResult × List Byte)
  | [], fullHash, wr, w => (w, .ok (wr, fullHash))
  | ch :: cs, fullHash, wr, w =>
      match finalize H c key ch fullHash wr w with
      | (w1, .error p) => (w1, .error p)
      | (w1, .ok (wr1, fullHash1)) => runChunks H c key cs fullHash1 wr1 w1

/-- The counters after a finalized buffer of `n` bytes: lines 82-87 when
`BEXISTS` answered `existed = true`, lines 75-76 and 85-87 when it answered
`false`. -/
def account (wr : WriteResult) (n : Nat) (existed : Bool) : WriteResult :=
  if existed then
    { wr with SizeSkipped := wr.SizeSkipped + n, BlobsSkipped := wr.BlobsSkipped + 1,
              Size := wr.Size + n, BlobsCount := wr.BlobsCount + 1 }
  else
    { wr with BlobsUploaded := wr.BlobsUploaded + 1, SizeUploaded := wr.SizeUploaded + n,
              Size := wr.Size + n, BlobsCount := wr.BlobsCount + 1 }

/-- The counters after a list of finalized buffers, each with the answer of
`BEXISTS`. -/
def accounts (wr : WriteResult) : List (List Byte × Bool) → WriteResult
  | [] => wr
  | (ch, existed) :: rest => accounts (account wr ch.length existed) rest

/-- The commands of one finalized buffer `buf` that goes through: `BEXISTS`,
then `BPUT` exactly when `BEXISTS` answered `false`, then `LADD` at the
cumulative offset `off`. -/
def okBlock (H : List Byte → String) (key : String) (off : Int) (buf : List Byte)
    (existed : Bool) : List Event :=
  if existed then
    [Event.bexists (H buf) (some true), Event.ladd key off (H buf) true]
  else
    [Event.bexists (H buf) (some false), Event.bput buf (some (H buf)),
     Event.ladd key off (H buf) true]

/-- The commands of a list of finalized buffers, `off` being the number of
bytes finalized before. -/
def okBlocks (H : List Byte → String) (key : String) :
    Int → List (List Byte × Bool) → List Event
  | _, [] => []
  | off, (ch, existed) :: rest =>
      okBlock H key (off + ch.length) ch existed ++ okBlocks H key (off + ch.length) rest

/-- The commands of a finalized buffer at which the run panics, with the
panic. -/
inductive FailBlock (H : List Byte → String) (key : String) (off : Int) (buf : List Byte) :
    List Event → Panic → Prop where
  | existsErr : FailBlock H key off buf [Event.bexists (H buf) none] Panic.dbError
  | putErr : FailBlock H key off buf
      [Event.bexists (H buf) (some false), Event.bput buf none] Panic.errorBPUT
  | corrupt (rsha : String) (h : rsha ≠ H buf) : FailBlock H key off buf
      [Event.bexists (H buf) (some false), Event.bput buf (some rsha)]
      (Panic.corrupted rsha (H buf))
  | laddErrUploaded : FailBlock H key off buf
      [Event.bexists (H buf) (some false), Event.bput buf (some (H buf)),
       Event.ladd key off (H buf) false] Panic.dbLADD
  | laddErrSkipped : FailBlock H key off buf
      [Event.bexists (H buf) (some true), Event.ladd key off (H buf) false] Panic.dbLADD

/-- The index entries `(offset, hash)` of the `LADD` commands of a history. -/
def ladds : List Event → List (Int × String)
  | [] => []
  | Event.ladd _ off h _ :: rest => (off, h) :: ladds rest
  | _ :: rest => ladds rest

/-- The index entries of a list of buffers: cumulative end offset and hash. -/
def indexEntries (H : List Byte → String) : Int → List (List Byte) → List (Int × String)
  | _, [] => []
  | off, ch :: rest => (off + ch.length, H ch) :: indexEntries H (off + ch.length) rest

/-- Is the event a `BPUT`? -/
def Event.isBput : Event → Bool
  | Event.bput _ _ => true
  | _ => false

/-- Is the event a `BPUT` whose reply is a hash other than `H` of the data? -/
def Event.isCorruptBput (H : List Byte → String) : Event → Bool
  | Event.bput d (some rsha) => decide (rsha ≠ H d)
  | _ => false

/-- Is the event a `BEXISTS`, a `BPUT` or a `LADD`? -/
def Event.isBlobOrIndexCmd : Event → Bool
  | Event.bexists _ _ => true
  | Event.bput _ _ => true
  | Event.ladd _ _ _ _ => true
  | _ => false

/-- A store that answers every command of the writers without an error and
whose `BPUT` returns the hash of the data it was given. -/
structure Reliable {σ : Type} (H : List Byte → String) (c : Conn σ) : Prop where
  ladd : ∀ s k o h, (c.LADD s k o h).2 = true
  bexists : ∀ s h, (c.BEXISTS s h).2 ≠ none
  bput : ∀ s d, (c.BPUT s d).2 = some (H d)

/-! ## A store, a hash and a rolling checksum to run the code on -/

/-- Modelled from the spec: the blob store behind the connection, which is not
part of the sources at hand (section 6: `blobExists`, `blobPut`,
`chunkIndexAppend` "appends one ordered entry", `chunkIndexLength`,
`metadataSave`, `txBegin`, `txCommit`). The state is the hashes of the stored
blobs, the index entries with their key, and the saved metadata records. -/
structure MemStore where
  blobs : List String := []
  index : List (String × Int × String) := []
  metas : List Meta := []
deriving DecidableEq, Repr

/-- Modelled from the spec: the commands of the store of `MemStore`, none of
which fails; `BPUT` stores and returns the hash `H` of the data. -/
def memConn (H : List Byte → String) : Conn MemStore where
  LADD s k o h := ({ s with index := s.index ++ [(k, o, h)] }, true)
  BEXISTS s h := (s, some (s.blobs.contains h))
  BPUT s d := ({ s with blobs := s.blobs ++ [H d] }, some (H d))
  LLEN s k := (s, some ((s.index.filter (fun e => e.1 == k)).length : Int))
  TXINIT s _ := (s, some "OK")
  TXCOMMIT s := (s, true)
  metaSave s m := ({ s with metas := s.metas ++ [m] }, true)

/-- A store like `memConn` whose `BPUT` returns the hash of other data than it
was given (the data with a zero byte in front). -/
def corruptConn (H : List Byte → String) : Conn MemStore :=
  { memConn H with BPUT := fun s d => ({ s with blobs := s.blobs ++ [H (0 :: d)] }, some (H (0 :: d))) }

/-- An injective stand-in for the hex digest in examples: one letter per byte
value modulo 16, after the letter `h`. -/
def hexHash (bs : List Byte) : String :=
  String.mk ('h' :: bs.map (fun b => Char.ofNat (97 + b.toNat % 16)))

/-- A rolling checksum for examples: the state is the last byte written, and a
split is signalled after a zero byte. -/
def zeroSplit : Rolling Nat where
  new _ := 1
  write _ b := b.toNat
  onSplit r := r == 0

/-- A rolling checksum that never signals a split. -/
def neverSplit : Rolling Unit where
  new _ := ()
  write _ _ := ()
  onSplit _ := false

/-- The empty store with an empty history. -/
def emptyWorld : World MemStore := { st := {} }

/-- The accounting invariant of a `WriteResult`: uploaded plus skipped is the
total, for the blob count and for the size. -/
def Balanced (wr : WriteResult) : Prop :=
  wr.BlobsUploaded + wr.BlobsSkipped = wr.BlobsCount ∧
    wr.SizeUploaded + wr.SizeSkipped = wr.Size

/-- A file for examples. -/
def demoFile (data : List Byte) : File :=
  { name := "f", data := data, modTime := "2014-01-01T00:00:00Z", mode := 420 }

/-- The shape of the commands that a writer adds to the history: only
`BEXISTS`, `BPUT` and `LADD`, and a `BPUT` with a wrong reply is the last
command and ends the run with the panic of line 79 (137). -/
def WriterEvents (H : List Byte → String) (evs : List Event) (out : Outcome WriteResult) :
    Prop :=
  (∀ e ∈ evs, e.isBlobOrIndexCmd = true) ∧
    ∀ pre post e, evs = pre ++ e :: post → e.isCorruptBput H = true →
      post = [] ∧
        ∀ d rsha, e = Event.bput d (some rsha) → out = .panic (Panic.corrupted rsha (H d))

/-- The store reports a non-empty index under the key `k`: `LLEN k` answers a
positive length. -/
def IndexKnown {σ : Type} (c : Conn σ) (s : σ) (k : String) : Prop :=
  ∃ n : Int, (c.LLEN s k).2 = some n ∧ 0 < n

/-- A property of the state of the store that no command destroys. -/
structure Preserved {σ : Type} (c : Conn σ) (Inv : σ → Prop) : Prop where
  ladd : ∀ s k o h, Inv s → Inv (c.LADD s k o h).1
  bexists : ∀ s h, Inv s → Inv (c.BEXISTS s h).1
  bput : ∀ s d, Inv s → Inv (c.BPUT s d).1
  llen : ∀ s k, Inv s → Inv (c.LLEN s k).1
  txinit : ∀ s a, Inv s → Inv (c.TXINIT s a).1
  txcommit : ∀ s, Inv s → Inv (c.TXCOMMIT s).1
  metaSave : ∀ s m, Inv s → Inv (c.metaSave s m).1

/-- A store that keeps the index entries appended to it: after a successful
`LADD` under a key the index of that key is non-empty, and a non-empty index
stays non-empty whatever command follows. -/
structure KeepsIndex {σ : Type} (c : Conn σ) : Prop where
  ladd_new : ∀ s k o h, (c.LADD s k o h).2 = true → IndexKnown c (c.LADD s k o h).1 k
  keeps : ∀ k, Preserved c (fun s => IndexKnown c s k)

/-- A store whose transaction commands, `LLEN` and metadata save do not fail. -/
structure TxReliable {σ : Type} (c : Conn σ) : Prop where
  txinit : ∀ s a, (c.TXINIT s a).2 ≠ none
  llen : ∀ s k, (c.LLEN s k).2 ≠ none
  metaSave : ∀ s m, (c.metaSave s m).2 = true
  txcommit : ∀ s, (c.TXCOMMIT s).2 = true

/-- The hash `hexHash`, except that the empty input gets the value of the
package variable `emptyHash`, as it does under SHA-1. -/
def hexHash0 (bs : List Byte) : String :=
  if bs = [] then emptyHash else hexHash bs

/-- The store of `memConn` with the given blob hashes already present. -/
def worldWithBlobs (hashes : List String) : World MemStore :=
  { st := { blobs := hashes } }

/-- The connection and its history in `PutFile` after `TXINIT` and `LLEN`
(lines 168-178), `sha` being the pre-pass hash. -/
def lookupWorld {σ : Type} (c : Conn σ) (w : World σ) (args : List String) (sha : String) :
    World σ :=
  { st := (c.LLEN (c.TXINIT w.st args).1 sha).1,
    trace := w.trace ++ [Event.txinit args (c.TXINIT w.st args).2] ++
      [Event.llen sha (c.LLEN (c.TXINIT w.st args).1 sha).2],
    chunks := w.chunks }

/-- Lines 190-194 of `PutFile`: `FileWriter` for a file longer than
`MinBlobSize`, `SmallFileWriter` otherwise. -/
def ingest {ρ σ : Type} (H : List Byte → String) (rs : Rolling ρ) (c : Conn σ)
    (minB maxB : Nat) (w : World σ) (sha : String) (data : List Byte) :
    World σ × Outcome WriteResult :=
  if data.length > minB then FileWriter H rs c minB maxB w sha (some data)
  else SmallFileWriter H c w sha (some data)

/-- A pre-pass hash for examples that is not the digest of the file: the hash
of the file with one more byte in front, as when the file changed between the
pre-pass and the chunking pass. -/
def staleHash (bs : List Byte) : String := hexHash (9 :: bs)

/-- A store whose index grows by one entry with each successful `LADD`, as
seen through `LLEN`: a successful `LADD` under a key raises the answer of `LLEN`
for that key by one, and the other commands leave the answers of `LLEN`
unchanged. -/
structure CountsEntries {σ : Type} (c : Conn σ) : Prop where
  ladd : ∀ s k o h, (c.LADD s k o h).2 = true →
    (c.LLEN (c.LADD s k o h).1 k).2 = ((c.LLEN s k).2).map (fun n => n + 1)
  bexists : ∀ s k h, (c.LLEN (c.BEXISTS s h).1 k).2 = (c.LLEN s k).2
  bput : ∀ s k d, (c.LLEN (c.BPUT s d).1 k).2 = (c.LLEN s k).2
  llen : ∀ s k k1, (c.LLEN (c.LLEN s k1).1 k).2 = (c.LLEN s k).2
  txinit : ∀ s k a, (c.LLEN (c.TXINIT s a).1 k).2 = (c.LLEN s k).2
  txcommit : ∀ s k, (c.LLEN (c.TXCOMMIT s).1 k).2 = (c.LLEN s k).2
  metaSave : ∀ s k m, (c.LLEN (c.metaSave s m).1 k).2 = (c.LLEN s k).2

/-- One ingestion: a run of `FileWriter` or of `SmallFileWriter` with a key
and the bytes of a file. -/
inductive Job where
  | file (key : String) (input : List Byte)
  | small (key : String) (input : List Byte)
deriving DecidableEq, Repr

/-- A sequence of ingestions against one store, each starting from the state
and history the previous one left behind (also when that one panicked);
returns the final state and history, and the outcomes in order. -/
def runJobs {ρ σ : Type} (H : List Byte → String) (rs : Rolling ρ) (c : Conn σ)
    (minB maxB : Nat) : List Job → World σ → World σ × List (Outcome WriteResult)
  | [], w => (w, [])
  | Job.file key input :: js, w =>
      let r := FileWriter H rs c minB maxB w key (some input)
      let rest := runJobs H rs c minB maxB js r.1
      (rest.1, r.2 :: rest.2)
  | Job.small key input :: js, w =>
      let r := SmallFileWriter H c w key (some input)
      let rest := runJobs H rs c minB maxB js r.1
      (rest.1, r.2 :: rest.2)

/-- The hashes of the blobs uploaded in a history: one for each `BPUT` that
the store answered with the hash of the data. -/
def uploads (H : List Byte → String) : List Event → List String
  | [] => []
  | Event.bput d (some h) :: rest => if h = H d then h :: uploads H rest else uploads H rest
  | _ :: rest => uploads H rest

/-- The hash of the data of every `BPUT` command of a history. -/
def bputHashes (H : List Byte → String) : List Event → List String
  | [] => []
  | Event.bput d _ :: rest => H d :: bputHashes H rest
  | _ :: rest => bputHashes H rest

/-- The store answers `true` to `BEXISTS h`. -/
def BlobPresent {σ : Type} (c : Conn σ) (s : σ) (h : String) : Prop :=
  (c.BEXISTS s h).2 = some true

/-- A store in which a blob exists once it has been put: after a `BPUT` that
returned `h`, `BEXISTS h` answers `true`, and it keeps answering `true` whatever
command follows. -/
structure KeepsBlobs {σ : Type} (c : Conn σ) : Prop where
  bput_new : ∀ s d h, (c.BPUT s d).2 = some h → BlobPresent c (c.BPUT s d).1 h
  keeps : ∀ h, Preserved c (fun s => BlobPresent c s h)

/-- The uploads of a history are pairwise different and all present in the
store. -/
def GoodAt {σ : Type} (H : List Byte → String) (c : Conn σ) (s : σ) (tr : List Event) :
    Prop :=
  (uploads H tr).Nodup ∧ ∀ h ∈ uploads H tr, BlobPresent c s h

/-- Every `BPUT` of the history was answered with the hash of its data. -/
def AllAcked (H : List Byte → String) (tr : List Event) : Prop :=
  ∀ d reply, Event.bput d reply ∈ tr → reply = some (H d)

/-- Did the call return a value (no error, no panic)? -/
def Outcome.isRet {α : Type} : Outcome α → Bool
  | Outcome.ret _ => true
  | _ => false

/-! ## The standalone writer of `client/writer/file.go` -/

/-- The `WriteResult` of package `writer`. -/
structure writer.WriteResult where
  Hash : String := ""
  Size : Int := 0
  BlobsCnt : Int := 0
  SkippedCnt : Int := 0
  SkippedSize : Int := 0
  UploadedCnt : Int := 0
  UploadedSize : Int := 0
deriving DecidableEq, Repr

/-- One command sent by `writer.FileWriter`, with the reply as the code sees
it; the reply of `BPADD` is discarded by the code. -/
inductive writer.Event where
  | bexists (hash : String) (reply : Option Bool)
  | bput (data : List Byte) (reply : Option String)
  | bpadd (key : String) (index : Int) (hash : String) (ok : Bool)
deriving DecidableEq, Repr

/-- The pooled connection of package `writer`: the three commands that
`writer.FileWriter` sends. -/
structure writer.Conn (σ : Type) where
  BEXISTS : σ → String → σ × Option Bool
  BPUT : σ → List Byte → σ × Option String
  BPADD : σ → String → Int → String → σ × Bool

/-- The state of the store, the commands sent so far and (ghost) the buffers
finalized so far. -/
structure writer.World (σ : Type) where
  st : σ
  trace : List writer.Event := []
  chunks : List (List Byte) := []

/-- Lines 79-104 of `writer.FileWriter`: hash the buffer, feed the whole-file
hash, ask `BEXISTS`, upload with `BPUT` when absent, send `BPADD` with the
running blob count (its result is not looked at), update the counters. Both
"DB error" panics are `Panic.dbError` (line 85) and `Panic.errorBPUT`
(line 90). -/
def writer.finalize {σ : Type} (H : List Byte → String) (c : writer.Conn σ) (key : String)
    (buf fullHash : List Byte) (wr : writer.WriteResult) (w : writer.World σ) :
    writer.World σ × Except Panic (writer.WriteResult × List Byte) :=
  let nsha := H buf
  let fullHash1 := fullHash ++ buf
  let r1 := c.BEXISTS w.st nsha
  let w1 : writer.World σ :=
    { st := r1.1, trace := w.trace ++ [writer.Event.bexists nsha r1.2],
      chunks := w.chunks ++ [buf] }
  match r1.2 with
  | none => (w1, .error Panic.dbError)
  | some false =>
      let r2 := c.BPUT w1.st buf
      let w2 : writer.World σ :=
        { w1 with st := r2.1, trace := w1.trace ++ [writer.Event.bput buf r2.2] }
      match r2.2 with
      | none => (w2, .error Panic.errorBPUT)
      | some rsha =>
          let wr1 := { wr with UploadedCnt := wr.UploadedCnt + 1,
                               UploadedSize := wr.UploadedSize + buf.length }
          if rsha ≠ nsha then (w2, .error (Panic.corrupted rsha nsha))
          else
            let r3 := c.BPADD w2.st key wr1.BlobsCnt nsha
            let w3 : writer.World σ :=
              { w2 with st := r3.1,
                        trace := w2.trace ++ [writer.Event.bpadd key wr1.BlobsCnt nsha r3.2] }
            (w3, .ok ({ wr1 with Size := wr1.Size + buf.length, BlobsCnt := wr1.BlobsCnt + 1 },
              fullHash1))
  | some true =>
      let wr1 := { wr with SkippedSize := wr.SkippedSize + buf.length,
                           SkippedCnt := wr.SkippedCnt + 1 }
      let r3 := c.BPADD w1.st key wr1.BlobsCnt nsha
      let w3 : writer.World σ :=
        { w1 with st := r3.1,
                  trace := w1.trace ++ [writer.Event.bpadd key wr1.BlobsCnt nsha r3.2] }
      (w3, .ok ({ wr1 with Size := wr1.Size + buf.length, BlobsCnt := wr1.BlobsCnt + 1 },
        fullHash1))

/-- The `for` loop of `writer.FileWriter` (lines 69-109), by recursion on the
bytes still to be read. In every iteration `b` is a fresh one-byte slice, zero
until `Read` fills it, and `rs.Write(b)` and `buf.Write(b)` are executed whether
or not `Read` reported `io.EOF`: in the iteration `[]`, where it did, the byte
written is 0. The sizes are the literals `64 << 10` and `1 << 20`. -/
def writer.writerLoop {ρ σ : Type} (H : List Byte → String) (rs : Rolling ρ)
    (c : writer.Conn σ) (key : String) :
    List Byte → ρ → List Byte → List Byte → writer.WriteResult → writer.World σ →
      writer.World σ × Except Panic (writer.WriteResult × List Byte)
  | [], r, buf, fullHash, wr, w =>
      let eof := true
      let b : Byte := 0
      let r1 := rs.write r b
      let buf1 := buf ++ [b]
      let onSplit := rs.onSplit r1
      if (onSplit && decide (buf1.length > 64 <<< 10)) || decide (buf1.length ≥ 1 <<< 20)
          || eof then
        writer.finalize H c key buf1 fullHash wr w
      else (w, .ok (wr, fullHash))
  | b :: rest, r, buf, fullHash, wr, w =>
      let eof := false
      let r1 := rs.write r b
      let buf1 := buf ++ [b]
      let onSplit := rs.onSplit r1
      if (onSplit && decide (buf1.length > 64 <<< 10)) || decide (buf1.length ≥ 1 <<< 20)
          || eof then
        match writer.finalize H c key buf1 fullHash wr w with
        | (w1, .error p) => (w1, .error p)
        | (w1, .ok (wr1, fullHash1)) =>
            writer.writerLoop H rs c key rest r1 [] fullHash1 wr1 w1
      else writer.writerLoop H rs c key rest r1 buf1 fullHash wr w

/-- The function `FileWriter(key, path)` of package `writer`; `file = none` is
a path that cannot be opened, for which the empty result and the error are
returned. -/
def writer.FileWriter {ρ σ : Type} (H : List Byte → String) (rs : Rolling ρ)
    (c : writer.Conn σ) (w : writer.World σ) (key : String) (file : Option (List Byte)) :
    writer.World σ × Outcome writer.WriteResult :=
  match file with
  | none => (w, .err "can't open file")
  | some input =>
      match writer.writerLoop H rs c key input (rs.new 64) [] [] {} w with
      | (w1, .error p) => (w1, .panic p)
      | (w1, .ok (wr, fullHash)) => (w1, .ret { wr with Hash := H fullHash })

/-- Modelled from the spec: the store behind the connection of package
`writer`, which is not part of the sources at hand (`blobExists`, `blobPut`):
the hashes of the stored blobs and the entries sent with `BPADD`. -/
structure writer.MemStore where
  blobs : List String := []
  entries : List (String × Int × String) := []
deriving DecidableEq, Repr

/-- Modelled from the spec: the commands of the store of `writer.MemStore`,
none of which fails; `BPUT` stores and returns the hash `H` of the data. -/
def writer.memConn (H : List Byte → String) : writer.Conn writer.MemStore where
  BEXISTS s h := (s, some (s.blobs.contains h))
  BPUT s d := ({ s with blobs := s.blobs ++ [H d] }, some (H d))
  BPADD s k i h := ({ s with entries := s.entries ++ [(k, i, h)] }, true)

/-- The data of the `BPUT` commands of a history, in the order in which they
were sent. -/
def bputData : List Event → List (List Byte)
  | [] => []
  | Event.bput d _ :: rest => d :: bputData rest
  | _ :: rest => bputData rest

/-- The hashes asked for by the `BEXISTS` commands of a history, in the order
in which they were sent. -/
def bexistsHashes : List Event → List String
  | [] => []
  | Event.bexists h _ :: rest => h :: bexistsHashes rest
  | _ :: rest => bexistsHashes rest

/-! ## Theorems -/

/-- The loop of `FileWriter` finalizes exactly the buffers of `chunker`, in
order. -/
theorem writerLoop_eq_runChunks {ρ σ : Type} (H : List Byte → String) (rs : Rolling ρ)
    (c : Conn σ) (minB maxB : Nat) (key : String) (input : List Byte) :
    ∀ (r : ρ) (buf fullHash : List Byte) (wr : WriteResult) (w : World σ),
      writerLoop H rs c minB maxB key input r buf fullHash wr w
        = runChunks H c key (chunker rs minB maxB input r buf) fullHash wr w := by
  induction input with
  | nil =>
      intro r buf fullHash wr w
      simp only [writerLoop, chunker, runChunks, Bool.or_true, if_true]
      rcases hfin : finalize H c key buf fullHash wr w with ⟨w1, res⟩
      cases res with
      | error p => rfl
      | ok v => rfl
  | cons b rest ih =>
      intro r buf fullHash wr w
      simp only [writerLoop, chunker, Bool.or_false]
      split
      · simp only [runChunks]
        rcases hfin : finalize H c key (buf ++ [b]) fullHash wr w with ⟨w1, res⟩
        cases res with
        | error p => rfl
        | ok v => exact ih _ _ _ _ _
      · exact ih _ _ _ _ _


/-- A buffer is recorded as finalized whatever the store answers. -/
theorem finalize_chunks {σ : Type} (H : List Byte → String) (c : Conn σ) (key : String)
    (buf fullHash : List Byte) (wr : WriteResult) (w : World σ) :
    (finalize H c key buf fullHash wr w).1.chunks = w.chunks ++ [buf] := by
  unfold finalize
  simp only
  split
  · rfl
  · split
    · rfl
    · split
      · rfl
      · split <;> rfl
  · split <;> rfl

/-- A finalization that goes through: the counters, the whole-file hash input
and the commands issued. -/
theorem finalize_ok {σ : Type} (H : List Byte → String) (c : Conn σ) (key : String)
    (buf fullHash : List Byte) (wr : WriteResult) (w w1 : World σ) (wr1 : WriteResult)
    (fullHash1 : List Byte)
    (h : finalize H c key buf fullHash wr w = (w1, .ok (wr1, fullHash1))) :
    fullHash1 = fullHash ++ buf ∧ w1.chunks = w.chunks ++ [buf] ∧
      ∃ existed, wr1 = account wr buf.length existed ∧
        w1.trace = w.trace ++ okBlock H key (wr.Size + buf.length) buf existed := by
  have hc := finalize_chunks H c key buf fullHash wr w
  rw [h] at hc
  refine ⟨?_, hc, ?_⟩
  · unfold finalize at h
    simp only at h
    split at h
    · simp at h
    · split at h
      · simp at h
      · split at h
        · simp at h
        · split at h
          · simp only [Prod.mk.injEq, Except.ok.injEq] at h
            exact h.2.2.symm
          · simp at h
    · split at h
      · simp only [Prod.mk.injEq, Except.ok.injEq] at h
        exact h.2.2.symm
      · simp at h
  · unfold finalize at h
    simp only at h
    split at h
    · simp at h
    · rename_i hex
      split at h
      · simp at h
      · rename_i rsha hput
        split at h
        · simp at h
        · rename_i hsha
          simp only [ne_eq, Decidable.not_not] at hsha
          split at h
          · rename_i hl
            simp only [Prod.mk.injEq, Except.ok.injEq] at h
            obtain ⟨h1, h2, -⟩ := h
            refine ⟨false, ?_, ?_⟩
            · rw [← h2]; simp [account]
            · rw [← h1]; simp [okBlock, hex, hput, hsha, hl]
          · simp at h
    · rename_i hex
      split at h
      · rename_i hl
        simp only [Prod.mk.injEq, Except.ok.injEq] at h
        obtain ⟨h1, h2, -⟩ := h
        refine ⟨true, ?_, ?_⟩
        · rw [← h2]; simp [account]
        · rw [← h1]; simp [okBlock, hex, hl]
      · simp at h

/-- A finalization that panics: the commands issued and the panic. -/
theorem finalize_error {σ : Type} (H : List Byte → String) (c : Conn σ) (key : String)
    (buf fullHash : List Byte) (wr : WriteResult) (w w1 : World σ) (p : Panic)
    (h : finalize H c key buf fullHash wr w = (w1, .error p)) :
    w1.chunks = w.chunks ++ [buf] ∧
      ∃ evs, w1.trace = w.trace ++ evs ∧ FailBlock H key (wr.Size + buf.length) buf evs p := by
  have hc := finalize_chunks H c key buf fullHash wr w
  rw [h] at hc
  refine ⟨hc, ?_⟩
  unfold finalize at h
  simp only at h
  split at h
  · rename_i hex
    simp only [Prod.mk.injEq, Except.error.injEq] at h
    obtain ⟨h1, h2⟩ := h
    refine ⟨_, ?_, h2 ▸ FailBlock.existsErr⟩
    rw [← h1]; simp [hex]
  · rename_i hex
    split at h
    · rename_i hput
      simp only [Prod.mk.injEq, Except.error.injEq] at h
      obtain ⟨h1, h2⟩ := h
      refine ⟨_, ?_, h2 ▸ FailBlock.putErr⟩
      rw [← h1]; simp [hex, hput]
    · rename_i rsha hput
      split at h
      · rename_i hsha
        simp only [Prod.mk.injEq, Except.error.injEq] at h
        obtain ⟨h1, h2⟩ := h
        refine ⟨_, ?_, h2 ▸ FailBlock.corrupt rsha hsha⟩
        rw [← h1]; simp [hex, hput]
      · rename_i hsha
        simp only [ne_eq, Decidable.not_not] at hsha
        split at h
        · simp at h
        · rename_i hl
          simp only [Prod.mk.injEq, Except.error.injEq] at h
          obtain ⟨h1, h2⟩ := h
          refine ⟨_, ?_, h2 ▸ FailBlock.laddErrUploaded⟩
          rw [← h1]; simp [hex, hput, hsha, hl]
  · rename_i hex
    split at h
    · simp at h
    · rename_i hl
      simp only [Prod.mk.injEq, Except.error.injEq] at h
      obtain ⟨h1, h2⟩ := h
      refine ⟨_, ?_, h2 ▸ FailBlock.laddErrSkipped⟩
      rw [← h1]; simp [hex, hl]

/-- A reliable store lets every finalization go through. -/
theorem finalize_reliable {σ : Type} (H : List Byte → String) (c : Conn σ)
    (hrel : Reliable H c) (key : String)
    (buf fullHash : List Byte) (wr : WriteResult) (w : World σ) :
    ∃ w1 wr1 fullHash1, finalize H c key buf fullHash wr w = (w1, .ok (wr1, fullHash1)) := by
  unfold finalize
  simp only
  split
  · rename_i hex
    exact absurd hex (hrel.bexists _ _)
  · split
    · rename_i hput
      rw [hrel.bput] at hput
      simp at hput
    · rename_i rsha hput
      rw [hrel.bput] at hput
      simp only [Option.some.injEq] at hput
      simp [hrel.ladd, hput.symm]
  · simp [hrel.ladd]

theorem account_Size (wr : WriteResult) (n : Nat) (existed : Bool) :
    (account wr n existed).Size = wr.Size + n := by
  cases existed <;> simp [account]

/-- A run over a list of buffers that goes through. -/
theorem runChunks_ok {σ : Type} (H : List Byte → String) (c : Conn σ) (key : String)
    (cs : List (List Byte)) :
    ∀ (fullHash : List Byte) (wr : WriteResult) (w w1 : World σ) (wr1 : WriteResult)
      (fullHash1 : List Byte),
      runChunks H c key cs fullHash wr w = (w1, .ok (wr1, fullHash1)) →
      fullHash1 = fullHash ++ cs.flatten ∧ w1.chunks = w.chunks ++ cs ∧
        ∃ done : List (List Byte × Bool), done.map Prod.fst = cs ∧ wr1 = accounts wr done ∧
          w1.trace = w.trace ++ okBlocks H key wr.Size done := by
  induction cs with
  | nil =>
      intro fullHash wr w w1 wr1 fullHash1 h
      simp only [runChunks, Prod.mk.injEq, Except.ok.injEq] at h
      obtain ⟨h1, h2, h3⟩ := h
      subst h1 h2 h3
      exact ⟨by simp, by simp, [], rfl, rfl, by simp [okBlocks]⟩
  | cons ch cs ih =>
      intro fullHash wr w w1 wr1 fullHash1 h
      simp only [runChunks] at h
      rcases hfin : finalize H c key ch fullHash wr w with ⟨w2, res⟩
      rw [hfin] at h
      cases res with
      | error p => simp at h
      | ok v =>
          obtain ⟨wr2, fullHash2⟩ := v
          simp only at h
          obtain ⟨hf, hch, existed, hwr, htr⟩ := finalize_ok H c key ch fullHash wr w w2 wr2 fullHash2 hfin
          obtain ⟨hf1, hch1, done, hdone, hwr1, htr1⟩ := ih fullHash2 wr2 w2 w1 wr1 fullHash1 h
          refine ⟨?_, ?_, (ch, existed) :: done, ?_, ?_, ?_⟩
          · rw [hf1, hf]; simp
          · rw [hch1, hch]; simp
          · simp [hdone]
          · rw [hwr1, hwr]; rfl
          · rw [htr1, htr, hwr, account_Size]
            simp [okBlocks]

/-- A run over a list of buffers that panics: the buffers before went through,
the one at which it stops is the last one recorded. -/
theorem runChunks_error {σ : Type} (H : List Byte → String) (c : Conn σ) (key : String)
    (cs : List (List Byte)) :
    ∀ (fullHash : List Byte) (wr : WriteResult) (w w1 : World σ) (p : Panic),
      runChunks H c key cs fullHash wr w = (w1, .error p) →
      ∃ (done : List (List Byte × Bool)) (ch : List Byte) (rest : List (List Byte))
        (evs : List Event),
        cs = done.map Prod.fst ++ ch :: rest ∧
        w1.chunks = w.chunks ++ done.map Prod.fst ++ [ch] ∧
        w1.trace = w.trace ++ okBlocks H key wr.Size done ++ evs ∧
        FailBlock H key ((accounts wr done).Size + ch.length) ch evs p := by
  induction cs with
  | nil =>
      intro fullHash wr w w1 p h
      simp [runChunks] at h
  | cons ch cs ih =>
      intro fullHash wr w w1 p h
      simp only [runChunks] at h
      rcases hfin : finalize H c key ch fullHash wr w with ⟨w2, res⟩
      rw [hfin] at h
      cases res with
      | error q =>
          simp only [Prod.mk.injEq, Except.error.injEq] at h
          obtain ⟨h1, h2⟩ := h
          subst h1 h2
          obtain ⟨hch, evs, htr, hfb⟩ := finalize_error H c key ch fullHash wr w w2 q hfin
          exact ⟨[], ch, cs, evs, by simp, by simpa using hch, by simpa [okBlocks] using htr,
            by simpa [accounts] using hfb⟩
      | ok v =>
          obtain ⟨wr2, fullHash2⟩ := v
          simp only at h
          obtain ⟨-, hch, existed, hwr, htr⟩ := finalize_ok H c key ch fullHash wr w w2 wr2 fullHash2 hfin
          obtain ⟨done, ch1, rest, evs, hcs, hch1, htr1, hfb⟩ := ih fullHash2 wr2 w2 w1 p h
          refine ⟨(ch, existed) :: done, ch1, rest, evs, ?_, ?_, ?_, ?_⟩
          · simp [hcs]
          · rw [hch1, hch]; simp
          · rw [htr1, htr, hwr, account_Size]
            simp [okBlocks]
          · rw [hwr] at hfb
            exact hfb

/-- With a reliable store a run over a list of buffers goes through. -/
theorem runChunks_reliable {σ : Type} (H : List Byte → String) (c : Conn σ)
    (hrel : Reliable H c) (key : String) (cs : List (List Byte)) :
    ∀ (fullHash : List Byte) (wr : WriteResult) (w : World σ),
      ∃ w1 wr1 fullHash1, runChunks H c key cs fullHash wr w = (w1, .ok (wr1, fullHash1)) := by
  induction cs with
  | nil =>
      intro fullHash wr w
      exact ⟨w, wr, fullHash, rfl⟩
  | cons ch cs ih =>
      intro fullHash wr w
      obtain ⟨w2, wr2, fullHash2, hfin⟩ := finalize_reliable H c hrel key ch fullHash wr w
      obtain ⟨w1, wr1, fullHash1, h⟩ := ih fullHash2 wr2 w2
      exact ⟨w1, wr1, fullHash1, by simp only [runChunks, hfin]; exact h⟩

/-- The buffers of `chunker`, concatenated, are the current buffer followed by
the bytes still to be read. -/
theorem chunker_flatten {ρ : Type} (rs : Rolling ρ) (minB maxB : Nat) (input : List Byte) :
    ∀ (r : ρ) (buf : List Byte), (chunker rs minB maxB input r buf).flatten = buf ++ input := by
  induction input with
  | nil => intro r buf; simp [chunker]
  | cons b rest ih =>
      intro r buf
      simp only [chunker]
      split
      · simp [ih]
      · simp [ih]

/-- The normal form of a run of `FileWriter` that returns. -/
theorem FileWriter_ret {ρ σ : Type} (H : List Byte → String) (rs : Rolling ρ) (c : Conn σ)
    (minB maxB : Nat) (w w1 : World σ) (key : String) (input : List Byte) (wr : WriteResult)
    (h : FileWriter H rs c minB maxB w key (some input) = (w1, .ret wr)) :
    w1.chunks = w.chunks ++ chunker rs minB maxB input (rs.new 64) [] ∧
      ∃ done : List (List Byte × Bool),
        done.map Prod.fst = chunker rs minB maxB input (rs.new 64) [] ∧
        wr = { accounts {} done with Hash := H input, FilesCount := (accounts {} done).FilesCount + 1,
                                     FilesUploaded := (accounts {} done).FilesUploaded + 1 } ∧
        w1.trace = w.trace ++ Event.ladd key 0 "" true :: okBlocks H key 0 done := by
  unfold FileWriter at h
  simp only at h
  split at h
  · rename_i hl
    rw [writerLoop_eq_runChunks] at h
    split at h
    · simp at h
    · rename_i w2 wr2 fullHash2 hrun
      simp only [Prod.mk.injEq, Outcome.ret.injEq] at h
      obtain ⟨h1, h2⟩ := h
      subst h1
      obtain ⟨hf, hch, done, hdone, hwr, htr⟩ := runChunks_ok H c key _ _ _ _ _ _ _ hrun
      refine ⟨by simpa using hch, done, hdone, ?_, ?_⟩
      · rw [← h2, hf, chunker_flatten, hwr]; simp
      · rw [htr]; simp [hl]
  · simp at h

/-- Opening the file is the only source of an error return of `FileWriter`. -/
theorem FileWriter_not_err {ρ σ : Type} (H : List Byte → String) (rs : Rolling ρ) (c : Conn σ)
    (minB maxB : Nat) (w w1 : World σ) (key : String) (input : List Byte) (msg : String) :
    FileWriter H rs c minB maxB w key (some input) ≠ (w1, .err msg) := by
  unfold FileWriter
  simp only
  split
  · split <;> simp
  · simp

/-- With a reliable store `FileWriter` returns a `WriteResult`. -/
theorem FileWriter_reliable {ρ σ : Type} (H : List Byte → String) (rs : Rolling ρ) (c : Conn σ)
    (hrel : Reliable H c) (minB maxB : Nat) (w : World σ) (key : String) (input : List Byte) :
    ∃ w1 wr, FileWriter H rs c minB maxB w key (some input) = (w1, .ret wr) := by
  unfold FileWriter
  simp only [hrel.ladd, if_true]
  rw [writerLoop_eq_runChunks]
  obtain ⟨w2, wr2, fullHash2, hrun⟩ := runChunks_reliable H c hrel key
    (chunker rs minB maxB input (rs.new 64) []) [] {}
    { w with st := (c.LADD w.st key 0 "").1, trace := w.trace ++ [Event.ladd key 0 "" true] }
  rw [hrun]
  exact ⟨_, _, rfl⟩

/-- The normal form of a run of `FileWriter` that panics: either the sentinel
`LADD` failed, or some buffers went through and the next one failed. -/
theorem FileWriter_panic {ρ σ : Type} (H : List Byte → String) (rs : Rolling ρ) (c : Conn σ)
    (minB maxB : Nat) (w w1 : World σ) (key : String) (input : List Byte) (p : Panic)
    (h : FileWriter H rs c minB maxB w key (some input) = (w1, .panic p)) :
    (w1.trace = w.trace ++ [Event.ladd key 0 "" false] ∧ p = Panic.dbLADD ∧
        w1.chunks = w.chunks) ∨
      ∃ (done : List (List Byte × Bool)) (ch : List Byte) (rest : List (List Byte))
        (evs : List Event),
        chunker rs minB maxB input (rs.new 64) [] = done.map Prod.fst ++ ch :: rest ∧
        w1.chunks = w.chunks ++ done.map Prod.fst ++ [ch] ∧
        w1.trace = w.trace ++ Event.ladd key 0 "" true :: okBlocks H key 0 done ++ evs ∧
        FailBlock H key ((accounts {} done).Size + ch.length) ch evs p := by
  unfold FileWriter at h
  simp only at h
  split at h
  · rename_i hl
    rw [writerLoop_eq_runChunks] at h
    split at h
    · rename_i w2 q hrun
      simp only [Prod.mk.injEq, Outcome.panic.injEq] at h
      obtain ⟨h1, h2⟩ := h
      subst h1 h2
      obtain ⟨done, ch, rest, evs, hcs, hch, htr, hfb⟩ := runChunks_error H c key _ _ _ _ _ _ hrun
      right
      refine ⟨done, ch, rest, evs, hcs, by simpa using hch, ?_, hfb⟩
      rw [htr]; simp [hl]
    · simp at h
  · rename_i hl
    simp only [Prod.mk.injEq, Outcome.panic.injEq] at h
    obtain ⟨h1, h2⟩ := h
    left
    subst h1
    simp at hl
    exact ⟨by simp [hl], h2.symm, rfl⟩

theorem ladds_append (xs ys : List Event) : ladds (xs ++ ys) = ladds xs ++ ladds ys := by
  induction xs with
  | nil => rfl
  | cons e xs ih => cases e <;> simp [ladds, ih]

/-- The index entries appended by a list of buffers that went through do not
depend on the answers of `BEXISTS`. -/
theorem ladds_okBlocks (H : List Byte → String) (key : String)
    (done : List (List Byte × Bool)) :
    ∀ off : Int, ladds (okBlocks H key off done) = indexEntries H off (done.map Prod.fst) := by
  induction done with
  | nil => intro off; rfl
  | cons d done ih =>
      intro off
      obtain ⟨ch, existed⟩ := d
      cases existed <;> simp [okBlocks, okBlock, ladds_append, ladds, ih, indexEntries]

/-- The index entries appended by a run of `FileWriter` that returns: the
sentinel, then one entry per buffer of `chunker`. -/
theorem FileWriter_ladds {ρ σ : Type} (H : List Byte → String) (rs : Rolling ρ) (c : Conn σ)
    (minB maxB : Nat) (w w1 : World σ) (key : String) (input : List Byte) (wr : WriteResult)
    (h : FileWriter H rs c minB maxB w key (some input) = (w1, .ret wr)) :
    ladds w1.trace = ladds w.trace ++
      (0, "") :: indexEntries H 0 (chunker rs minB maxB input (rs.new 64) []) := by
  obtain ⟨-, done, hdone, -, htr⟩ := FileWriter_ret H rs c minB maxB w w1 key input wr h
  rw [htr, ladds_append, ← hdone, ← ladds_okBlocks H key done 0]
  rfl

theorem accounts_Size (done : List (List Byte × Bool)) :
    ∀ wr : WriteResult,
      (accounts wr done).Size = wr.Size + ((done.map Prod.fst).flatten.length : Int) := by
  induction done with
  | nil => intro wr; simp [accounts]
  | cons d done ih =>
      intro wr
      obtain ⟨ch, existed⟩ := d
      simp only [accounts, ih, account_Size, List.map_cons, List.flatten_cons, List.length_append]
      push_cast
      ring

theorem accounts_BlobsCount (done : List (List Byte × Bool)) :
    ∀ wr : WriteResult, (accounts wr done).BlobsCount = wr.BlobsCount + (done.length : Int) := by
  induction done with
  | nil => intro wr; simp [accounts]
  | cons d done ih =>
      intro wr
      obtain ⟨ch, existed⟩ := d
      simp only [accounts, ih, List.length_cons]
      cases existed <;> simp [account] <;> ring

/-- The accounting invariant is kept by every finalized buffer. -/
theorem accounts_balanced (done : List (List Byte × Bool)) :
    ∀ wr : WriteResult,
      wr.BlobsUploaded + wr.BlobsSkipped = wr.BlobsCount →
      wr.SizeUploaded + wr.SizeSkipped = wr.Size →
      (accounts wr done).BlobsUploaded + (accounts wr done).BlobsSkipped
          = (accounts wr done).BlobsCount ∧
        (accounts wr done).SizeUploaded + (accounts wr done).SizeSkipped
          = (accounts wr done).Size := by
  induction done with
  | nil => intro wr h1 h2; exact ⟨h1, h2⟩
  | cons d done ih =>
      intro wr h1 h2
      obtain ⟨ch, existed⟩ := d
      simp only [accounts]
      apply ih
      · cases existed <;> simp [account] <;> omega
      · cases existed <;> simp [account] <;> omega

/-- The normal form of a run of `SmallFileWriter` that returns. -/
theorem SmallFileWriter_ret {σ : Type} (H : List Byte → String) (c : Conn σ)
    (w w1 : World σ) (key : String) (input : List Byte) (wr : WriteResult)
    (h : SmallFileWriter H c w key (some input) = (w1, .ret wr)) :
    w1.chunks = w.chunks ++ [input] ∧
      ∃ existed : Bool,
        wr = { account {} input.length existed with
                 Hash := H input,
                 FilesCount := (account {} input.length existed).FilesCount + 1,
                 FilesUploaded := (account {} input.length existed).FilesUploaded + 1 } ∧
        w1.trace = w.trace ++ Event.ladd key 0 "" true :: okBlock H key input.length input existed := by
  unfold SmallFileWriter at h
  simp only at h
  split at h
  · rename_i hl
    split at h
    · simp at h
    · rename_i w2 wr2 fullHash2 hrun
      simp only [Prod.mk.injEq, Outcome.ret.injEq] at h
      obtain ⟨h1, h2⟩ := h
      subst h1
      obtain ⟨-, hch, existed, hwr, htr⟩ := finalize_ok H c key _ _ _ _ _ _ _ hrun
      refine ⟨by simpa using hch, existed, ?_, ?_⟩
      · rw [← h2, hwr]
      · rw [htr]
        have h0 : ({} : WriteResult).Size = 0 := rfl
        simp [hl, h0]
  · simp at h

/-- With a reliable store `SmallFileWriter` returns a `WriteResult`. -/
theorem SmallFileWriter_reliable {σ : Type} (H : List Byte → String) (c : Conn σ)
    (hrel : Reliable H c) (w : World σ) (key : String) (input : List Byte) :
    ∃ w1 wr, SmallFileWriter H c w key (some input) = (w1, .ret wr) := by
  unfold SmallFileWriter
  simp only [hrel.ladd, if_true]
  obtain ⟨w2, wr2, fullHash2, hrun⟩ := finalize_reliable H c hrel key input [] {}
    { w with st := (c.LADD w.st key 0 "").1, trace := w.trace ++ [Event.ladd key 0 "" true] }
  rw [hrun]
  exact ⟨_, _, rfl⟩

/-- The normal form of a run of `SmallFileWriter` that panics. -/
theorem SmallFileWriter_panic {σ : Type} (H : List Byte → String) (c : Conn σ)
    (w w1 : World σ) (key : String) (input : List Byte) (p : Panic)
    (h : SmallFileWriter H c w key (some input) = (w1, .panic p)) :
    (w1.trace = w.trace ++ [Event.ladd key 0 "" false] ∧ p = Panic.dbLADD) ∨
      ∃ evs : List Event,
        w1.trace = w.trace ++ Event.ladd key 0 "" true :: evs ∧
        FailBlock H key input.length input evs p := by
  unfold SmallFileWriter at h
  simp only at h
  split at h
  · rename_i hl
    split at h
    · rename_i w2 q hrun
      simp only [Prod.mk.injEq, Outcome.panic.injEq] at h
      obtain ⟨h1, h2⟩ := h
      subst h1 h2
      obtain ⟨-, evs, htr, hfb⟩ := finalize_error H c key _ _ _ _ _ _ hrun
      right
      refine ⟨evs, ?_, ?_⟩
      · rw [htr]; simp [hl]
      · have h0 : ({} : WriteResult).Size = 0 := rfl
        simpa [h0] using hfb
    · simp at h
  · rename_i hl
    simp only [Prod.mk.injEq, Outcome.panic.injEq] at h
    obtain ⟨h1, h2⟩ := h
    left
    subst h1
    simp at hl
    exact ⟨by simp [hl], h2.symm⟩

/-- The store of `memConn` is reliable. -/
theorem memConn_reliable (H : List Byte → String) : Reliable H (memConn H) :=
  ⟨fun _ _ _ _ => rfl, fun _ _ => by simp [memConn], fun _ _ => rfl⟩

/-- C2. For every input, the `Hash` that `FileWriter` returns is the digest
`H` of the whole input, whatever the split predicate and the store answer; and
with a reliable store the run does return. -/
theorem FileWriter_Hash_eq_digest_of_input {ρ σ : Type} (H : List Byte → String)
    (rs : Rolling ρ) (c : Conn σ) (minB maxB : Nat) (w : World σ) (key : String)
    (input : List Byte) :
    (Reliable H c → ∃ w1 wr, FileWriter H rs c minB maxB w key (some input) = (w1, .ret wr)) ∧
    ∀ w1 wr, FileWriter H rs c minB maxB w key (some input) = (w1, .ret wr) →
      wr.Hash = H input := by
  refine ⟨fun hrel => FileWriter_reliable H rs c hrel minB maxB w key input, ?_⟩
  intro w1 wr h
  obtain ⟨-, done, -, hwr, -⟩ := FileWriter_ret H rs c minB maxB w w1 key input wr h
  rw [hwr]

/-- Witness of C2: the hash of a run over a twelve-byte input. -/
theorem FileWriter_Hash_eq_digest_of_input_witness :
    ∃ w1 wr, FileWriter hexHash zeroSplit (memConn hexHash) 2 4 emptyWorld "k"
        (some [1, 2, 0, 3, 0, 4, 0, 5, 6, 7, 8, 9]) = (w1, .ret wr) ∧
      wr.Hash = hexHash [1, 2, 0, 3, 0, 4, 0, 5, 6, 7, 8, 9] :=
  ⟨_, _, rfl, (FileWriter_Hash_eq_digest_of_input hexHash zeroSplit (memConn hexHash) 2 4
    emptyWorld "k" [1, 2, 0, 3, 0, 4, 0, 5, 6, 7, 8, 9]).2 _ _ rfl⟩

/-- Without a split signal nothing is finalized before the buffer reaches
`maxB` bytes. -/
theorem chunker_neverSplit_lt (minB maxB : Nat) (xs : List Byte) :
    ∀ buf : List Byte, buf.length + xs.length < maxB →
      chunker neverSplit minB maxB xs () buf = [buf ++ xs] := by
  induction xs with
  | nil => intro buf _; simp [chunker]
  | cons b rest ih =>
      intro buf hlen
      simp only [List.length_cons] at hlen
      have h1 : ¬ (maxB ≤ buf.length + 1) := by omega
      simp only [chunker, neverSplit, Bool.false_and, Bool.false_or, List.length_append,
        List.length_singleton, ge_iff_le, decide_eq_true_eq, h1, if_false]
      have := ih (buf ++ [b]) (by simp; omega)
      simpa [neverSplit] using this

/-- Without a split signal, an input that fills the buffer to exactly `maxB`
bytes is finalized at its last byte, and the end of the stream then finalizes
an empty buffer. -/
theorem chunker_neverSplit_full (minB maxB : Nat) (xs : List Byte) :
    ∀ buf : List Byte, xs ≠ [] → buf.length + xs.length = maxB →
      chunker neverSplit minB maxB xs () buf = [buf ++ xs, []] := by
  induction xs with
  | nil => intro buf h; exact absurd rfl h
  | cons b rest ih =>
      intro buf _ hlen
      simp only [List.length_cons] at hlen
      cases rest with
      | nil =>
          simp only [List.length_nil] at hlen
          simp [chunker, neverSplit, hlen]
      | cons b1 rest1 =>
          simp only [List.length_cons] at hlen
          have h1 : ¬ (maxB ≤ buf.length + 1) := by omega
          simp only [chunker, neverSplit, Bool.false_and, Bool.false_or, List.length_append,
            List.length_singleton, ge_iff_le, decide_eq_true_eq, h1, if_false]
          have := ih (buf ++ [b]) (by simp) (by simp; omega)
          simpa [neverSplit, chunker, h1] using this

/-- Whatever the split predicate, an input that is at least `maxB` bytes long
has a first buffer; read as a file of its own, that buffer is finalized at its
last byte and followed by an empty buffer at the end of the stream. -/
theorem chunker_first_cut {ρ : Type} (rs : Rolling ρ) (minB maxB : Nat) (input : List Byte) :
    ∀ (r : ρ) (buf : List Byte), buf.length < maxB → maxB ≤ buf.length + input.length →
      ∃ pre post, input = pre ++ post ∧ pre ≠ [] ∧
        chunker rs minB maxB pre r buf = [buf ++ pre, []] ∧
        (minB < (buf ++ pre).length ∨ (buf ++ pre).length = maxB) := by
  induction input with
  | nil => intro r buf h1 h2; simp at h2; omega
  | cons b rest ih =>
      intro r buf h1 h2
      by_cases hcut : ((rs.onSplit (rs.write r b) && decide ((buf ++ [b]).length > minB))
          || decide ((buf ++ [b]).length ≥ maxB)) = true
      · refine ⟨[b], rest, rfl, by simp, ?_, ?_⟩
        · simp only [chunker, hcut, if_true]
        · simp only [Bool.or_eq_true, Bool.and_eq_true, decide_eq_true_eq] at hcut
          rcases hcut with h | h
          · exact Or.inl h.2
          · right
            simp only [List.length_append, List.length_singleton] at h ⊢
            omega
      · have hlt : (buf ++ [b]).length < maxB := by
          simp only [Bool.or_eq_true, Bool.and_eq_true, decide_eq_true_eq, not_or] at hcut
          omega
        obtain ⟨pre, post, hsplit, -, hch, hlen⟩ := ih (rs.write r b) (buf ++ [b]) hlt
          (by simp only [List.length_append, List.length_singleton, List.length_cons] at h2 ⊢
              omega)
        refine ⟨b :: pre, post, by simp [hsplit], by simp, ?_, ?_⟩
        · simp only [chunker, hcut]
          simpa using hch
        · simpa using hlen

theorem MinBlobSize_eq : MinBlobSize = 65536 := by decide

theorem MaxBlobSize_eq : MaxBlobSize = 1048576 := by decide

/-- Without a split signal, a file of exactly `maxB` bytes gets three index
entries, the last two at the same offset. -/
theorem FileWriter_neverSplit_full_ladds (H : List Byte → String) (key : String) (b : Byte)
    (minB maxB : Nat) (hpos : 0 < maxB) :
    ∃ w1 wr, FileWriter H neverSplit (memConn H) minB maxB emptyWorld key
        (some (List.replicate maxB b)) = (w1, .ret wr) ∧
      ladds w1.trace = [(0, ""), ((maxB : Int), H (List.replicate maxB b)), ((maxB : Int), H [])] := by
  obtain ⟨w1, wr, h⟩ := FileWriter_reliable H neverSplit (memConn H) (memConn_reliable H)
    minB maxB emptyWorld key (List.replicate maxB b)
  have hl := FileWriter_ladds H neverSplit (memConn H) minB maxB emptyWorld w1 key
    (List.replicate maxB b) wr h
  have hne : List.replicate maxB b ≠ [] := by
    intro h0
    have := congrArg List.length h0
    simp only [List.length_replicate, List.length_nil] at this
    omega
  have hcs : chunker neverSplit minB maxB (List.replicate maxB b)
      (neverSplit.new 64) [] = [List.replicate maxB b, []] := by
    have := chunker_neverSplit_full minB maxB (List.replicate maxB b) [] hne (by simp)
    simpa using this
  rw [hcs] at hl
  refine ⟨w1, wr, h, ?_⟩
  rw [hl]
  simp [indexEntries, emptyWorld, ladds]

/-- C3 (the code at the failing input). A file of exactly `MaxBlobSize` bytes
on which the rolling checksum signals no split: `FileWriter` returns, and the
offsets it appended with `LADD` are 0, 1048576 and 1048576 again, the last one
for the empty buffer finalized at the end of the stream. -/
theorem FileWriter_offsets_repeat_at_end (H : List Byte → String) (key : String) (b : Byte) :
    ∃ w1 wr, FileWriter H neverSplit (memConn H) MinBlobSize MaxBlobSize emptyWorld key
        (some (List.replicate MaxBlobSize b)) = (w1, .ret wr) ∧
      (ladds w1.trace).map Prod.fst = [0, 1048576, 1048576] ∧
      ¬ List.Pairwise (fun x y => x < y) ((ladds w1.trace).map Prod.fst) := by
  obtain ⟨w1, wr, h, hl⟩ := FileWriter_neverSplit_full_ladds H key b MinBlobSize MaxBlobSize
    (by decide)
  have hm : ((MaxBlobSize : Nat) : Int) = 1048576 := by decide
  have hl2 : (ladds w1.trace).map Prod.fst = [0, 1048576, 1048576] := by
    rw [hl]
    simp only [List.map_cons, List.map_nil, hm]
  refine ⟨w1, wr, h, hl2, ?_⟩
  rw [hl2]
  decide

/-- Whatever the rolling checksum, some file longer than `minB` makes
`FileWriter` finalize the whole file and then an empty buffer. -/
theorem FileWriter_empty_chunk_general {ρ : Type} (H : List Byte → String)
    (rs : Rolling ρ) (key : String) (minB maxB : Nat) (hlt : minB < maxB) :
    ∃ input : List Byte, minB < input.length ∧ input.length ≤ maxB ∧
      ∃ w1 wr, FileWriter H rs (memConn H) minB maxB emptyWorld key (some input) = (w1, .ret wr) ∧
        w1.chunks = [input, []] ∧ wr.BlobsCount = 2 := by
  obtain ⟨pre, post, hsplit, -, hcs, hlen⟩ := chunker_first_cut rs minB maxB
    (List.replicate maxB 0) (rs.new 64) [] (by simp only [List.length_nil]; omega)
    (by simp only [List.length_nil, List.length_replicate]; omega)
  have hle : pre.length ≤ maxB := by
    have := congrArg List.length hsplit
    simp only [List.length_replicate, List.length_append] at this
    omega
  have hgt : minB < pre.length := by
    simp only [List.nil_append] at hlen
    omega
  obtain ⟨w1, wr, h⟩ := FileWriter_reliable H rs (memConn H) (memConn_reliable H)
    minB maxB emptyWorld key pre
  obtain ⟨hch, done, hdone, hwr, -⟩ := FileWriter_ret H rs (memConn H) minB maxB
    emptyWorld w1 key pre wr h
  rw [hcs] at hch hdone
  refine ⟨pre, hgt, hle, w1, wr, h, by simpa [emptyWorld] using hch, ?_⟩
  have hlen2 : done.length = 2 := by
    have := congrArg List.length hdone
    simpa using this
  rw [hwr]
  simp only [accounts_BlobsCount, hlen2]
  rfl

/-- C4 (the code at the failing input). Whatever the rolling checksum, there is
a file longer than `MinBlobSize` on which `FileWriter` finalizes two buffers,
the whole file and then an empty one (of length 0, below 1): the first buffer
of any stream of at least `MaxBlobSize` bytes, read as a file of its own. -/
theorem FileWriter_finalizes_empty_chunk {ρ : Type} (H : List Byte → String)
    (rs : Rolling ρ) (key : String) :
    ∃ input : List Byte, MinBlobSize < input.length ∧ input.length ≤ MaxBlobSize ∧
      ∃ w1 wr, FileWriter H rs (memConn H) MinBlobSize MaxBlobSize emptyWorld key
          (some input) = (w1, .ret wr) ∧
        w1.chunks = [input, []] ∧ wr.BlobsCount = 2 :=
  FileWriter_empty_chunk_general H rs key MinBlobSize MaxBlobSize (by decide)

/-- The tail of `PutFile` returns only when the hashes agree and both the
metadata record and the commit went through. -/
theorem putFileFinish_ret {σ : Type} (c : Conn σ) (f : File) (sha : String)
    (wr wr1 : WriteResult) (w w1 : World σ) (m : Meta)
    (h : putFileFinish c f sha wr w = (w1, .ret (m, wr1))) :
    wr1 = wr ∧ sha = wr.Hash ∧
      m = { Ref := wr.Hash, Name := f.name, Size := wr.Size, Type_ := "file",
            ModTime := f.modTime, Mode := f.mode } ∧
      w1.trace = w.trace ++ [Event.metaSave m true, Event.txcommit true] ∧
      w1.chunks = w.chunks := by
  unfold putFileFinish at h
  simp only at h
  split at h
  · simp at h
  · rename_i hsha
    simp only [ne_eq, Decidable.not_not] at hsha
    split at h
    · rename_i hsave
      split at h
      · rename_i hcommit
        simp only [Prod.mk.injEq, Outcome.ret.injEq] at h
        obtain ⟨h1, h2, h3⟩ := h
        subst h1 h2 h3
        simp [hsha, hsave, hcommit]
      · simp at h
    · simp at h

/-- The tail of `PutFile` does not panic. -/
theorem putFileFinish_not_panic {σ : Type} (c : Conn σ) (f : File) (sha : String)
    (wr : WriteResult) (w w1 : World σ) (p : Panic) :
    putFileFinish c f sha wr w ≠ (w1, .panic p) := by
  unfold putFileFinish
  simp only
  split
  · simp
  · split
    · split <;> simp
    · simp

/-- The `WriteResult` that `PutFile` returns comes from the short-circuit for
a file that is already known, or from the writer chosen by the file size. -/
theorem PutFile_ret {ρ σ : Type} (H fullSHA1 : List Byte → String) (rs : Rolling ρ)
    (c : Conn σ) (minB maxB : Nat) (w w1 : World σ) (args : List String) (f : File)
    (m : Meta) (wr : WriteResult)
    (h : PutFile H fullSHA1 rs c minB maxB w args (some f) = (w1, .ret (m, wr))) :
    fullSHA1 f.data = wr.Hash ∧
    m = { Ref := wr.Hash, Name := f.name, Size := wr.Size, Type_ := "file",
          ModTime := f.modTime, Mode := f.mode } ∧
    ∃ (reply : String) (cnt : Int) (w2 : World σ),
      w2.trace = w.trace ++ [Event.txinit args (some reply), Event.llen (fullSHA1 f.data) (some cnt)] ∧
      w2.chunks = w.chunks ∧
      (((0 < cnt ∨ fullSHA1 f.data = emptyHash) ∧
          wr = { Hash := fullSHA1 f.data, AlreadyExists := true, FilesSkipped := 1,
                 FilesCount := 1, SizeSkipped := f.data.length, Size := f.data.length,
                 BlobsCount := cnt, BlobsSkipped := cnt } ∧
          w1.trace = w2.trace ++ [Event.metaSave m true, Event.txcommit true] ∧
          w1.chunks = w2.chunks) ∨
        (¬ (0 < cnt ∨ fullSHA1 f.data = emptyHash) ∧
          ∃ w3 : World σ,
            (if f.data.length > minB
              then FileWriter H rs c minB maxB w2 (fullSHA1 f.data) (some f.data)
              else SmallFileWriter H c w2 (fullSHA1 f.data) (some f.data)) = (w3, .ret wr) ∧
            w1.trace = w3.trace ++ [Event.metaSave m true, Event.txcommit true] ∧
            w1.chunks = w3.chunks)) := by
  unfold PutFile at h
  simp only at h
  split at h
  · simp at h
  · rename_i reply hinit
    split at h
    · simp at h
    · rename_i cnt hlen
      split at h
      · rename_i hcond
        simp only [gt_iff_lt, Bool.or_eq_true, decide_eq_true_eq] at hcond
        obtain ⟨hwr, hsha, hm, htr, hch⟩ := putFileFinish_ret c f _ _ _ _ _ _ h
        refine ⟨?_, ?_, reply, cnt, _, ?_, ?_, Or.inl ⟨hcond, hwr, htr, hch⟩⟩
        · rw [hwr]
        · rw [hm, hwr]
        · simp [hinit, hlen]
        · rfl
      · rename_i hcond
        simp only [gt_iff_lt, Bool.or_eq_true, decide_eq_true_eq] at hcond
        split at h
        · simp at h
        · simp at h
        · rename_i w3 wr3 hrun
          obtain ⟨hwr, hsha, hm, htr, hch⟩ := putFileFinish_ret c f _ _ _ _ _ _ h
          subst hwr
          refine ⟨hsha, hm, reply, cnt, _, ?_, ?_, Or.inr ⟨hcond, w3, hrun, htr, hch⟩⟩
          · simp [hinit, hlen]
          · rfl

/-- C5. Every `WriteResult` returned by `FileWriter`, by `SmallFileWriter` and
by `PutFile` (the short-circuit for an already known file included) satisfies
`BlobsUploaded + BlobsSkipped = BlobsCount` and
`SizeUploaded + SizeSkipped = Size`. -/
theorem WriteResult_balanced {ρ σ : Type} (H fullSHA1 : List Byte → String) (rs : Rolling ρ)
    (c : Conn σ) (minB maxB : Nat) (w : World σ) (key : String) (input : List Byte)
    (args : List String) (f : File) :
    (∀ w1 wr, FileWriter H rs c minB maxB w key (some input) = (w1, .ret wr) → Balanced wr) ∧
    (∀ w1 wr, SmallFileWriter H c w key (some input) = (w1, .ret wr) → Balanced wr) ∧
    (∀ w1 m wr, PutFile H fullSHA1 rs c minB maxB w args (some f) = (w1, .ret (m, wr)) →
      Balanced wr) := by
  have hF : ∀ (w0 w1 : World σ) (k : String) (inp : List Byte) (wr : WriteResult),
      FileWriter H rs c minB maxB w0 k (some inp) = (w1, .ret wr) → Balanced wr := by
    intro w0 w1 k inp wr h
    obtain ⟨-, done, -, hwr, -⟩ := FileWriter_ret H rs c minB maxB w0 w1 k inp wr h
    have hb := accounts_balanced done {} rfl rfl
    rw [hwr]
    exact hb
  have hS : ∀ (w0 w1 : World σ) (k : String) (inp : List Byte) (wr : WriteResult),
      SmallFileWriter H c w0 k (some inp) = (w1, .ret wr) → Balanced wr := by
    intro w0 w1 k inp wr h
    obtain ⟨-, existed, hwr, -⟩ := SmallFileWriter_ret H c w0 w1 k inp wr h
    rw [hwr]
    cases existed <;> simp [Balanced, account]
  refine ⟨fun w1 wr h => hF w w1 key input wr h, fun w1 wr h => hS w w1 key input wr h, ?_⟩
  intro w1 m wr h
  obtain ⟨-, -, reply, cnt, w2, -, -, hcase⟩ := PutFile_ret H fullSHA1 rs c minB maxB w w1 args f m wr h
  rcases hcase with ⟨-, hwr, -, -⟩ | ⟨-, w3, hrun, -, -⟩
  · rw [hwr]
    simp [Balanced]
  · split at hrun
    · exact hF _ _ _ _ _ hrun
    · exact hS _ _ _ _ _ hrun

/-- Witness of C5: a run of `FileWriter`, a run of `SmallFileWriter`, and a
second `PutFile` of a file that takes the short-circuit. -/
theorem WriteResult_balanced_witness :
    (∃ w1 wr, FileWriter hexHash zeroSplit (memConn hexHash) 2 4 emptyWorld "k"
        (some [1, 2, 0, 3, 4]) = (w1, .ret wr) ∧ Balanced wr) ∧
    (∃ w1 wr, SmallFileWriter hexHash (memConn hexHash) emptyWorld "k"
        (some [1, 2, 0, 3, 4]) = (w1, .ret wr) ∧ Balanced wr) ∧
    (∃ w1 m wr, PutFile hexHash hexHash zeroSplit (memConn hexHash) 2 4
        (PutFile hexHash hexHash zeroSplit (memConn hexHash) 2 4 emptyWorld []
          (some (demoFile [1, 2, 0, 3, 4]))).1 [] (some (demoFile [1, 2, 0, 3, 4]))
        = (w1, .ret (m, wr)) ∧ wr.AlreadyExists = true ∧ Balanced wr) :=
  ⟨⟨_, _, rfl, (WriteResult_balanced hexHash hexHash zeroSplit (memConn hexHash) 2 4 emptyWorld
      "k" [1, 2, 0, 3, 4] [] (demoFile [1, 2, 0, 3, 4])).1 _ _ rfl⟩,
   ⟨_, _, rfl, (WriteResult_balanced hexHash hexHash zeroSplit (memConn hexHash) 2 4 emptyWorld
      "k" [1, 2, 0, 3, 4] [] (demoFile [1, 2, 0, 3, 4])).2.1 _ _ rfl⟩,
   ⟨_, _, _, rfl, rfl, (WriteResult_balanced hexHash hexHash zeroSplit (memConn hexHash) 2 4
      (PutFile hexHash hexHash zeroSplit (memConn hexHash) 2 4 emptyWorld []
        (some (demoFile [1, 2, 0, 3, 4]))).1 "k" [1, 2, 0, 3, 4] []
      (demoFile [1, 2, 0, 3, 4])).2.2 _ _ _ rfl⟩⟩

/-- C6. The `Size` of the `WriteResult` returned by `FileWriter` and by
`SmallFileWriter` is the number of bytes of the file; and with a reliable store
both return. -/
theorem WriteResult_Size_eq_file_length {ρ σ : Type} (H : List Byte → String) (rs : Rolling ρ)
    (c : Conn σ) (minB maxB : Nat) (w : World σ) (key : String) (input : List Byte) :
    (Reliable H c →
      (∃ w1 wr, FileWriter H rs c minB maxB w key (some input) = (w1, .ret wr)) ∧
      (∃ w1 wr, SmallFileWriter H c w key (some input) = (w1, .ret wr))) ∧
    (∀ w1 wr, FileWriter H rs c minB maxB w key (some input) = (w1, .ret wr) →
      wr.Size = input.length) ∧
    (∀ w1 wr, SmallFileWriter H c w key (some input) = (w1, .ret wr) →
      wr.Size = input.length) := by
  refine ⟨fun hrel => ⟨FileWriter_reliable H rs c hrel minB maxB w key input,
    SmallFileWriter_reliable H c hrel w key input⟩, ?_, ?_⟩
  · intro w1 wr h
    obtain ⟨-, done, hdone, hwr, -⟩ := FileWriter_ret H rs c minB maxB w w1 key input wr h
    rw [hwr]
    simp only [accounts_Size, hdone, chunker_flatten]
    simp
  · intro w1 wr h
    obtain ⟨-, existed, hwr, -⟩ := SmallFileWriter_ret H c w w1 key input wr h
    rw [hwr]
    simp only [account_Size]
    simp

/-- Witness of C6: both writers on a five-byte file. -/
theorem WriteResult_Size_eq_file_length_witness :
    (∃ w1 wr, FileWriter hexHash zeroSplit (memConn hexHash) 2 4 emptyWorld "k"
        (some [1, 2, 0, 3, 4]) = (w1, .ret wr) ∧ wr.Size = 5) ∧
    (∃ w1 wr, SmallFileWriter hexHash (memConn hexHash) emptyWorld "k"
        (some [1, 2, 0, 3, 4]) = (w1, .ret wr) ∧ wr.Size = 5) :=
  ⟨⟨_, _, rfl, (WriteResult_Size_eq_file_length hexHash zeroSplit (memConn hexHash) 2 4
      emptyWorld "k" [1, 2, 0, 3, 4]).2.1 _ _ rfl⟩,
   ⟨_, _, rfl, (WriteResult_Size_eq_file_length hexHash zeroSplit (memConn hexHash) 2 4
      emptyWorld "k" [1, 2, 0, 3, 4]).2.2 _ _ rfl⟩⟩

/-- The commands of buffers that went through are `BEXISTS`, `BPUT` and `LADD`
commands, and none of them is a `BPUT` with a wrong reply. -/
theorem okBlocks_events (H : List Byte → String) (key : String)
    (done : List (List Byte × Bool)) :
    ∀ (off : Int), ∀ e ∈ okBlocks H key off done,
      e.isBlobOrIndexCmd = true ∧ e.isCorruptBput H = false := by
  induction done with
  | nil => intro off e he; simp [okBlocks] at he
  | cons d done ih =>
      intro off e he
      obtain ⟨ch, existed⟩ := d
      simp only [okBlocks, List.mem_append] at he
      rcases he with he | he
      · cases existed
        · simp only [okBlock, Bool.false_eq_true, if_false, List.mem_cons, List.mem_singleton,
            List.not_mem_nil, or_false] at he
          rcases he with rfl | rfl | rfl <;> simp [Event.isBlobOrIndexCmd, Event.isCorruptBput]
        · simp only [okBlock, if_true, List.mem_cons, List.mem_singleton,
            List.not_mem_nil, or_false] at he
          rcases he with rfl | rfl <;> simp [Event.isBlobOrIndexCmd, Event.isCorruptBput]
      · exact ih _ e he

/-- In the commands of a buffer at which the run panics, a `BPUT` with a wrong
reply is the last command, and the panic is the one of line 79. -/
theorem FailBlock_events (H : List Byte → String) (key : String) (off : Int)
    (buf : List Byte) (evs : List Event) (p : Panic) (h : FailBlock H key off buf evs p) :
    (∀ e ∈ evs, e.isBlobOrIndexCmd = true) ∧
    ∀ pre post e, evs = pre ++ e :: post → e.isCorruptBput H = true →
      post = [] ∧ ∀ d rsha, e = Event.bput d (some rsha) → p = Panic.corrupted rsha (H d) := by
  cases h with
  | existsErr =>
      refine ⟨by simp [Event.isBlobOrIndexCmd], ?_⟩
      intro pre post e he hc
      rcases pre with _ | ⟨a, _ | ⟨a1, pre⟩⟩ <;> simp at he
      obtain ⟨rfl, -⟩ := he
      simp [Event.isCorruptBput] at hc
  | putErr =>
      refine ⟨by simp [Event.isBlobOrIndexCmd], ?_⟩
      intro pre post e he hc
      rcases pre with _ | ⟨a, _ | ⟨a1, _ | ⟨a2, pre⟩⟩⟩ <;> simp at he
      · obtain ⟨rfl, -⟩ := he
        simp [Event.isCorruptBput] at hc
      · obtain ⟨-, rfl, -⟩ := he
        simp [Event.isCorruptBput] at hc
  | corrupt rsha hne =>
      refine ⟨by simp [Event.isBlobOrIndexCmd], ?_⟩
      intro pre post e he hc
      rcases pre with _ | ⟨a, _ | ⟨a1, _ | ⟨a2, pre⟩⟩⟩ <;> simp at he
      · obtain ⟨rfl, -⟩ := he
        simp [Event.isCorruptBput] at hc
      · obtain ⟨-, rfl, rfl⟩ := he
        refine ⟨rfl, ?_⟩
        intro d r hd
        simp only [Event.bput.injEq, Option.some.injEq] at hd
        obtain ⟨rfl, rfl⟩ := hd
        rfl
  | laddErrUploaded =>
      refine ⟨by simp [Event.isBlobOrIndexCmd], ?_⟩
      intro pre post e he hc
      rcases pre with _ | ⟨a, _ | ⟨a1, _ | ⟨a2, _ | ⟨a3, pre⟩⟩⟩⟩ <;> simp at he
      · obtain ⟨rfl, -⟩ := he
        simp [Event.isCorruptBput] at hc
      · obtain ⟨-, rfl, -⟩ := he
        simp [Event.isCorruptBput] at hc
      · obtain ⟨-, -, rfl, -⟩ := he
        simp [Event.isCorruptBput] at hc
  | laddErrSkipped =>
      refine ⟨by simp [Event.isBlobOrIndexCmd], ?_⟩
      intro pre post e he hc
      rcases pre with _ | ⟨a, _ | ⟨a1, _ | ⟨a2, pre⟩⟩⟩ <;> simp at he
      · obtain ⟨rfl, -⟩ := he
        simp [Event.isCorruptBput] at hc
      · obtain ⟨-, rfl, -⟩ := he
        simp [Event.isCorruptBput] at hc

/-- An element with a property that a prefix of the list does not have lies
behind that prefix. -/
theorem split_after_clean {α : Type} (P : α → Prop) (A : List α) :
    ∀ (B pre post : List α) (e : α), (∀ x ∈ A, ¬ P x) → P e → A ++ B = pre ++ e :: post →
      ∃ pre1, pre = A ++ pre1 ∧ B = pre1 ++ e :: post := by
  induction A with
  | nil => intro B pre post e _ _ h; exact ⟨pre, rfl, by simpa using h⟩
  | cons a A ih =>
      intro B pre post e hA he h
      cases pre with
      | nil =>
          simp only [List.cons_append, List.nil_append, List.cons.injEq] at h
          exact absurd (h.1 ▸ he) (hA a (by simp))
      | cons q pre =>
          simp only [List.cons_append, List.cons.injEq] at h
          obtain ⟨pre1, h1, h2⟩ := ih B pre post e (fun x hx => hA x (by simp [hx])) he h.2
          exact ⟨pre1, by rw [h.1, h1]; rfl, h2⟩

/-- Commands of buffers that went through, followed by the commands of a
buffer that failed, have the shape `WriterEvents`. -/
theorem writerEvents_of_blocks (H : List Byte → String) (key : String) (off : Int)
    (done : List (List Byte × Bool)) (off1 : Int) (buf : List Byte) (evs : List Event)
    (p : Panic) (h : FailBlock H key off1 buf evs p) :
    WriterEvents H (Event.ladd key 0 "" true :: okBlocks H key off done ++ evs) (.panic p) := by
  obtain ⟨hcmd, hlast⟩ := FailBlock_events H key off1 buf evs p h
  constructor
  · intro e he
    simp only [List.cons_append, List.mem_cons, List.mem_append] at he
    rcases he with rfl | he | he
    · rfl
    · exact (okBlocks_events H key done off e he).1
    · exact hcmd e he
  · intro pre post e he hc
    have hclean : ∀ x ∈ Event.ladd key 0 "" true :: okBlocks H key off done,
        ¬ (x.isCorruptBput H = true) := by
      intro x hx
      simp only [List.mem_cons] at hx
      rcases hx with rfl | hx
      · simp [Event.isCorruptBput]
      · simp [(okBlocks_events H key done off x hx).2]
    obtain ⟨pre1, -, h2⟩ := split_after_clean (fun x => x.isCorruptBput H = true) _ evs pre post e
      hclean hc he
    obtain ⟨hpost, hp⟩ := hlast pre1 post e h2 hc
    exact ⟨hpost, fun d rsha hd => by rw [hp d rsha hd]⟩

/-- Commands of buffers that all went through contain no `BPUT` with a wrong
reply. -/
theorem writerEvents_of_okBlocks (H : List Byte → String) (key : String) (off : Int)
    (done : List (List Byte × Bool)) (out : Outcome WriteResult) :
    WriterEvents H (Event.ladd key 0 "" true :: okBlocks H key off done) out := by
  constructor
  · intro e he
    simp only [List.mem_cons] at he
    rcases he with rfl | he
    · rfl
    · exact (okBlocks_events H key done off e he).1
  · intro pre post e he hc
    have hmem : e ∈ Event.ladd key 0 "" true :: okBlocks H key off done := by
      rw [he]; simp
    simp only [List.mem_cons] at hmem
    rcases hmem with rfl | hmem
    · simp [Event.isCorruptBput] at hc
    · simp [(okBlocks_events H key done off e hmem).2] at hc

/-- The commands that a run of `FileWriter` adds to the history. -/
theorem FileWriter_events {ρ σ : Type} (H : List Byte → String) (rs : Rolling ρ) (c : Conn σ)
    (minB maxB : Nat) (w w1 : World σ) (key : String) (input : List Byte)
    (out : Outcome WriteResult)
    (h : FileWriter H rs c minB maxB w key (some input) = (w1, out)) :
    ∃ evs, w1.trace = w.trace ++ evs ∧ WriterEvents H evs out := by
  cases out with
  | ret wr =>
      obtain ⟨-, done, -, -, htr⟩ := FileWriter_ret H rs c minB maxB w w1 key input wr h
      exact ⟨_, htr, writerEvents_of_okBlocks H key 0 done _⟩
  | err msg => exact absurd h (FileWriter_not_err H rs c minB maxB w w1 key input msg)
  | panic p =>
      rcases FileWriter_panic H rs c minB maxB w w1 key input p h with
        ⟨htr, -, -⟩ | ⟨done, ch, rest, evs, -, -, htr, hfb⟩
      · refine ⟨_, htr, ?_, ?_⟩
        · simp [Event.isBlobOrIndexCmd]
        · intro pre post e he hc
          have hmem : e ∈ [Event.ladd key 0 "" false] := by rw [he]; simp
          simp only [List.mem_singleton] at hmem
          subst hmem
          simp [Event.isCorruptBput] at hc
      · refine ⟨_, ?_, writerEvents_of_blocks H key 0 done _ ch evs p hfb⟩
        rw [htr]; simp

/-- Opening the file is the only source of an error return of
`SmallFileWriter`. -/
theorem SmallFileWriter_not_err {σ : Type} (H : List Byte → String) (c : Conn σ)
    (w w1 : World σ) (key : String) (input : List Byte) (msg : String) :
    SmallFileWriter H c w key (some input) ≠ (w1, .err msg) := by
  unfold SmallFileWriter
  simp only
  split
  · split <;> simp
  · simp

/-- The commands that a run of `SmallFileWriter` adds to the history. -/
theorem SmallFileWriter_events {σ : Type} (H : List Byte → String) (c : Conn σ)
    (w w1 : World σ) (key : String) (input : List Byte) (out : Outcome WriteResult)
    (h : SmallFileWriter H c w key (some input) = (w1, out)) :
    ∃ evs, w1.trace = w.trace ++ evs ∧ WriterEvents H evs out := by
  cases out with
  | ret wr =>
      obtain ⟨-, existed, -, htr⟩ := SmallFileWriter_ret H c w w1 key input wr h
      refine ⟨_, htr, ?_⟩
      have := writerEvents_of_okBlocks H key 0 [(input, existed)] (Outcome.ret wr)
      simpa [okBlocks] using this
  | err msg => exact absurd h (SmallFileWriter_not_err H c w w1 key input msg)
  | panic p =>
      rcases SmallFileWriter_panic H c w w1 key input p h with ⟨htr, -⟩ | ⟨evs, htr, hfb⟩
      · refine ⟨_, htr, ?_, ?_⟩
        · simp [Event.isBlobOrIndexCmd]
        · intro pre post e he hc
          have hmem : e ∈ [Event.ladd key 0 "" false] := by rw [he]; simp
          simp only [List.mem_singleton] at hmem
          subst hmem
          simp [Event.isCorruptBput] at hc
      · refine ⟨_, htr, ?_⟩
        have := writerEvents_of_blocks H key 0 [] _ input evs p hfb
        simpa [okBlocks] using this

/-- The tail of `PutFile` adds no `BEXISTS`, `BPUT` or `LADD` to the history. -/
theorem putFileFinish_events {σ : Type} (c : Conn σ) (f : File) (sha : String)
    (wr : WriteResult) (w : World σ) :
    ∃ evs, (putFileFinish c f sha wr w).1.trace = w.trace ++ evs ∧
      ∀ e ∈ evs, e.isBlobOrIndexCmd = false := by
  unfold putFileFinish
  simp only
  split
  · exact ⟨[], by simp, by simp⟩
  · split
    · split
      · exact ⟨[Event.metaSave _ _, Event.txcommit _], by rw [List.append_assoc]; rfl,
          by simp [Event.isBlobOrIndexCmd]⟩
      · exact ⟨[Event.metaSave _ _, Event.txcommit _], by rw [List.append_assoc]; rfl,
          by simp [Event.isBlobOrIndexCmd]⟩
    · exact ⟨[Event.metaSave _ _], rfl, by simp [Event.isBlobOrIndexCmd]⟩

/-- The history of a run of `PutFile`: `TXINIT` and `LLEN`, then the commands
of the writer (if one ran), then the metadata record and the commit; a panic of
the writer ends the run. -/
theorem PutFile_events {ρ σ : Type} (H fullSHA1 : List Byte → String) (rs : Rolling ρ)
    (c : Conn σ) (minB maxB : Nat) (w w1 : World σ) (args : List String) (f : File)
    (out : Outcome (Meta × WriteResult))
    (h : PutFile H fullSHA1 rs c minB maxB w args (some f) = (w1, out)) :
    ∃ (hd wevs tl : List Event) (wout : Outcome WriteResult),
      w1.trace = w.trace ++ hd ++ wevs ++ tl ∧
      (∀ e ∈ hd, e.isBlobOrIndexCmd = false ∧ ∀ ok, e ≠ Event.txcommit ok) ∧
      WriterEvents H wevs wout ∧
      (∀ e ∈ tl, e.isBlobOrIndexCmd = false) ∧
      (∀ p, wout = .panic p → tl = [] ∧ out = .panic p) := by
  have hnil : ∀ o : Outcome WriteResult, WriterEvents H [] o :=
    fun o => ⟨by simp, fun pre post e he _ => by simp at he⟩
  unfold PutFile at h
  simp only at h
  split at h
  · simp only [Prod.mk.injEq] at h
    obtain ⟨h1, -⟩ := h
    subst h1
    exact ⟨[Event.txinit args (c.TXINIT w.st args).2], [], [], .err "", by simp, by simp [Event.isBlobOrIndexCmd],
      hnil _, by simp, by simp⟩
  · split at h
    · simp only [Prod.mk.injEq] at h
      obtain ⟨h1, -⟩ := h
      subst h1
      exact ⟨[Event.txinit args (c.TXINIT w.st args).2,
          Event.llen (fullSHA1 f.data) (c.LLEN (c.TXINIT w.st args).1 (fullSHA1 f.data)).2], [], [], .err "", by simp,
        by simp [Event.isBlobOrIndexCmd], hnil _, by simp, by simp⟩
    · split at h
      · obtain ⟨evs, htr, hevs⟩ := putFileFinish_events c f (fullSHA1 f.data) _ _
        rw [h] at htr
        refine ⟨[Event.txinit args (c.TXINIT w.st args).2,
          Event.llen (fullSHA1 f.data) (c.LLEN (c.TXINIT w.st args).1 (fullSHA1 f.data)).2], [], evs, .err "", ?_,
          by simp [Event.isBlobOrIndexCmd], hnil _, hevs, by simp⟩
        rw [htr]; simp
      · split at h
        · rename_i w3 p hrun
          simp only [Prod.mk.injEq] at h
          obtain ⟨h1, h2⟩ := h
          subst h1 h2
          have hw : ∃ wevs, w3.trace = (w.trace ++ [Event.txinit args (c.TXINIT w.st args).2] ++
              [Event.llen (fullSHA1 f.data) (c.LLEN (c.TXINIT w.st args).1 (fullSHA1 f.data)).2])
                ++ wevs ∧ WriterEvents H wevs (.panic p) := by
            split at hrun
            · exact FileWriter_events H rs c minB maxB _ _ _ _ _ hrun
            · exact SmallFileWriter_events H c _ _ _ _ _ hrun
          obtain ⟨wevs, htr, hW⟩ := hw
          refine ⟨[Event.txinit args (c.TXINIT w.st args).2,
          Event.llen (fullSHA1 f.data) (c.LLEN (c.TXINIT w.st args).1 (fullSHA1 f.data)).2], wevs, [], .panic p, ?_,
            by simp [Event.isBlobOrIndexCmd], hW, by simp, ?_⟩
          · rw [htr]; simp
          · intro q hq
            simp only [Outcome.panic.injEq] at hq
            subst hq
            exact ⟨rfl, rfl⟩
        · rename_i w3 msg hrun
          exfalso
          split at hrun
          · exact FileWriter_not_err H rs c minB maxB _ _ _ _ _ hrun
          · exact SmallFileWriter_not_err H c _ _ _ _ _ hrun
        · rename_i w3 wr hrun
          have hw : ∃ wevs, w3.trace = (w.trace ++ [Event.txinit args (c.TXINIT w.st args).2] ++
              [Event.llen (fullSHA1 f.data) (c.LLEN (c.TXINIT w.st args).1 (fullSHA1 f.data)).2])
                ++ wevs ∧ WriterEvents H wevs (.ret wr) := by
            split at hrun
            · exact FileWriter_events H rs c minB maxB _ _ _ _ _ hrun
            · exact SmallFileWriter_events H c _ _ _ _ _ hrun
          obtain ⟨wevs, htr, hW⟩ := hw
          obtain ⟨evs, htr2, hevs⟩ := putFileFinish_events c f (fullSHA1 f.data) wr w3
          rw [h] at htr2
          refine ⟨[Event.txinit args (c.TXINIT w.st args).2,
          Event.llen (fullSHA1 f.data) (c.LLEN (c.TXINIT w.st args).1 (fullSHA1 f.data)).2], wevs, evs, .ret wr, ?_,
            by simp [Event.isBlobOrIndexCmd], hW, hevs, by simp⟩
          rw [htr2, htr]; simp

/-- C7. When the reply of a `BPUT` differs from the locally computed hash of
the data, `FileWriter` and `SmallFileWriter` panic (line 79, line 137) and that
`BPUT` is the last command they send, so the index entry of the chunk is not
appended; and a `PutFile` in which this happens panics too, sends nothing after
the `BPUT` and has sent no `TXCOMMIT`. -/
theorem corrupt_BPUT_reply_aborts {ρ σ : Type} (H fullSHA1 : List Byte → String)
    (rs : Rolling ρ) (c : Conn σ) (minB maxB : Nat) (w : World σ) (key : String)
    (input : List Byte) (args : List String) (f : File) :
    (∀ w1 out pre post d rsha,
      FileWriter H rs c minB maxB w key (some input) = (w1, out) →
      w1.trace = w.trace ++ pre ++ Event.bput d (some rsha) :: post → rsha ≠ H d →
      post = [] ∧ out = .panic (Panic.corrupted rsha (H d))) ∧
    (∀ w1 out pre post d rsha,
      SmallFileWriter H c w key (some input) = (w1, out) →
      w1.trace = w.trace ++ pre ++ Event.bput d (some rsha) :: post → rsha ≠ H d →
      post = [] ∧ out = .panic (Panic.corrupted rsha (H d))) ∧
    (∀ w1 out pre post d rsha,
      PutFile H fullSHA1 rs c minB maxB w args (some f) = (w1, out) →
      w1.trace = w.trace ++ pre ++ Event.bput d (some rsha) :: post → rsha ≠ H d →
      post = [] ∧ out = .panic (Panic.corrupted rsha (H d)) ∧
        ∀ ok, Event.txcommit ok ∉ pre) := by
  have hwriter : ∀ (w1 : World σ) (out : Outcome WriteResult) (evs pre post : List Event)
      (d : List Byte) (rsha : String), w1.trace = w.trace ++ evs → WriterEvents H evs out →
      w1.trace = w.trace ++ pre ++ Event.bput d (some rsha) :: post → rsha ≠ H d →
      post = [] ∧ out = .panic (Panic.corrupted rsha (H d)) := by
    intro w1 out evs pre post d rsha htr hW hdec hne
    rw [htr, List.append_assoc] at hdec
    have hevs := List.append_cancel_left hdec
    obtain ⟨hpost, hout⟩ := hW.2 pre post _ hevs (by simp [Event.isCorruptBput, hne])
    exact ⟨hpost, hout d rsha rfl⟩
  refine ⟨?_, ?_, ?_⟩
  · intro w1 out pre post d rsha h hdec hne
    obtain ⟨evs, htr, hW⟩ := FileWriter_events H rs c minB maxB w w1 key input out h
    exact hwriter w1 out evs pre post d rsha htr hW hdec hne
  · intro w1 out pre post d rsha h hdec hne
    obtain ⟨evs, htr, hW⟩ := SmallFileWriter_events H c w w1 key input out h
    exact hwriter w1 out evs pre post d rsha htr hW hdec hne
  · intro w1 out pre post d rsha h hdec hne
    obtain ⟨hd, wevs, tl, wout, htr, hhd, hW, htl, hpanic⟩ :=
      PutFile_events H fullSHA1 rs c minB maxB w w1 args f out h
    have hc : (Event.bput d (some rsha)).isCorruptBput H = true := by
      simp [Event.isCorruptBput, hne]
    rw [htr, List.append_assoc, List.append_assoc, List.append_assoc] at hdec
    have hevs := List.append_cancel_left hdec
    obtain ⟨pre1, hpre, hrest⟩ := split_after_clean (fun x => x.isCorruptBput H = true) hd
      (wevs ++ tl) pre post _ (by
        intro x hx hcx
        have := (hhd x hx).1
        cases x <;> simp [Event.isCorruptBput, Event.isBlobOrIndexCmd] at hcx this) hc hevs
    rcases List.append_eq_append_iff.mp hrest with ⟨a, -, ha⟩ | ⟨b, hb, hb2⟩
    · exfalso
      have hmem : Event.bput d (some rsha) ∈ tl := by rw [ha]; simp
      have := htl _ hmem
      simp [Event.isBlobOrIndexCmd] at this
    · cases b with
      | nil =>
          exfalso
          have hmem : Event.bput d (some rsha) ∈ tl := by
            simp only [List.nil_append] at hb2
            rw [← hb2]; simp
          have := htl _ hmem
          simp [Event.isBlobOrIndexCmd] at this
      | cons e b =>
          simp only [List.cons_append, List.cons.injEq] at hb2
          obtain ⟨he, hpost⟩ := hb2
          subst he
          obtain ⟨hb0, hout⟩ := hW.2 pre1 b _ hb hc
          obtain ⟨htl0, hout2⟩ := hpanic _ (hout d rsha rfl)
          subst hb0 htl0
          refine ⟨by simpa using hpost, hout2, ?_⟩
          intro ok hmem
          rw [hpre, List.mem_append] at hmem
          rcases hmem with hmem | hmem
          · exact (hhd _ hmem).2 ok rfl
          · have := hW.1 (Event.txcommit ok) (by rw [hb]; simp [hmem])
            simp [Event.isBlobOrIndexCmd] at this

/-- Witness of C7: a store whose `BPUT` returns the hash of other data. Both
writers and `PutFile` panic with the `BPUT` as their last command. -/
theorem corrupt_BPUT_reply_aborts_witness :
    (FileWriter hexHash zeroSplit (corruptConn hexHash) 2 4 emptyWorld "k"
        (some [1, 2, 3, 4])).2 = .panic (Panic.corrupted "habcde" "hbcde") ∧
    (SmallFileWriter hexHash (corruptConn hexHash) emptyWorld "k"
        (some [1, 2, 3, 4])).2 = .panic (Panic.corrupted "habcde" "hbcde") ∧
    (PutFile hexHash hexHash zeroSplit (corruptConn hexHash) 2 4 emptyWorld []
        (some (demoFile [1, 2]))).2 = .panic (Panic.corrupted "habc" "hbc") :=
  ⟨((corrupt_BPUT_reply_aborts hexHash hexHash zeroSplit (corruptConn hexHash) 2 4 emptyWorld
      "k" [1, 2, 3, 4] [] (demoFile [1, 2])).1 _ _
      [Event.ladd "k" 0 "" true, Event.bexists "hbcde" (some false)] [] [1, 2, 3, 4] "habcde"
      rfl rfl (by decide)).2,
   ((corrupt_BPUT_reply_aborts hexHash hexHash zeroSplit (corruptConn hexHash) 2 4 emptyWorld
      "k" [1, 2, 3, 4] [] (demoFile [1, 2])).2.1 _ _
      [Event.ladd "k" 0 "" true, Event.bexists "hbcde" (some false)] [] [1, 2, 3, 4] "habcde"
      rfl rfl (by decide)).2,
   ((corrupt_BPUT_reply_aborts hexHash hexHash zeroSplit (corruptConn hexHash) 2 4 emptyWorld
      "k" [1, 2, 3, 4] [] (demoFile [1, 2])).2.2 _ _
      [Event.txinit [] (some "OK"), Event.llen "hbc" (some 0), Event.ladd "hbc" 0 "" true,
        Event.bexists "hbc" (some false)] [] [1, 2] "habc"
      rfl rfl (by decide)).2.1⟩

/-- Every finalized buffer, however the run continues: the first command is
`BEXISTS` for the hash of the buffer, and the commands after it contain exactly
one `BPUT` when the answer was `false` and none otherwise. -/
theorem finalize_bput_count {σ : Type} (H : List Byte → String) (c : Conn σ) (key : String)
    (buf fullHash : List Byte) (wr : WriteResult) (w : World σ) :
    ∃ rest, (finalize H c key buf fullHash wr w).1.trace
        = w.trace ++ Event.bexists (H buf) (c.BEXISTS w.st (H buf)).2 :: rest ∧
      rest.countP Event.isBput = (if (c.BEXISTS w.st (H buf)).2 = some false then 1 else 0) ∧
      (∀ d reply, Event.bput d reply ∈ rest → d = buf) := by
  unfold finalize
  simp only
  split
  · rename_i hex
    exact ⟨[], by simp, by simp [hex], by simp⟩
  · rename_i hex
    split
    · exact ⟨[Event.bput buf (c.BPUT (c.BEXISTS w.st (H buf)).1 buf).2], by simp,
        by simp [hex, Event.isBput], by simp⟩
    · split
      · exact ⟨[Event.bput buf (c.BPUT (c.BEXISTS w.st (H buf)).1 buf).2], by simp,
          by simp [hex, Event.isBput], by simp⟩
      · split
        · exact ⟨[Event.bput buf (c.BPUT (c.BEXISTS w.st (H buf)).1 buf).2,
            Event.ladd key (wr.Size + buf.length) (H buf)
              (c.LADD (c.BPUT (c.BEXISTS w.st (H buf)).1 buf).1 key (wr.Size + buf.length)
                (H buf)).2], by simp, by simp [hex, Event.isBput], by simp⟩
        · exact ⟨[Event.bput buf (c.BPUT (c.BEXISTS w.st (H buf)).1 buf).2,
            Event.ladd key (wr.Size + buf.length) (H buf)
              (c.LADD (c.BPUT (c.BEXISTS w.st (H buf)).1 buf).1 key (wr.Size + buf.length)
                (H buf)).2], by simp, by simp [hex, Event.isBput], by simp⟩
  · rename_i hex
    split
    · exact ⟨[Event.ladd key (wr.Size + buf.length) (H buf)
        (c.LADD (c.BEXISTS w.st (H buf)).1 key (wr.Size + buf.length) (H buf)).2], by simp,
        by simp [hex, Event.isBput], by simp⟩
    · exact ⟨[Event.ladd key (wr.Size + buf.length) (H buf)
        (c.LADD (c.BEXISTS w.st (H buf)).1 key (wr.Size + buf.length) (H buf)).2], by simp,
        by simp [hex, Event.isBput], by simp⟩

theorem accounts_BlobsUploaded (done : List (List Byte × Bool)) :
    ∀ wr : WriteResult, (accounts wr done).BlobsUploaded
      = wr.BlobsUploaded + ((done.filter (fun d => !d.2)).length : Int) := by
  induction done with
  | nil => intro wr; simp [accounts]
  | cons d done ih =>
      intro wr
      obtain ⟨ch, existed⟩ := d
      simp only [accounts, ih]
      cases existed
      · simp [account]; ring
      · simp [account]

theorem accounts_BlobsSkipped (done : List (List Byte × Bool)) :
    ∀ wr : WriteResult, (accounts wr done).BlobsSkipped
      = wr.BlobsSkipped + ((done.filter (fun d => d.2)).length : Int) := by
  induction done with
  | nil => intro wr; simp [accounts]
  | cons d done ih =>
      intro wr
      obtain ⟨ch, existed⟩ := d
      simp only [accounts, ih]
      cases existed
      · simp [account]
      · simp [account]; ring

/-- The number of `BPUT` commands among the commands of buffers that went
through is the number of buffers for which `BEXISTS` answered `false`. -/
theorem countP_isBput_okBlocks (H : List Byte → String) (key : String)
    (done : List (List Byte × Bool)) :
    ∀ off : Int, (okBlocks H key off done).countP Event.isBput
      = (done.filter (fun d => !d.2)).length := by
  induction done with
  | nil => intro off; rfl
  | cons d done ih =>
      intro off
      obtain ⟨ch, existed⟩ := d
      cases existed <;> simp [okBlocks, okBlock, List.countP_append, ih, Event.isBput,
        List.countP_cons]

/-- A preserved property of the store survives a finalization. -/
theorem finalize_inv {σ : Type} (H : List Byte → String) (c : Conn σ) (Inv : σ → Prop)
    (hp : Preserved c Inv) (key : String) (buf fullHash : List Byte) (wr : WriteResult)
    (w : World σ) (h : Inv w.st) : Inv (finalize H c key buf fullHash wr w).1.st := by
  unfold finalize
  simp only
  split
  · exact hp.bexists _ _ h
  · split
    · exact hp.bput _ _ (hp.bexists _ _ h)
    · split
      · exact hp.bput _ _ (hp.bexists _ _ h)
      · split
        · exact hp.ladd _ _ _ _ (hp.bput _ _ (hp.bexists _ _ h))
        · exact hp.ladd _ _ _ _ (hp.bput _ _ (hp.bexists _ _ h))
  · split
    · exact hp.ladd _ _ _ _ (hp.bexists _ _ h)
    · exact hp.ladd _ _ _ _ (hp.bexists _ _ h)

/-- A preserved property of the store survives a run over a list of buffers. -/
theorem runChunks_inv {σ : Type} (H : List Byte → String) (c : Conn σ) (Inv : σ → Prop)
    (hp : Preserved c Inv) (key : String) (cs : List (List Byte)) :
    ∀ (fullHash : List Byte) (wr : WriteResult) (w : World σ),
      Inv w.st → Inv (runChunks H c key cs fullHash wr w).1.st := by
  induction cs with
  | nil => intro fullHash wr w h; exact h
  | cons ch cs ih =>
      intro fullHash wr w h
      have hf := finalize_inv H c Inv hp key ch fullHash wr w h
      simp only [runChunks]
      rcases hfin : finalize H c key ch fullHash wr w with ⟨w2, res⟩
      rw [hfin] at hf
      cases res with
      | error p => exact hf
      | ok v => exact ih _ _ _ hf

/-- After a run of `FileWriter` that returns, the index under its key is
non-empty in a store that keeps its index entries. -/
theorem FileWriter_ret_known {ρ σ : Type} (H : List Byte → String) (rs : Rolling ρ)
    (c : Conn σ) (hk : KeepsIndex c) (minB maxB : Nat) (w w1 : World σ) (key : String)
    (input : List Byte) (wr : WriteResult)
    (h : FileWriter H rs c minB maxB w key (some input) = (w1, .ret wr)) :
    IndexKnown c w1.st key := by
  unfold FileWriter at h
  simp only at h
  split at h
  · rename_i hl
    rw [writerLoop_eq_runChunks] at h
    have hinv := runChunks_inv H c _ (hk.keeps key) key
      (chunker rs minB maxB input (rs.new 64) []) [] {}
      { w with st := (c.LADD w.st key 0 "").1,
               trace := w.trace ++ [Event.ladd key 0 "" (c.LADD w.st key 0 "").2] }
      (hk.ladd_new _ _ _ _ hl)
    split at h
    · simp at h
    · rename_i w2 wr2 fullHash2 hrun
      simp only [Prod.mk.injEq, Outcome.ret.injEq] at h
      rw [hrun] at hinv
      rw [← h.1]
      exact hinv
  · simp at h

/-- After a run of `SmallFileWriter` that returns, the index under its key is
non-empty in a store that keeps its index entries. -/
theorem SmallFileWriter_ret_known {σ : Type} (H : List Byte → String)
    (c : Conn σ) (hk : KeepsIndex c) (w w1 : World σ) (key : String)
    (input : List Byte) (wr : WriteResult)
    (h : SmallFileWriter H c w key (some input) = (w1, .ret wr)) :
    IndexKnown c w1.st key := by
  unfold SmallFileWriter at h
  simp only at h
  split at h
  · rename_i hl
    have hinv := finalize_inv H c _ (hk.keeps key) key input [] {}
      { w with st := (c.LADD w.st key 0 "").1,
               trace := w.trace ++ [Event.ladd key 0 "" (c.LADD w.st key 0 "").2] }
      (hk.ladd_new _ _ _ _ hl)
    split at h
    · simp at h
    · rename_i w2 wr2 fullHash2 hrun
      simp only [Prod.mk.injEq, Outcome.ret.injEq] at h
      rw [hrun] at hinv
      rw [← h.1]
      exact hinv
  · simp at h

/-- A preserved property of the store survives the tail of `PutFile`. -/
theorem putFileFinish_inv {σ : Type} (c : Conn σ) (Inv : σ → Prop) (hp : Preserved c Inv)
    (f : File) (sha : String) (wr : WriteResult) (w : World σ) (h : Inv w.st) :
    Inv (putFileFinish c f sha wr w).1.st := by
  unfold putFileFinish
  simp only
  split
  · exact h
  · split
    · split
      · exact hp.txcommit _ (hp.metaSave _ _ h)
      · exact hp.txcommit _ (hp.metaSave _ _ h)
    · exact hp.metaSave _ _ h

/-- A preserved property of the store survives the tail of `PutFile`, stated
for a given result. -/
theorem putFileFinish_inv_of_eq {σ : Type} (c : Conn σ) (Inv : σ → Prop)
    (hp : Preserved c Inv) (f : File) (sha : String) (wr : WriteResult) (w w1 : World σ)
    (out : Outcome (Meta × WriteResult)) (h : putFileFinish c f sha wr w = (w1, out))
    (hinv : Inv w.st) : Inv w1.st := by
  have := putFileFinish_inv c Inv hp f sha wr w hinv
  rw [h] at this
  exact this

/-- After a `PutFile` that returns, the whole-file hash is the hash of the
empty input or has a non-empty index in a store that keeps its index
entries. -/
theorem PutFile_ret_known {ρ σ : Type} (H fullSHA1 : List Byte → String) (rs : Rolling ρ)
    (c : Conn σ) (hk : KeepsIndex c) (minB maxB : Nat) (w w1 : World σ) (args : List String)
    (f : File) (m : Meta) (wr : WriteResult)
    (h : PutFile H fullSHA1 rs c minB maxB w args (some f) = (w1, .ret (m, wr))) :
    fullSHA1 f.data = emptyHash ∨ IndexKnown c w1.st (fullSHA1 f.data) := by
  unfold PutFile at h
  simp only at h
  split at h
  · simp at h
  · split at h
    · simp at h
    · rename_i cnt hlen
      split at h
      · rename_i hcond
        simp only [gt_iff_lt, Bool.or_eq_true, decide_eq_true_eq] at hcond
        rcases hcond with hpos | hempty
        · right
          have hkn : IndexKnown c (c.TXINIT w.st args).1 (fullSHA1 f.data) := ⟨cnt, hlen, hpos⟩
          exact putFileFinish_inv_of_eq c _ (hk.keeps (fullSHA1 f.data)) f _ _ _ _ _ h
            ((hk.keeps (fullSHA1 f.data)).llen _ (fullSHA1 f.data) hkn)
        · exact Or.inl hempty
      · split at h
        · simp at h
        · simp at h
        · rename_i w3 wr3 hrun
          right
          have hkn : IndexKnown c w3.st (fullSHA1 f.data) := by
            split at hrun
            · exact FileWriter_ret_known H rs c hk minB maxB _ _ _ _ _ hrun
            · exact SmallFileWriter_ret_known H c hk _ _ _ _ _ hrun
          exact putFileFinish_inv_of_eq c _ (hk.keeps (fullSHA1 f.data)) f _ _ _ _ _ h hkn

/-- The tail of `PutFile` returns when the hashes agree and the store saves
the metadata record and commits. -/
theorem putFileFinish_reliable {σ : Type} (c : Conn σ) (ht : TxReliable c) (f : File)
    (sha : String) (wr : WriteResult) (w : World σ) (hsha : sha = wr.Hash) :
    ∃ w1 m, putFileFinish c f sha wr w = (w1, .ret (m, wr)) := by
  unfold putFileFinish
  simp only [hsha, ne_eq, not_true_eq_false, if_false, ht.metaSave, ht.txcommit, if_true]
  exact ⟨_, _, rfl⟩

/-- A `PutFile` of a file whose whole-file hash is the hash of the empty input
or has a non-empty index: it sends no `BEXISTS`, `BPUT` or `LADD`, what it
returns is the short-circuit result, and it returns when the transaction
commands do not fail. -/
theorem PutFile_of_known {ρ σ : Type} (H fullSHA1 : List Byte → String) (rs : Rolling ρ)
    (c : Conn σ) (minB maxB : Nat) (w w2 : World σ) (args : List String) (f : File)
    (out : Outcome (Meta × WriteResult))
    (hknown : fullSHA1 f.data = emptyHash ∨
      IndexKnown c (c.TXINIT w.st args).1 (fullSHA1 f.data))
    (h : PutFile H fullSHA1 rs c minB maxB w args (some f) = (w2, out)) :
    (∃ evs, w2.trace = w.trace ++ evs ∧ ∀ e ∈ evs, e.isBlobOrIndexCmd = false) ∧
    (∀ m2 wr2, out = .ret (m2, wr2) →
      wr2.AlreadyExists = true ∧ wr2.BlobsUploaded = 0 ∧ wr2.SizeUploaded = 0) ∧
    (TxReliable c → ∃ m2 wr2, out = .ret (m2, wr2)) := by
  unfold PutFile at h
  simp only at h
  split at h
  · rename_i hinit
    simp only [Prod.mk.injEq] at h
    obtain ⟨h1, h2⟩ := h
    subst h1 h2
    exact ⟨⟨[Event.txinit args (c.TXINIT w.st args).2], rfl, by simp [Event.isBlobOrIndexCmd]⟩,
      by simp, fun ht => absurd hinit (ht.txinit _ _)⟩
  · split at h
    · rename_i hlen
      simp only [Prod.mk.injEq] at h
      obtain ⟨h1, h2⟩ := h
      subst h1 h2
      exact ⟨⟨[Event.txinit args (c.TXINIT w.st args).2,
          Event.llen (fullSHA1 f.data) (c.LLEN (c.TXINIT w.st args).1 (fullSHA1 f.data)).2],
          by simp, by simp [Event.isBlobOrIndexCmd]⟩,
        by simp, fun ht => absurd hlen (ht.llen _ _)⟩
    · rename_i cnt hlen
      split at h
      · obtain ⟨evs, htr, hevs⟩ := putFileFinish_events c f (fullSHA1 f.data) _ _
        rw [h] at htr
        refine ⟨⟨[Event.txinit args (c.TXINIT w.st args).2,
            Event.llen (fullSHA1 f.data) (c.LLEN (c.TXINIT w.st args).1 (fullSHA1 f.data)).2]
            ++ evs, by rw [htr]; simp, ?_⟩, ?_, ?_⟩
        · intro e he
          simp only [List.cons_append, List.nil_append, List.mem_cons] at he
          rcases he with rfl | rfl | he
          · rfl
          · rfl
          · exact hevs e he
        · intro m2 wr2 hout
          subst hout
          obtain ⟨hwr, -⟩ := putFileFinish_ret c f _ _ _ _ _ _ h
          rw [hwr]
          exact ⟨rfl, rfl, rfl⟩
        · intro ht
          obtain ⟨w3, m3, h3⟩ := putFileFinish_reliable c ht f (fullSHA1 f.data)
            { Hash := fullSHA1 f.data, AlreadyExists := true, FilesSkipped := 1, FilesCount := 1,
              SizeSkipped := f.data.length, Size := f.data.length,
              BlobsCount := cnt, BlobsSkipped := cnt }
            { st := (c.LLEN (c.TXINIT w.st args).1 (fullSHA1 f.data)).1,
              trace := w.trace ++ [Event.txinit args (c.TXINIT w.st args).2] ++
                [Event.llen (fullSHA1 f.data)
                  (c.LLEN (c.TXINIT w.st args).1 (fullSHA1 f.data)).2],
              chunks := w.chunks } rfl
          rw [h3] at h
          simp only [Prod.mk.injEq] at h
          exact ⟨_, _, h.2.symm⟩
      · rename_i hcond
        exfalso
        simp only [gt_iff_lt, Bool.or_eq_true, decide_eq_true_eq, not_or] at hcond
        rcases hknown with hempty | ⟨n, hn, hpos⟩
        · exact hcond.2 hempty
        · rw [hlen] at hn
          simp only [Option.some.injEq] at hn
          subst hn
          exact hcond.1 hpos

theorem memConn_known_iff (H : List Byte → String) (s : MemStore) (k : String) :
    IndexKnown (memConn H) s k ↔ 0 < (s.index.filter (fun e => e.1 == k)).length := by
  unfold IndexKnown
  simp only [memConn, Option.some.injEq]
  constructor
  · rintro ⟨n, hn, hpos⟩
    omega
  · intro h
    exact ⟨_, rfl, by omega⟩

/-- The store of `memConn` keeps its index entries. -/
theorem memConn_keepsIndex (H : List Byte → String) : KeepsIndex (memConn H) := by
  constructor
  · intro s k o h _
    rw [memConn_known_iff]
    simp [memConn, List.filter_append]
  · intro k
    constructor
    · intro s k1 o h hs
      rw [memConn_known_iff] at hs ⊢
      simp only [memConn, List.filter_append, List.length_append]
      omega
    · intro s h hs; exact hs
    · intro s d hs
      rw [memConn_known_iff] at hs ⊢
      exact hs
    · intro s k1 hs; exact hs
    · intro s a hs; exact hs
    · intro s hs; exact hs
    · intro s m hs
      rw [memConn_known_iff] at hs ⊢
      exact hs

/-- The transaction commands of `memConn` do not fail. -/
theorem memConn_txReliable (H : List Byte → String) : TxReliable (memConn H) :=
  ⟨fun _ _ => by simp [memConn], fun _ _ => by simp [memConn], fun _ _ => rfl, fun _ => rfl⟩

/-- C9. After a `PutFile` of a file `f` (a zero-byte file included) that
returned, against a store that keeps the index entries appended to it, a second
`PutFile` of the unchanged file sends no `BEXISTS`, `BPUT` or `LADD`; the
`WriteResult` it returns has `AlreadyExists = true`, `BlobsUploaded = 0` and
`SizeUploaded = 0`; and it does return when the transaction commands, `LLEN` and
the metadata save do not fail. -/
theorem PutFile_again_already_exists {ρ σ : Type} (H fullSHA1 : List Byte → String)
    (rs : Rolling ρ) (c : Conn σ) (minB maxB : Nat) (w w1 : World σ)
    (args args2 : List String) (f : File) (m : Meta) (wr : WriteResult)
    (hk : KeepsIndex c)
    (h1 : PutFile H fullSHA1 rs c minB maxB w args (some f) = (w1, .ret (m, wr))) :
    ∀ w2 out, PutFile H fullSHA1 rs c minB maxB w1 args2 (some f) = (w2, out) →
      (∃ evs, w2.trace = w1.trace ++ evs ∧ ∀ e ∈ evs, e.isBlobOrIndexCmd = false) ∧
      (∀ m2 wr2, out = .ret (m2, wr2) →
        wr2.AlreadyExists = true ∧ wr2.BlobsUploaded = 0 ∧ wr2.SizeUploaded = 0) ∧
      (TxReliable c → ∃ m2 wr2, out = .ret (m2, wr2)) := by
  intro w2 out h2
  have hknown : fullSHA1 f.data = emptyHash ∨
      IndexKnown c (c.TXINIT w1.st args2).1 (fullSHA1 f.data) := by
    rcases PutFile_ret_known H fullSHA1 rs c hk minB maxB w w1 args f m wr h1 with h | h
    · exact Or.inl h
    · exact Or.inr ((hk.keeps (fullSHA1 f.data)).txinit _ _ h)
  exact PutFile_of_known H fullSHA1 rs c minB maxB w1 w2 args2 f out hknown h2

/-- Witness of C9: a five-byte file and the zero-byte file, each put twice
into the store of `memConn`. -/
theorem PutFile_again_already_exists_witness :
    (∃ w2 m2 wr2, PutFile hexHash0 hexHash0 zeroSplit (memConn hexHash0) 2 4
        (PutFile hexHash0 hexHash0 zeroSplit (memConn hexHash0) 2 4 emptyWorld []
          (some (demoFile [1, 2, 0, 3, 4]))).1 [] (some (demoFile [1, 2, 0, 3, 4]))
        = (w2, .ret (m2, wr2)) ∧
      wr2.AlreadyExists = true ∧ wr2.BlobsUploaded = 0 ∧ wr2.SizeUploaded = 0) ∧
    (∃ w2 m2 wr2, PutFile hexHash0 hexHash0 zeroSplit (memConn hexHash0) 2 4
        (PutFile hexHash0 hexHash0 zeroSplit (memConn hexHash0) 2 4 emptyWorld []
          (some (demoFile []))).1 [] (some (demoFile []))
        = (w2, .ret (m2, wr2)) ∧
      wr2.AlreadyExists = true ∧ wr2.BlobsUploaded = 0 ∧ wr2.SizeUploaded = 0) :=
  ⟨⟨_, _, _, rfl,
      ((PutFile_again_already_exists hexHash0 hexHash0 zeroSplit (memConn hexHash0) 2 4
        emptyWorld _ [] [] (demoFile [1, 2, 0, 3, 4]) _ _ (memConn_keepsIndex hexHash0) rfl
        _ _ rfl).2.1 _ _ rfl)⟩,
   ⟨_, _, _, rfl,
      ((PutFile_again_already_exists hexHash0 hexHash0 zeroSplit (memConn hexHash0) 2 4
        emptyWorld _ [] [] (demoFile []) _ _ (memConn_keepsIndex hexHash0) rfl
        _ _ rfl).2.1 _ _ rfl)⟩⟩

/-- C10. Chunking does not depend on the store: two runs of `FileWriter` over
the same input that return, against any two stores in any two states, return
the same `Hash`, `Size` and `BlobsCount`, finalize the same buffers and append
the same index entries `(offset, hash)`; with reliable stores both runs do
return. -/
theorem FileWriter_independent_of_store {ρ σa σb : Type} (H : List Byte → String)
    (rs : Rolling ρ) (ca : Conn σa) (cb : Conn σb) (minB maxB : Nat)
    (wa : World σa) (wb : World σb) (keyA keyB : String) (input : List Byte) :
    (Reliable H ca → Reliable H cb →
      (∃ wa1 wra, FileWriter H rs ca minB maxB wa keyA (some input) = (wa1, .ret wra)) ∧
      (∃ wb1 wrb, FileWriter H rs cb minB maxB wb keyB (some input) = (wb1, .ret wrb))) ∧
    ∀ wa1 wra wb1 wrb,
      FileWriter H rs ca minB maxB wa keyA (some input) = (wa1, .ret wra) →
      FileWriter H rs cb minB maxB wb keyB (some input) = (wb1, .ret wrb) →
      wra.Hash = wrb.Hash ∧ wra.Size = wrb.Size ∧ wra.BlobsCount = wrb.BlobsCount ∧
        ∃ (cs : List (List Byte)) (entries : List (Int × String)),
          wa1.chunks = wa.chunks ++ cs ∧ wb1.chunks = wb.chunks ++ cs ∧
          ladds wa1.trace = ladds wa.trace ++ entries ∧
          ladds wb1.trace = ladds wb.trace ++ entries := by
  refine ⟨fun ha hb => ⟨FileWriter_reliable H rs ca ha minB maxB wa keyA input,
    FileWriter_reliable H rs cb hb minB maxB wb keyB input⟩, ?_⟩
  intro wa1 wra wb1 wrb ha hb
  obtain ⟨hcha, da, hda, hwra, -⟩ := FileWriter_ret H rs ca minB maxB wa wa1 keyA input wra ha
  obtain ⟨hchb, db, hdb, hwrb, -⟩ := FileWriter_ret H rs cb minB maxB wb wb1 keyB input wrb hb
  have hla := FileWriter_ladds H rs ca minB maxB wa wa1 keyA input wra ha
  have hlb := FileWriter_ladds H rs cb minB maxB wb wb1 keyB input wrb hb
  have hlen : da.length = db.length := by
    have h1 := congrArg List.length hda
    have h2 := congrArg List.length hdb
    simp only [List.length_map] at h1 h2
    omega
  refine ⟨by rw [hwra, hwrb], ?_, ?_, _, _, hcha, hchb, hla, hlb⟩
  · rw [hwra, hwrb]
    simp only [accounts_Size, hda, hdb]
  · rw [hwra, hwrb]
    simp only [accounts_BlobsCount, hlen]

/-- Witness of C10: the same six bytes written to an empty store and to a
store that already holds the first buffer: the results agree except for the
split between uploaded and skipped. -/
theorem FileWriter_independent_of_store_witness :
    ∃ wa1 wra wb1 wrb,
      FileWriter hexHash zeroSplit (memConn hexHash) 2 4 emptyWorld "k"
        (some [1, 2, 0, 3, 4, 5]) = (wa1, .ret wra) ∧
      FileWriter hexHash zeroSplit (memConn hexHash) 2 4 (worldWithBlobs ["hbca"]) "k"
        (some [1, 2, 0, 3, 4, 5]) = (wb1, .ret wrb) ∧
      wra.BlobsUploaded = 2 ∧ wrb.BlobsUploaded = 1 ∧
      wra.Hash = wrb.Hash ∧ wra.Size = wrb.Size ∧ wra.BlobsCount = wrb.BlobsCount ∧
      ∃ (cs : List (List Byte)) (entries : List (Int × String)),
        wa1.chunks = emptyWorld.chunks ++ cs ∧
        wb1.chunks = (worldWithBlobs ["hbca"]).chunks ++ cs ∧
        ladds wa1.trace = ladds emptyWorld.trace ++ entries ∧
        ladds wb1.trace = ladds (worldWithBlobs ["hbca"]).trace ++ entries :=
  ⟨_, _, _, _, rfl, rfl, by decide, by decide,
    (FileWriter_independent_of_store hexHash zeroSplit (memConn hexHash) (memConn hexHash) 2 4
      emptyWorld (worldWithBlobs ["hbca"]) "k" "k" [1, 2, 0, 3, 4, 5]).2 _ _ _ _ rfl rfl⟩

/-- No buffer of `chunker` is longer than `maxB`, when the current buffer is
shorter than `maxB`. -/
theorem chunker_length_le {ρ : Type} (rs : Rolling ρ) (minB maxB : Nat) (input : List Byte) :
    ∀ (r : ρ) (buf : List Byte), buf.length < maxB →
      ∀ ch ∈ chunker rs minB maxB input r buf, ch.length ≤ maxB := by
  induction input with
  | nil =>
      intro r buf hbuf ch hch
      simp only [chunker, List.mem_singleton] at hch
      subst hch
      omega
  | cons b rest ih =>
      intro r buf hbuf ch hch
      simp only [chunker] at hch
      split at hch
      · simp only [List.mem_cons] at hch
        rcases hch with rfl | hch
        · simp only [List.length_append, List.length_singleton]
          omega
        · exact ih _ [] (by simp only [List.length_nil]; omega) ch hch
      · rename_i hcut
        simp only [Bool.or_eq_true, Bool.and_eq_true, decide_eq_true_eq, not_or] at hcut
        exact ih _ (buf ++ [b]) (by omega) ch hch

/-- Every buffer of `chunker` but the last one, which is finalized at the end
of the stream, is non-empty, and is longer than `minB` or has reached
`maxB`. -/
theorem chunker_dropLast_bounds {ρ : Type} (rs : Rolling ρ) (minB maxB : Nat)
    (input : List Byte) :
    ∀ (r : ρ) (buf : List Byte), ∀ ch ∈ (chunker rs minB maxB input r buf).dropLast,
      1 ≤ ch.length ∧ (minB < ch.length ∨ maxB ≤ ch.length) := by
  induction input with
  | nil =>
      intro r buf ch hch
      simp [chunker] at hch
  | cons b rest ih =>
      intro r buf ch hch
      simp only [chunker] at hch
      split at hch
      · rename_i hcut
        have hne : chunker rs minB maxB rest (rs.write r b) [] ≠ [] := by
          cases rest with
          | nil => simp [chunker]
          | cons b1 rest1 =>
              simp only [chunker]
              split <;> simp
              intro h0
              have := congrArg List.flatten h0
              simp [chunker_flatten] at this
        rw [List.dropLast_cons_of_ne_nil hne, List.mem_cons] at hch
        rcases hch with rfl | hch
        · simp only [Bool.or_eq_true, Bool.and_eq_true, decide_eq_true_eq] at hcut
          refine ⟨by simp, ?_⟩
          rcases hcut with h | h
          · exact Or.inl h.2
          · exact Or.inr h
        · exact ih _ _ ch hch
      · exact ih _ _ ch hch

/-- The offsets of the index entries of a list of buffers never decrease, and
the last one is the total number of bytes. -/
theorem indexEntries_offsets (H : List Byte → String) (cs : List (List Byte)) :
    ∀ off : Int,
      (∀ e ∈ indexEntries H off cs, off ≤ e.1) ∧
      List.Pairwise (fun x y => x ≤ y) ((indexEntries H off cs).map Prod.fst) ∧
      (cs ≠ [] → ((indexEntries H off cs).map Prod.fst).getLast?
        = some (off + (cs.flatten.length : Int))) := by
  induction cs with
  | nil => intro off; simp [indexEntries]
  | cons ch cs ih =>
      intro off
      obtain ⟨h1, h2, h3⟩ := ih (off + ch.length)
      refine ⟨?_, ?_, ?_⟩
      · intro e he
        simp only [indexEntries, List.mem_cons] at he
        rcases he with rfl | he
        · simp
        · have := h1 e he
          omega
      · simp only [indexEntries, List.map_cons, List.pairwise_cons]
        refine ⟨?_, h2⟩
        intro x hx
        simp only [List.mem_map] at hx
        obtain ⟨e, he, rfl⟩ := hx
        exact h1 e he
      · intro _
        cases cs with
        | nil => simp [indexEntries]
        | cons c1 cs1 =>
            have := h3 (by simp)
            simp only [indexEntries, List.map_cons, List.flatten_cons, List.length_append] at this ⊢
            rw [List.getLast?_cons_cons, this]
            push_cast
            congr 1
            ring

/-- What does hold of the offsets appended by a run of `FileWriter` that
returns: they start at 0, never decrease and end at the length of the input. -/
theorem FileWriter_offsets_monotone {ρ σ : Type} (H : List Byte → String) (rs : Rolling ρ)
    (c : Conn σ) (minB maxB : Nat) (w w1 : World σ) (key : String) (input : List Byte)
    (wr : WriteResult)
    (h : FileWriter H rs c minB maxB w key (some input) = (w1, .ret wr)) :
    ∃ offs : List Int, (ladds w1.trace).map Prod.fst = (ladds w.trace).map Prod.fst ++ 0 :: offs ∧
      List.Pairwise (fun x y => x ≤ y) (0 :: offs) ∧
      (0 :: offs).getLast? = some (input.length : Int) := by
  have hl := FileWriter_ladds H rs c minB maxB w w1 key input wr h
  obtain ⟨h1, h2, h3⟩ := indexEntries_offsets H (chunker rs minB maxB input (rs.new 64) []) 0
  have hne : chunker rs minB maxB input (rs.new 64) [] ≠ [] := by
    cases input with
    | nil => simp [chunker]
    | cons b rest =>
        simp only [chunker]
        split <;> simp
        intro h0
        have := congrArg List.flatten h0
        simp [chunker_flatten] at this
  refine ⟨(indexEntries H 0 (chunker rs minB maxB input (rs.new 64) [])).map Prod.fst, ?_, ?_, ?_⟩
  · rw [hl]; simp
  · simp only [List.pairwise_cons]
    refine ⟨?_, h2⟩
    intro x hx
    simp only [List.mem_map] at hx
    obtain ⟨e, he, rfl⟩ := hx
    exact h1 e he
  · have h4 := h3 hne
    simp only [chunker_flatten, List.nil_append, zero_add] at h4
    rcases hmap : (indexEntries H 0 (chunker rs minB maxB input (rs.new 64) [])).map Prod.fst
      with _ | ⟨a, l⟩
    · rw [hmap] at h4; simp at h4
    · rw [hmap] at h4
      rw [List.getLast?_cons_cons]
      exact h4

/-- The buffers finalized by a run of `FileWriter`, whatever its outcome: none
is longer than `maxB`, and all but the last one recorded are longer than
`minB`. -/
theorem FileWriter_chunks_bounds {ρ σ : Type} (H : List Byte → String) (rs : Rolling ρ)
    (c : Conn σ) (minB maxB : Nat) (hlt : minB < maxB) (w w1 : World σ) (key : String)
    (input : List Byte) (out : Outcome WriteResult)
    (h : FileWriter H rs c minB maxB w key (some input) = (w1, out)) :
    ∃ cs, w1.chunks = w.chunks ++ cs ∧ (∀ ch ∈ cs, ch.length ≤ maxB) ∧
      (∀ ch ∈ cs.dropLast, minB < ch.length) ∧
      (∀ wr, out = .ret wr → cs.flatten = input) := by
  have hle := chunker_length_le rs minB maxB input (rs.new 64) []
    (by simp only [List.length_nil]; omega)
  have hdl : ∀ ch ∈ (chunker rs minB maxB input (rs.new 64) []).dropLast, minB < ch.length := by
    intro ch hch
    have := (chunker_dropLast_bounds rs minB maxB input (rs.new 64) [] ch hch).2
    have := hle ch (List.mem_of_mem_dropLast hch)
    omega
  cases out with
  | ret wr =>
      obtain ⟨hch, -⟩ := FileWriter_ret H rs c minB maxB w w1 key input wr h
      exact ⟨_, hch, hle, hdl, fun _ _ => by simp [chunker_flatten]⟩
  | err msg => exact absurd h (FileWriter_not_err H rs c minB maxB w w1 key input msg)
  | panic p =>
      rcases FileWriter_panic H rs c minB maxB w w1 key input p h with
        ⟨-, -, hch⟩ | ⟨done, ch, rest, evs, hcs, hch, -, -⟩
      · exact ⟨[], by simp [hch], by simp, by simp, by simp⟩
      · refine ⟨done.map Prod.fst ++ [ch], by rw [hch, List.append_assoc], ?_, ?_, by simp⟩
        · intro x hx
          apply hle
          rw [hcs]
          rcases List.mem_append.mp hx with hx | hx
          · exact List.mem_append_left _ hx
          · rw [List.mem_singleton] at hx
            subst hx
            simp
        · intro x hx
          rw [List.dropLast_concat] at hx
          apply hdl
          rw [hcs, List.dropLast_append_of_ne_nil _ (by simp)]
          exact List.mem_append_left _ hx

/-- With a store that does not fail and a pre-pass hash that is the digest of
the file, `PutFile` returns. -/
theorem PutFile_reliable {ρ σ : Type} (H fullSHA1 : List Byte → String) (rs : Rolling ρ)
    (c : Conn σ) (hrel : Reliable H c) (ht : TxReliable c) (hsha : ∀ d, fullSHA1 d = H d)
    (minB maxB : Nat) (w : World σ) (args : List String) (f : File) :
    ∃ w1 m wr, PutFile H fullSHA1 rs c minB maxB w args (some f) = (w1, .ret (m, wr)) := by
  unfold PutFile
  simp only
  split
  · rename_i hinit
    exact absurd hinit (ht.txinit _ _)
  · split
    · rename_i hlen
      exact absurd hlen (ht.llen _ _)
    · rename_i cnt hlen
      split
      · obtain ⟨w3, m3, h3⟩ := putFileFinish_reliable c ht f (fullSHA1 f.data)
          { Hash := fullSHA1 f.data, AlreadyExists := true, FilesSkipped := 1, FilesCount := 1,
            SizeSkipped := f.data.length, Size := f.data.length,
            BlobsCount := cnt, BlobsSkipped := cnt }
          { st := (c.LLEN (c.TXINIT w.st args).1 (fullSHA1 f.data)).1,
            trace := w.trace ++ [Event.txinit args (c.TXINIT w.st args).2] ++
              [Event.llen (fullSHA1 f.data)
                (c.LLEN (c.TXINIT w.st args).1 (fullSHA1 f.data)).2],
            chunks := w.chunks } rfl
        exact ⟨w3, m3, _, h3⟩
      · have hw : ∃ w3 wr, (if f.data.length > minB
            then FileWriter H rs c minB maxB
              { st := (c.LLEN (c.TXINIT w.st args).1 (fullSHA1 f.data)).1,
                trace := w.trace ++ [Event.txinit args (c.TXINIT w.st args).2] ++
                  [Event.llen (fullSHA1 f.data)
                    (c.LLEN (c.TXINIT w.st args).1 (fullSHA1 f.data)).2],
                chunks := w.chunks } (fullSHA1 f.data) (some f.data)
            else SmallFileWriter H c
              { st := (c.LLEN (c.TXINIT w.st args).1 (fullSHA1 f.data)).1,
                trace := w.trace ++ [Event.txinit args (c.TXINIT w.st args).2] ++
                  [Event.llen (fullSHA1 f.data)
                    (c.LLEN (c.TXINIT w.st args).1 (fullSHA1 f.data)).2],
                chunks := w.chunks } (fullSHA1 f.data) (some f.data)) = (w3, .ret wr) ∧
            wr.Hash = H f.data := by
          split
          · obtain ⟨w3, wr, h3⟩ := FileWriter_reliable H rs c hrel minB maxB
              { st := (c.LLEN (c.TXINIT w.st args).1 (fullSHA1 f.data)).1,
                trace := w.trace ++ [Event.txinit args (c.TXINIT w.st args).2] ++
                  [Event.llen (fullSHA1 f.data)
                    (c.LLEN (c.TXINIT w.st args).1 (fullSHA1 f.data)).2],
                chunks := w.chunks } (fullSHA1 f.data) f.data
            obtain ⟨-, done, -, hwr, -⟩ := FileWriter_ret H rs c minB maxB _ _ _ _ _ h3
            exact ⟨w3, wr, h3, by rw [hwr]⟩
          · obtain ⟨w3, wr, h3⟩ := SmallFileWriter_reliable H c hrel
              { st := (c.LLEN (c.TXINIT w.st args).1 (fullSHA1 f.data)).1,
                trace := w.trace ++ [Event.txinit args (c.TXINIT w.st args).2] ++
                  [Event.llen (fullSHA1 f.data)
                    (c.LLEN (c.TXINIT w.st args).1 (fullSHA1 f.data)).2],
                chunks := w.chunks } (fullSHA1 f.data) f.data
            obtain ⟨-, existed, hwr, -⟩ := SmallFileWriter_ret H c _ _ _ _ _ h3
            exact ⟨w3, wr, h3, by rw [hwr]⟩
        obtain ⟨w3, wr, hrun, hhash⟩ := hw
        rw [hrun]
        simp only
        obtain ⟨w4, m4, h4⟩ := putFileFinish_reliable c ht f (fullSHA1 f.data) wr w3
          (by rw [hhash, hsha])
        exact ⟨w4, m4, wr, h4⟩

/-- C14. Whenever `PutFile` returns without an error, the `Meta` and the
`WriteResult` it returns satisfy `meta.Ref = writeResult.Hash`, both equal to
the pre-pass whole-file hash, `meta.Size = writeResult.Size` and
`meta.Type = "file"`; and `PutFile` does return when the store does not fail and
the pre-pass hash is the digest of the file. -/
theorem PutFile_meta_matches_result {ρ σ : Type} (H fullSHA1 : List Byte → String)
    (rs : Rolling ρ) (c : Conn σ) (minB maxB : Nat) (w : World σ) (args : List String)
    (f : File) :
    (Reliable H c → TxReliable c → (∀ d, fullSHA1 d = H d) →
      ∃ w1 m wr, PutFile H fullSHA1 rs c minB maxB w args (some f) = (w1, .ret (m, wr))) ∧
    ∀ w1 m wr, PutFile H fullSHA1 rs c minB maxB w args (some f) = (w1, .ret (m, wr)) →
      m.Ref = wr.Hash ∧ wr.Hash = fullSHA1 f.data ∧ m.Size = wr.Size ∧ m.Type_ = "file" := by
  refine ⟨fun hrel ht hsha => PutFile_reliable H fullSHA1 rs c hrel ht hsha minB maxB w args f,
    ?_⟩
  intro w1 m wr h
  obtain ⟨hsha, hm, -⟩ := PutFile_ret H fullSHA1 rs c minB maxB w w1 args f m wr h
  rw [hm]
  exact ⟨rfl, hsha.symm, rfl, rfl⟩

/-- Witness of C14: a five-byte file put into the empty store. -/
theorem PutFile_meta_matches_result_witness :
    ∃ w1 m wr, PutFile hexHash hexHash zeroSplit (memConn hexHash) 2 4 emptyWorld []
        (some (demoFile [1, 2, 0, 3, 4])) = (w1, .ret (m, wr)) ∧
      m.Ref = wr.Hash ∧ wr.Hash = hexHash [1, 2, 0, 3, 4] ∧ m.Size = wr.Size ∧
      m.Type_ = "file" :=
  ⟨_, _, _, rfl, (PutFile_meta_matches_result hexHash hexHash zeroSplit (memConn hexHash) 2 4
    emptyWorld [] (demoFile [1, 2, 0, 3, 4])).2 _ _ _ rfl⟩

/-- When `TXINIT` and `LLEN` answer and the file is not already known,
`PutFile` is the writer chosen by the file size followed by the tail of
`PutFile`. -/
theorem PutFile_eq_ingest {ρ σ : Type} (H fullSHA1 : List Byte → String) (rs : Rolling ρ)
    (c : Conn σ) (minB maxB : Nat) (w : World σ) (args : List String) (f : File)
    (reply : String) (cnt : Int)
    (hinit : (c.TXINIT w.st args).2 = some reply)
    (hlen : (c.LLEN (c.TXINIT w.st args).1 (fullSHA1 f.data)).2 = some cnt)
    (hnew : ¬ (0 < cnt ∨ fullSHA1 f.data = emptyHash)) :
    PutFile H fullSHA1 rs c minB maxB w args (some f) =
      match ingest H rs c minB maxB (lookupWorld c w args (fullSHA1 f.data)) (fullSHA1 f.data)
          f.data with
      | (w3, .panic p) => (w3, .panic p)
      | (w3, .err _) => (w3, .err "FileWriter error")
      | (w3, .ret wr) => putFileFinish c f (fullSHA1 f.data) wr w3 := by
  unfold PutFile
  simp only
  split
  · rename_i h0
    rw [hinit] at h0
    simp at h0
  · split
    · rename_i h0
      rw [hlen] at h0
      simp at h0
    · rename_i cnt1 h1
      rw [hlen] at h1
      simp only [Option.some.injEq] at h1
      subst h1
      split
      · rename_i hcond
        simp only [gt_iff_lt, Bool.or_eq_true, decide_eq_true_eq] at hcond
        exact absurd hcond hnew
      · rfl

/-- C13. In `PutFile`, when the pre-pass whole-file hash differs from the
`Hash` of the `WriteResult` that the writer returned, `PutFile` returns the
error "initial hash and WriteResult aren't the same" (and so neither a `Meta`
nor a `WriteResult`), sends nothing after the commands of the writer, and its
history contains neither a metadata save nor a `TXCOMMIT`. -/
theorem PutFile_hash_mismatch_is_error {ρ σ : Type} (H fullSHA1 : List Byte → String)
    (rs : Rolling ρ) (c : Conn σ) (minB maxB : Nat) (w w3 : World σ) (args : List String)
    (f : File) (reply : String) (cnt : Int) (wr : WriteResult)
    (hinit : (c.TXINIT w.st args).2 = some reply)
    (hlen : (c.LLEN (c.TXINIT w.st args).1 (fullSHA1 f.data)).2 = some cnt)
    (hnew : ¬ (0 < cnt ∨ fullSHA1 f.data = emptyHash))
    (hrun : ingest H rs c minB maxB (lookupWorld c w args (fullSHA1 f.data)) (fullSHA1 f.data)
      f.data = (w3, .ret wr))
    (hne : fullSHA1 f.data ≠ wr.Hash) :
    PutFile H fullSHA1 rs c minB maxB w args (some f)
      = (w3, .err "initial hash and WriteResult aren't the same") ∧
    ∃ evs, w3.trace = w.trace ++ evs ∧
      ∀ e ∈ evs, (∀ m ok, e ≠ Event.metaSave m ok) ∧ (∀ ok, e ≠ Event.txcommit ok) := by
  constructor
  · rw [PutFile_eq_ingest H fullSHA1 rs c minB maxB w args f reply cnt hinit hlen hnew, hrun]
    simp only [putFileFinish, hne, ne_eq, not_false_eq_true, if_true]
  · have hw : ∃ wevs, w3.trace = (lookupWorld c w args (fullSHA1 f.data)).trace ++ wevs ∧
        WriterEvents H wevs (.ret wr) := by
      unfold ingest at hrun
      split at hrun
      · exact FileWriter_events H rs c minB maxB _ _ _ _ _ hrun
      · exact SmallFileWriter_events H c _ _ _ _ _ hrun
    obtain ⟨wevs, htr, hW⟩ := hw
    refine ⟨[Event.txinit args (c.TXINIT w.st args).2,
      Event.llen (fullSHA1 f.data) (c.LLEN (c.TXINIT w.st args).1 (fullSHA1 f.data)).2] ++ wevs,
      by rw [htr]; simp [lookupWorld], ?_⟩
    intro e he
    simp only [List.cons_append, List.nil_append, List.mem_cons] at he
    rcases he with rfl | rfl | he
    · simp
    · simp
    · have := hW.1 e he
      constructor
      · intro m ok h0
        subst h0
        simp [Event.isBlobOrIndexCmd] at this
      · intro ok h0
        subst h0
        simp [Event.isBlobOrIndexCmd] at this

/-- Witness of C13: a two-byte file whose pre-pass hash is `staleHash`; the
writer returns the digest of the file, which differs, and `PutFile` returns the
error after the commands of the writer. -/
theorem PutFile_hash_mismatch_is_error_witness :
    (PutFile hexHash staleHash zeroSplit (memConn hexHash) 2 4 emptyWorld []
        (some (demoFile [1, 2]))).2 = .err "initial hash and WriteResult aren't the same" ∧
    (PutFile hexHash staleHash zeroSplit (memConn hexHash) 2 4 emptyWorld []
        (some (demoFile [1, 2]))).1.trace
      = [Event.txinit [] (some "OK"), Event.llen "hjbc" (some 0), Event.ladd "hjbc" 0 "" true,
         Event.bexists "hbc" (some false), Event.bput [1, 2] (some "hbc"),
         Event.ladd "hjbc" 2 "hbc" true] :=
  ⟨congrArg Prod.snd (PutFile_hash_mismatch_is_error hexHash staleHash zeroSplit
      (memConn hexHash) 2 4 emptyWorld _ [] (demoFile [1, 2]) "OK" 0 _ rfl rfl (by decide) rfl
      (by decide)).1,
   congrArg (fun r => r.1.trace) (PutFile_hash_mismatch_is_error hexHash staleHash zeroSplit
      (memConn hexHash) 2 4 emptyWorld _ [] (demoFile [1, 2]) "OK" 0 _ rfl rfl (by decide) rfl
      (by decide)).1⟩

/-- An input that keeps the buffer at or below `minB` bytes is finalized as one
buffer, at the end of the stream. -/
theorem chunker_small {ρ : Type} (rs : Rolling ρ) (minB maxB : Nat) (hlt : minB < maxB)
    (input : List Byte) :
    ∀ (r : ρ) (buf : List Byte), buf.length + input.length ≤ minB →
      chunker rs minB maxB input r buf = [buf ++ input] := by
  induction input with
  | nil => intro r buf _; simp [chunker]
  | cons b rest ih =>
      intro r buf hlen
      simp only [List.length_cons] at hlen
      have h1 : ¬ (minB < buf.length + 1) := by omega
      have h2 : ¬ (maxB ≤ buf.length + 1) := by omega
      simp only [chunker, List.length_append, List.length_singleton, gt_iff_lt, ge_iff_le,
        h1, h2, decide_False, Bool.and_false, Bool.or_self, Bool.false_eq_true, if_false]
      rw [ih _ (buf ++ [b]) (by simp only [List.length_append, List.length_singleton]; omega)]
      simp

/-- C11. For every input of at most `MinBlobSize` bytes, every split predicate
and the same state of the store and history, `FileWriter` and `SmallFileWriter`
end in the same way: the same outcome (equal `WriteResult`s when they return,
the same panic otherwise), the same commands with the same replies, the same
state of the store. Stated for any sizes with `minB < maxB`, as
`MinBlobSize < MaxBlobSize`. -/
theorem SmallFileWriter_eq_FileWriter {ρ σ : Type} (H : List Byte → String) (rs : Rolling ρ)
    (c : Conn σ) (minB maxB : Nat) (w : World σ) (key : String) (input : List Byte)
    (hlt : minB < maxB) (hlen : input.length ≤ minB) :
    SmallFileWriter H c w key (some input)
      = FileWriter H rs c minB maxB w key (some input) := by
  unfold SmallFileWriter FileWriter
  simp only
  split
  · rw [writerLoop_eq_runChunks, chunker_small rs minB maxB hlt input (rs.new 64) []
      (by simpa using hlen)]
    simp only [runChunks, List.nil_append]
    rcases hfin : finalize H c key input [] {}
      { st := (c.LADD w.st key 0 "").1,
        trace := w.trace ++ [Event.ladd key 0 "" (c.LADD w.st key 0 "").2],
        chunks := w.chunks } with ⟨w1, res⟩
    cases res with
    | error p => rfl
    | ok v =>
        obtain ⟨wr1, fullHash1⟩ := v
        obtain ⟨hf, -⟩ := finalize_ok H c key input [] {} _ _ _ _ hfin
        simp only [List.nil_append] at hf
        simp only [hf]
  · rfl

/-- Witness of C11: both writers on a two-byte input, with `minB = 2`. -/
theorem SmallFileWriter_eq_FileWriter_witness :
    SmallFileWriter hexHash (memConn hexHash) emptyWorld "k" (some [0, 0])
        = FileWriter hexHash zeroSplit (memConn hexHash) 2 4 emptyWorld "k" (some [0, 0]) ∧
      (SmallFileWriter hexHash (memConn hexHash) emptyWorld "k" (some [0, 0])).1.trace
        = [Event.ladd "k" 0 "" true, Event.bexists "haa" (some false),
           Event.bput [0, 0] (some "haa"), Event.ladd "k" 2 "haa" true] :=
  ⟨SmallFileWriter_eq_FileWriter hexHash zeroSplit (memConn hexHash) 2 4 emptyWorld "k" [0, 0]
    (by decide) (by decide), rfl⟩

/-- A `PutFile` that returns got answers to `TXINIT` and `LLEN`. -/
theorem PutFile_ret_replies {ρ σ : Type} (H fullSHA1 : List Byte → String) (rs : Rolling ρ)
    (c : Conn σ) (minB maxB : Nat) (w w1 : World σ) (args : List String) (f : File)
    (m : Meta) (wr : WriteResult)
    (h : PutFile H fullSHA1 rs c minB maxB w args (some f) = (w1, .ret (m, wr))) :
    ∃ (reply : String) (cnt : Int), (c.TXINIT w.st args).2 = some reply ∧
      (c.LLEN (c.TXINIT w.st args).1 (fullSHA1 f.data)).2 = some cnt := by
  unfold PutFile at h
  simp only at h
  split at h
  · simp at h
  · rename_i reply hinit
    split at h
    · simp at h
    · rename_i cnt hlen
      exact ⟨reply, cnt, hinit, hlen⟩

/-- The index entries appended by a run of `SmallFileWriter` that returns: the
sentinel and the entry of the one buffer. -/
theorem SmallFileWriter_ladds {σ : Type} (H : List Byte → String) (c : Conn σ)
    (w w1 : World σ) (key : String) (input : List Byte) (wr : WriteResult)
    (h : SmallFileWriter H c w key (some input) = (w1, .ret wr)) :
    ladds w1.trace = ladds w.trace ++ [(0, ""), ((input.length : Int), H input)] := by
  obtain ⟨-, existed, -, htr⟩ := SmallFileWriter_ret H c w w1 key input wr h
  rw [htr, ladds_append]
  cases existed <;> simp [okBlock, ladds]

/-- C12. For a file of 1 to `MinBlobSize` bytes whose whole-file hash has no
index in the store (`LLEN` does not answer a positive length), under a hash that
gives no non-empty input the digest of the empty input: a `PutFile` that returns
went through `SmallFileWriter`, its `WriteResult` has `BlobsCount = 1` and
`Hash` the digest of the whole file, and the index entries it appended are the
sentinel `(0, "")` followed by `(file size, Hash)`; and it does return when the
store does not fail and the pre-pass hash is the digest of the file. -/
theorem PutFile_small_file_single_chunk {ρ σ : Type} (H fullSHA1 : List Byte → String)
    (rs : Rolling ρ) (c : Conn σ) (minB maxB : Nat) (w : World σ) (args : List String)
    (f : File)
    (hH : ∀ d, d ≠ [] → fullSHA1 d ≠ emptyHash)
    (hpos : 1 ≤ f.data.length) (hsmall : f.data.length ≤ minB)
    (hnoidx : ¬ IndexKnown c (c.TXINIT w.st args).1 (fullSHA1 f.data)) :
    (Reliable H c → TxReliable c → (∀ d, fullSHA1 d = H d) →
      ∃ w1 m wr, PutFile H fullSHA1 rs c minB maxB w args (some f) = (w1, .ret (m, wr))) ∧
    ∀ w1 m wr, PutFile H fullSHA1 rs c minB maxB w args (some f) = (w1, .ret (m, wr)) →
      (∃ w3, SmallFileWriter H c (lookupWorld c w args (fullSHA1 f.data)) (fullSHA1 f.data)
          (some f.data) = (w3, .ret wr) ∧
        w1.trace = w3.trace ++ [Event.metaSave m true, Event.txcommit true]) ∧
      wr.BlobsCount = 1 ∧ wr.Hash = H f.data ∧
      ladds w1.trace = ladds w.trace ++ [(0, ""), ((f.data.length : Int), wr.Hash)] := by
  refine ⟨fun hrel ht hsha => PutFile_reliable H fullSHA1 rs c hrel ht hsha minB maxB w args f,
    ?_⟩
  intro w1 m wr h
  obtain ⟨reply, cnt, hinit, hlen⟩ := PutFile_ret_replies H fullSHA1 rs c minB maxB w w1 args f
    m wr h
  have hne : f.data ≠ [] := by
    intro h0
    rw [h0] at hpos
    simp at hpos
  have hnew : ¬ (0 < cnt ∨ fullSHA1 f.data = emptyHash) := by
    rintro (hc | hc)
    · exact hnoidx ⟨cnt, hlen, hc⟩
    · exact hH f.data hne hc
  rw [PutFile_eq_ingest H fullSHA1 rs c minB maxB w args f reply cnt hinit hlen hnew] at h
  have hing : ingest H rs c minB maxB (lookupWorld c w args (fullSHA1 f.data))
      (fullSHA1 f.data) f.data
      = SmallFileWriter H c (lookupWorld c w args (fullSHA1 f.data)) (fullSHA1 f.data)
          (some f.data) := by
    unfold ingest
    rw [if_neg (by omega)]
  rw [hing] at h
  rcases hrun : SmallFileWriter H c (lookupWorld c w args (fullSHA1 f.data)) (fullSHA1 f.data)
    (some f.data) with ⟨w3, out3⟩
  rw [hrun] at h
  cases out3 with
  | panic p => simp at h
  | err msg => simp at h
  | ret wr3 =>
      simp only at h
      obtain ⟨hwr, -, -, htr, -⟩ := putFileFinish_ret c f _ _ _ _ _ _ h
      subst hwr
      obtain ⟨-, existed, hwr3, -⟩ := SmallFileWriter_ret H c _ _ _ _ _ hrun
      have hl := SmallFileWriter_ladds H c _ _ _ _ _ hrun
      have hhash : wr.Hash = H f.data := by rw [hwr3]
      refine ⟨⟨w3, rfl, htr⟩, ?_, hhash, ?_⟩
      · rw [hwr3]
        cases existed <;> simp [account]
      · rw [htr, ladds_append, hl, hhash]
        simp [lookupWorld, ladds_append, ladds]

/-- No input has the value of `emptyHash` under `hexHash`. -/
theorem hexHash_ne_emptyHash (d : List Byte) : hexHash d ≠ emptyHash := by
  intro h
  have := congrArg (fun s => s.data.head?) h
  simp [hexHash, emptyHash] at this

/-- Witness of C12: a two-byte file, with `minB = 2`, put into the empty
store. -/
theorem PutFile_small_file_single_chunk_witness :
    ∃ w1 m wr, PutFile hexHash hexHash zeroSplit (memConn hexHash) 2 4 emptyWorld []
        (some (demoFile [1, 2])) = (w1, .ret (m, wr)) ∧
      wr.BlobsCount = 1 ∧ wr.Hash = hexHash [1, 2] ∧
      ladds w1.trace = ladds emptyWorld.trace ++ [(0, ""), (2, wr.Hash)] :=
  ⟨_, _, _, rfl, ((PutFile_small_file_single_chunk hexHash hexHash zeroSplit (memConn hexHash)
    2 4 emptyWorld [] (demoFile [1, 2]) (fun d _ => hexHash_ne_emptyHash d) (by decide)
    (by decide) (by
      rw [memConn_known_iff]
      decide)).2 _ _ _ rfl).2⟩

/-- A history without `BEXISTS`, `BPUT` and `LADD` has no index entries. -/
theorem ladds_eq_nil_of_no_cmd (evs : List Event)
    (h : ∀ e ∈ evs, e.isBlobOrIndexCmd = false) : ladds evs = [] := by
  induction evs with
  | nil => rfl
  | cons e evs ih =>
      have he := h e (by simp)
      have ht := ih (fun x hx => h x (by simp [hx]))
      cases e <;> simp [Event.isBlobOrIndexCmd] at he <;> simp [ladds, ht]

/-- C15 (counterexample). The zero-byte file put into the empty store with
`PutFile`: no `LADD` is sent and the index of the store stays empty, so the
index under the whole-file hash is not the single sentinel entry. And
`FileWriter` on the empty stream appends two entries, the sentinel and
`(0, emptyHash)`. -/
theorem zero_byte_index_not_single_sentinel :
    ladds (PutFile hexHash0 hexHash0 zeroSplit (memConn hexHash0) MinBlobSize MaxBlobSize
        emptyWorld [] (some (demoFile []))).1.trace = [] ∧
    (PutFile hexHash0 hexHash0 zeroSplit (memConn hexHash0) MinBlobSize MaxBlobSize
        emptyWorld [] (some (demoFile []))).1.st.index = [] ∧
    (PutFile hexHash0 hexHash0 zeroSplit (memConn hexHash0) MinBlobSize MaxBlobSize
        emptyWorld [] (some (demoFile []))).1.st.index ≠ [(emptyHash, 0, "")] ∧
    (FileWriter hexHash0 zeroSplit (memConn hexHash0) MinBlobSize MaxBlobSize
        emptyWorld emptyHash (some [])).1.st.index
      = [(emptyHash, 0, ""), (emptyHash, 0, emptyHash)] ∧
    (FileWriter hexHash0 zeroSplit (memConn hexHash0) MinBlobSize MaxBlobSize
        emptyWorld emptyHash (some [])).1.st.index ≠ [(emptyHash, 0, "")] := by
  refine ⟨rfl, rfl, by decide, rfl, by decide⟩

/-- C15 (amended). For a zero-byte file, whose whole-file hash is `emptyHash`,
`PutFile` takes the short-circuit for an already known file: it sends no `LADD`
(nor `BEXISTS` or `BPUT`), so it appends no entry to the index under that hash,
the `WriteResult` it returns has `AlreadyExists = true`, and it does return when
the transaction commands, `LLEN` and the metadata save do not fail. -/
theorem PutFile_zero_byte_appends_nothing {ρ σ : Type} (H fullSHA1 : List Byte → String)
    (rs : Rolling ρ) (c : Conn σ) (minB maxB : Nat) (w : World σ) (args : List String)
    (f : File) (hzero : f.data = []) (hempty : fullSHA1 [] = emptyHash) :
    ∀ w1 out, PutFile H fullSHA1 rs c minB maxB w args (some f) = (w1, out) →
      (∃ evs, w1.trace = w.trace ++ evs ∧ ∀ e ∈ evs, e.isBlobOrIndexCmd = false) ∧
      ladds w1.trace = ladds w.trace ∧
      (∀ m wr, out = .ret (m, wr) → wr.AlreadyExists = true ∧ wr.Size = 0) ∧
      (TxReliable c → ∃ m wr, out = .ret (m, wr)) := by
  intro w1 out h
  have hknown : fullSHA1 f.data = emptyHash ∨
      IndexKnown c (c.TXINIT w.st args).1 (fullSHA1 f.data) := by
    left
    rw [hzero, hempty]
  obtain ⟨⟨evs, htr, hevs⟩, hret, htot⟩ :=
    PutFile_of_known H fullSHA1 rs c minB maxB w w1 args f out hknown h
  refine ⟨⟨evs, htr, hevs⟩, ?_, ?_, htot⟩
  · rw [htr, ladds_append, ladds_eq_nil_of_no_cmd evs hevs, List.append_nil]
  · intro m wr hout
    refine ⟨(hret m wr hout).1, ?_⟩
    subst hout
    obtain ⟨-, -, reply, cnt, w2, -, -, hcase⟩ :=
      PutFile_ret H fullSHA1 rs c minB maxB w w1 args f m wr h
    rcases hcase with ⟨-, hwr, -, -⟩ | ⟨hnew, -⟩
    · rw [hwr, hzero]
      rfl
    · exfalso
      apply hnew
      right
      rw [hzero, hempty]

/-- Witness of C15 (amended): the zero-byte file put into the empty store. -/
theorem PutFile_zero_byte_appends_nothing_witness :
    ladds (PutFile hexHash0 hexHash0 zeroSplit (memConn hexHash0) MinBlobSize MaxBlobSize
        emptyWorld [] (some (demoFile []))).1.trace = ladds emptyWorld.trace ∧
    ∃ m wr, (PutFile hexHash0 hexHash0 zeroSplit (memConn hexHash0) MinBlobSize MaxBlobSize
        emptyWorld [] (some (demoFile []))).2 = .ret (m, wr) :=
  ⟨((PutFile_zero_byte_appends_nothing hexHash0 hexHash0 zeroSplit (memConn hexHash0)
      MinBlobSize MaxBlobSize emptyWorld [] (demoFile []) rfl rfl) _ _ rfl).2.1,
   ((PutFile_zero_byte_appends_nothing hexHash0 hexHash0 zeroSplit (memConn hexHash0)
      MinBlobSize MaxBlobSize emptyWorld [] (demoFile []) rfl rfl) _ _ rfl).2.2.2
      (memConn_txReliable hexHash0)⟩

/-- A finalization that goes through adds one entry to the index of its key. -/
theorem finalize_llen {σ : Type} (H : List Byte → String) (c : Conn σ) (hc : CountsEntries c)
    (key : String) (buf fullHash : List Byte) (wr : WriteResult) (w w1 : World σ)
    (wr1 : WriteResult) (fullHash1 : List Byte)
    (h : finalize H c key buf fullHash wr w = (w1, .ok (wr1, fullHash1))) :
    (c.LLEN w1.st key).2 = ((c.LLEN w.st key).2).map (fun n => n + 1) := by
  unfold finalize at h
  simp only at h
  split at h
  · simp at h
  · split at h
    · simp at h
    · split at h
      · simp at h
      · split at h
        · rename_i hl
          simp only [Prod.mk.injEq, Except.ok.injEq] at h
          rw [← h.1]
          simp only
          rw [hc.ladd _ _ _ _ hl, hc.bput, hc.bexists]
        · simp at h
  · split at h
    · rename_i hl
      simp only [Prod.mk.injEq, Except.ok.injEq] at h
      rw [← h.1]
      simp only
      rw [hc.ladd _ _ _ _ hl, hc.bexists]
    · simp at h

/-- A run over a list of buffers that goes through adds one entry per buffer
to the index of its key. -/
theorem runChunks_llen {σ : Type} (H : List Byte → String) (c : Conn σ) (hc : CountsEntries c)
    (key : String) (cs : List (List Byte)) :
    ∀ (fullHash : List Byte) (wr : WriteResult) (w w1 : World σ) (wr1 : WriteResult)
      (fullHash1 : List Byte),
      runChunks H c key cs fullHash wr w = (w1, .ok (wr1, fullHash1)) →
      (c.LLEN w1.st key).2 = ((c.LLEN w.st key).2).map (fun n => n + (cs.length : Int)) := by
  induction cs with
  | nil =>
      intro fullHash wr w w1 wr1 fullHash1 h
      simp only [runChunks, Prod.mk.injEq] at h
      rw [← h.1]
      simp
  | cons ch cs ih =>
      intro fullHash wr w w1 wr1 fullHash1 h
      simp only [runChunks] at h
      rcases hfin : finalize H c key ch fullHash wr w with ⟨w2, res⟩
      rw [hfin] at h
      cases res with
      | error p => simp at h
      | ok v =>
          obtain ⟨wr2, fullHash2⟩ := v
          simp only at h
          rw [ih _ _ _ _ _ _ h, finalize_llen H c hc key ch fullHash wr w w2 wr2 fullHash2 hfin,
            Option.map_map]
          congr 1
          funext n
          simp only [Function.comp_apply, List.length_cons]
          push_cast
          ring

/-- A run of `FileWriter` that returns adds `1 + BlobsCount` entries to the
index of its key: the sentinel and one entry per finalized buffer. -/
theorem FileWriter_llen {ρ σ : Type} (H : List Byte → String) (rs : Rolling ρ) (c : Conn σ)
    (hc : CountsEntries c) (minB maxB : Nat) (w w1 : World σ) (key : String)
    (input : List Byte) (wr : WriteResult)
    (h : FileWriter H rs c minB maxB w key (some input) = (w1, .ret wr)) :
    (c.LLEN w1.st key).2 = ((c.LLEN w.st key).2).map (fun n => n + (1 + wr.BlobsCount)) := by
  obtain ⟨-, done, hdone, hwr, -⟩ := FileWriter_ret H rs c minB maxB w w1 key input wr h
  have hcnt : wr.BlobsCount = ((chunker rs minB maxB input (rs.new 64) []).length : Int) := by
    rw [hwr, ← hdone]
    simp only [accounts_BlobsCount, List.length_map]
    simp
  unfold FileWriter at h
  simp only at h
  split at h
  · rename_i hl
    rw [writerLoop_eq_runChunks] at h
    split at h
    · simp at h
    · rename_i w2 wr2 fullHash2 hrun
      simp only [Prod.mk.injEq, Outcome.ret.injEq] at h
      have := runChunks_llen H c hc key _ _ _ _ _ _ _ hrun
      simp only at this
      rw [← h.1, this, hc.ladd _ _ _ _ hl, Option.map_map, hcnt]
      congr 1
      funext n
      simp only [Function.comp_apply]
      ring
  · simp at h

/-- A run of `SmallFileWriter` that returns adds `1 + BlobsCount` entries to
the index of its key. -/
theorem SmallFileWriter_llen {σ : Type} (H : List Byte → String) (c : Conn σ)
    (hc : CountsEntries c) (w w1 : World σ) (key : String)
    (input : List Byte) (wr : WriteResult)
    (h : SmallFileWriter H c w key (some input) = (w1, .ret wr)) :
    (c.LLEN w1.st key).2 = ((c.LLEN w.st key).2).map (fun n => n + (1 + wr.BlobsCount)) := by
  obtain ⟨-, existed, hwr, -⟩ := SmallFileWriter_ret H c w w1 key input wr h
  have hcnt : wr.BlobsCount = 1 := by
    rw [hwr]
    cases existed <;> simp [account]
  unfold SmallFileWriter at h
  simp only at h
  split at h
  · rename_i hl
    split at h
    · simp at h
    · rename_i w2 wr2 fullHash2 hrun
      simp only [Prod.mk.injEq, Outcome.ret.injEq] at h
      have := finalize_llen H c hc key _ _ _ _ _ _ _ hrun
      simp only at this
      rw [← h.1, this, hc.ladd _ _ _ _ hl, Option.map_map, hcnt]
      congr 1
      funext n
      simp only [Function.comp_apply]
      ring
  · simp at h

/-- The tail of `PutFile` leaves the answers of `LLEN` unchanged. -/
theorem putFileFinish_llen {σ : Type} (c : Conn σ) (hc : CountsEntries c) (f : File)
    (sha : String) (wr : WriteResult) (w : World σ) (k : String) :
    (c.LLEN (putFileFinish c f sha wr w).1.st k).2 = (c.LLEN w.st k).2 := by
  unfold putFileFinish
  simp only
  split
  · rfl
  · split
    · split
      · simp only [hc.txcommit, hc.metaSave]
      · simp only [hc.txcommit, hc.metaSave]
    · simp only [hc.metaSave]

/-- When `TXINIT` and `LLEN` answer and the file is already known, `PutFile`
is the short-circuit result followed by the tail of `PutFile`. -/
theorem PutFile_eq_shortcut {ρ σ : Type} (H fullSHA1 : List Byte → String) (rs : Rolling ρ)
    (c : Conn σ) (minB maxB : Nat) (w : World σ) (args : List String) (f : File)
    (reply : String) (cnt : Int)
    (hinit : (c.TXINIT w.st args).2 = some reply)
    (hlen : (c.LLEN (c.TXINIT w.st args).1 (fullSHA1 f.data)).2 = some cnt)
    (hknown : 0 < cnt ∨ fullSHA1 f.data = emptyHash) :
    PutFile H fullSHA1 rs c minB maxB w args (some f) =
      putFileFinish c f (fullSHA1 f.data)
        { Hash := fullSHA1 f.data, AlreadyExists := true, FilesSkipped := 1, FilesCount := 1,
          SizeSkipped := f.data.length, Size := f.data.length,
          BlobsCount := cnt, BlobsSkipped := cnt }
        (lookupWorld c w args (fullSHA1 f.data)) := by
  unfold PutFile
  simp only
  split
  · rename_i h0
    rw [hinit] at h0
    simp at h0
  · split
    · rename_i h0
      rw [hlen] at h0
      simp at h0
    · rename_i cnt1 h1
      rw [hlen] at h1
      simp only [Option.some.injEq] at h1
      subst h1
      split
      · rfl
      · rename_i hcond
        simp only [gt_iff_lt, Bool.or_eq_true, decide_eq_true_eq] at hcond
        exact absurd hknown hcond

/-- The writer chosen by `PutFile`, when it returns, reports a non-negative
`BlobsCount` and has added `1 + BlobsCount` entries to the index of its key. -/
theorem ingest_ret_llen {ρ σ : Type} (H : List Byte → String) (rs : Rolling ρ) (c : Conn σ)
    (hc : CountsEntries c) (minB maxB : Nat) (w w1 : World σ) (key : String)
    (input : List Byte) (wr : WriteResult)
    (h : ingest H rs c minB maxB w key input = (w1, .ret wr)) :
    0 ≤ wr.BlobsCount ∧ wr.AlreadyExists = false ∧
      (c.LLEN w1.st key).2 = ((c.LLEN w.st key).2).map (fun n => n + (1 + wr.BlobsCount)) := by
  unfold ingest at h
  split at h
  · refine ⟨?_, ?_, FileWriter_llen H rs c hc minB maxB w w1 key input wr h⟩
    · obtain ⟨-, done, -, hwr, -⟩ := FileWriter_ret H rs c minB maxB w w1 key input wr h
      rw [hwr]
      simp only [accounts_BlobsCount]
      have : ({} : WriteResult).BlobsCount = 0 := rfl
      omega
    · obtain ⟨-, done, -, hwr, -⟩ := FileWriter_ret H rs c minB maxB w w1 key input wr h
      rw [hwr]
      have hA : ∀ (l : List (List Byte × Bool)) (wr0 : WriteResult),
          (accounts wr0 l).AlreadyExists = wr0.AlreadyExists := by
        intro l
        induction l with
        | nil => intro wr0; rfl
        | cons d l ih =>
            intro wr0
            obtain ⟨ch, existed⟩ := d
            simp only [accounts, ih]
            cases existed <;> rfl
      exact hA done {}
  · refine ⟨?_, ?_, SmallFileWriter_llen H c hc w w1 key input wr h⟩
    · obtain ⟨-, existed, hwr, -⟩ := SmallFileWriter_ret H c w w1 key input wr h
      rw [hwr]
      cases existed <;> simp [account]
    · obtain ⟨-, existed, hwr, -⟩ := SmallFileWriter_ret H c w w1 key input wr h
      rw [hwr]
      cases existed <;> rfl

/-- C20. On the short-circuit of `PutFile`, `BlobsCount` and `BlobsSkipped` are
the index length answered by `LLEN`. So for a file of at least one byte whose
index is empty before, in a store whose index grows by one entry with each
`LADD`, under a hash that gives no non-empty input the digest of the empty
input: a first `PutFile` that returns and a second `PutFile` of the same file
that returns report `BlobsCount` of the second = `BlobsCount` of the first + 1,
the sentinel entry being counted; and both do return when the store does not
fail and the pre-pass hash is the digest of the file. -/
theorem PutFile_again_counts_sentinel {ρ σ : Type} (H fullSHA1 : List Byte → String)
    (rs : Rolling ρ) (c : Conn σ) (minB maxB : Nat) (w : World σ) (args args2 : List String)
    (f : File) (hc : CountsEntries c)
    (hH : ∀ d, d ≠ [] → fullSHA1 d ≠ emptyHash) (hpos : 1 ≤ f.data.length)
    (hidx : (c.LLEN (c.TXINIT w.st args).1 (fullSHA1 f.data)).2 = some 0) :
    (Reliable H c → TxReliable c → (∀ d, fullSHA1 d = H d) →
      ∃ w1 m1 wr1 w2 m2 wr2,
        PutFile H fullSHA1 rs c minB maxB w args (some f) = (w1, .ret (m1, wr1)) ∧
        PutFile H fullSHA1 rs c minB maxB w1 args2 (some f) = (w2, .ret (m2, wr2))) ∧
    ∀ w1 m1 wr1 w2 m2 wr2,
      PutFile H fullSHA1 rs c minB maxB w args (some f) = (w1, .ret (m1, wr1)) →
      PutFile H fullSHA1 rs c minB maxB w1 args2 (some f) = (w2, .ret (m2, wr2)) →
      wr1.AlreadyExists = false ∧ wr2.AlreadyExists = true ∧
        wr2.BlobsCount = wr1.BlobsCount + 1 ∧ wr2.BlobsSkipped = wr1.BlobsCount + 1 := by
  constructor
  · intro hrel ht hsha
    obtain ⟨w1, m1, wr1, h1⟩ := PutFile_reliable H fullSHA1 rs c hrel ht hsha minB maxB w args f
    obtain ⟨w2, m2, wr2, h2⟩ := PutFile_reliable H fullSHA1 rs c hrel ht hsha minB maxB w1 args2 f
    exact ⟨w1, m1, wr1, w2, m2, wr2, h1, h2⟩
  · intro w1 m1 wr1 w2 m2 wr2 h1 h2
    obtain ⟨reply1, cnt1, hinit1, hlen1⟩ := PutFile_ret_replies H fullSHA1 rs c minB maxB w w1
      args f m1 wr1 h1
    rw [hidx] at hlen1
    simp only [Option.some.injEq] at hlen1
    subst hlen1
    have hne : f.data ≠ [] := by
      intro h0
      rw [h0] at hpos
      simp at hpos
    have hnew : ¬ ((0 : Int) < 0 ∨ fullSHA1 f.data = emptyHash) := by
      rintro (hc0 | hc0)
      · omega
      · exact hH f.data hne hc0
    rw [PutFile_eq_ingest H fullSHA1 rs c minB maxB w args f reply1 0 hinit1 hidx hnew] at h1
    rcases hrun : ingest H rs c minB maxB (lookupWorld c w args (fullSHA1 f.data))
      (fullSHA1 f.data) f.data with ⟨w3, out3⟩
    rw [hrun] at h1
    cases out3 with
    | panic p => simp at h1
    | err msg => simp at h1
    | ret wr3 =>
        simp only at h1
        obtain ⟨hwr, -⟩ := putFileFinish_ret c f _ _ _ _ _ _ h1
        subst hwr
        obtain ⟨hnonneg, hnotex, hl3⟩ := ingest_ret_llen H rs c hc minB maxB _ _ _ _ _ hrun
        have hl1 : (c.LLEN w1.st (fullSHA1 f.data)).2 = some (1 + wr1.BlobsCount) := by
          have := putFileFinish_llen c hc f (fullSHA1 f.data) wr1 w3 (fullSHA1 f.data)
          rw [h1] at this
          simp only at this
          rw [this, hl3]
          simp only [lookupWorld, hc.llen, hidx, Option.map_some', zero_add]
        obtain ⟨reply2, cnt2, hinit2, hlen2⟩ := PutFile_ret_replies H fullSHA1 rs c minB maxB w1
          w2 args2 f m2 wr2 h2
        have hcnt2 : cnt2 = 1 + wr1.BlobsCount := by
          rw [hc.txinit, hl1] at hlen2
          simp only [Option.some.injEq] at hlen2
          exact hlen2.symm
        rw [PutFile_eq_shortcut H fullSHA1 rs c minB maxB w1 args2 f reply2 cnt2 hinit2 hlen2
          (Or.inl (by omega))] at h2
        obtain ⟨hwr2, -⟩ := putFileFinish_ret c f _ _ _ _ _ _ h2
        rw [hwr2]
        refine ⟨hnotex, rfl, ?_, ?_⟩
        · show cnt2 = wr1.BlobsCount + 1
          omega
        · show cnt2 = wr1.BlobsCount + 1
          omega

/-- The index of the store of `memConn` grows by one entry with each `LADD`. -/
theorem memConn_countsEntries (H : List Byte → String) : CountsEntries (memConn H) := by
  constructor
  · intro s k o h _
    simp [memConn, List.filter_append]
  · intro s k h; rfl
  · intro s k d; rfl
  · intro s k k1; rfl
  · intro s k a; rfl
  · intro s k; rfl
  · intro s k m; rfl

/-- Witness of C20: a five-byte file put twice into the empty store; the first
run reports two blobs, the second one three. -/
theorem PutFile_again_counts_sentinel_witness :
    ∃ w1 m1 wr1 w2 m2 wr2,
      PutFile hexHash hexHash zeroSplit (memConn hexHash) 2 4 emptyWorld []
        (some (demoFile [1, 2, 0, 3, 4])) = (w1, .ret (m1, wr1)) ∧
      PutFile hexHash hexHash zeroSplit (memConn hexHash) 2 4 w1 []
        (some (demoFile [1, 2, 0, 3, 4])) = (w2, .ret (m2, wr2)) ∧
      wr1.BlobsCount = 2 ∧ wr2.BlobsCount = 3 ∧
      wr1.AlreadyExists = false ∧ wr2.AlreadyExists = true ∧
      wr2.BlobsCount = wr1.BlobsCount + 1 ∧ wr2.BlobsSkipped = wr1.BlobsCount + 1 :=
  ⟨_, _, _, _, _, _, rfl, rfl, by decide, by decide,
    (PutFile_again_counts_sentinel hexHash hexHash zeroSplit (memConn hexHash) 2 4 emptyWorld
      [] [] (demoFile [1, 2, 0, 3, 4]) (memConn_countsEntries hexHash)
      (fun d _ => hexHash_ne_emptyHash d) (by decide) rfl).2 _ _ _ _ _ _ rfl rfl⟩

theorem uploads_append (H : List Byte → String) (xs ys : List Event) :
    uploads H (xs ++ ys) = uploads H xs ++ uploads H ys := by
  induction xs with
  | nil => rfl
  | cons e xs ih =>
      cases e with
      | bput d r =>
          cases r with
          | none => simp [uploads, ih]
          | some h =>
              by_cases hh : h = H d
              · simp [uploads, ih, hh]
              · simp [uploads, ih, hh]
      | _ => simp [uploads, ih]

/-- A command other than `BPUT`, which keeps the blobs, keeps `GoodAt`. -/
theorem goodAt_step {σ : Type} (H : List Byte → String) (c : Conn σ) (s s1 : σ)
    (tr : List Event) (e : Event) (he : uploads H [e] = [])
    (hs : ∀ h, BlobPresent c s h → BlobPresent c s1 h) (hg : GoodAt H c s tr) :
    GoodAt H c s1 (tr ++ [e]) := by
  unfold GoodAt
  rw [uploads_append, he, List.append_nil]
  exact ⟨hg.1, fun h hh => hs h (hg.2 h hh)⟩

/-- A `BPUT` of data whose hash is not among the uploads keeps `GoodAt`. -/
theorem goodAt_bput {σ : Type} (H : List Byte → String) (c : Conn σ) (hk : KeepsBlobs c)
    (s : σ) (tr : List Event) (d : List Byte) (hnew : H d ∉ uploads H tr)
    (hg : GoodAt H c s tr) :
    GoodAt H c (c.BPUT s d).1 (tr ++ [Event.bput d (c.BPUT s d).2]) := by
  unfold GoodAt
  rw [uploads_append]
  rcases hr : (c.BPUT s d).2 with _ | h
  · simp only [uploads, List.append_nil]
    exact ⟨hg.1, fun h hh => (hk.keeps h).bput s d (hg.2 h hh)⟩
  · by_cases hh : h = H d
    · subst hh
      simp only [uploads, if_true]
      refine ⟨?_, ?_⟩
      · rw [List.nodup_append]
        exact ⟨hg.1, by simp, by
          intro a ha hb
          simp only [List.mem_singleton] at hb
          subst hb
          exact hnew ha⟩
      · intro h1 hh1
        simp only [List.mem_append, List.mem_singleton] at hh1
        rcases hh1 with hh1 | hh1
        · exact (hk.keeps h1).bput s d (hg.2 h1 hh1)
        · subst hh1
          exact hk.bput_new s d _ hr
    · simp only [uploads, hh, if_false, List.append_nil]
      exact ⟨hg.1, fun h1 hh1 => (hk.keeps h1).bput s d (hg.2 h1 hh1)⟩

/-- A finalization keeps the uploads pairwise different and present. -/
theorem finalize_good {σ : Type} (H : List Byte → String) (c : Conn σ) (hk : KeepsBlobs c)
    (key : String) (buf fullHash : List Byte) (wr : WriteResult) (w : World σ)
    (hg : GoodAt H c w.st w.trace) :
    GoodAt H c (finalize H c key buf fullHash wr w).1.st
      (finalize H c key buf fullHash wr w).1.trace := by
  have h1 : GoodAt H c (c.BEXISTS w.st (H buf)).1
      (w.trace ++ [Event.bexists (H buf) (c.BEXISTS w.st (H buf)).2]) :=
    goodAt_step H c _ _ _ _ rfl (fun h hh => (hk.keeps h).bexists _ _ hh) hg
  have hladd : ∀ (s : σ) (tr : List Event) (off : Int), GoodAt H c s tr →
      GoodAt H c (c.LADD s key off (H buf)).1
        (tr ++ [Event.ladd key off (H buf) (c.LADD s key off (H buf)).2]) :=
    fun s tr off hgs =>
      goodAt_step H c _ _ _ _ rfl (fun h hh => (hk.keeps h).ladd _ _ _ _ hh) hgs
  unfold finalize
  simp only
  split
  · exact h1
  · rename_i hex
    have hnew : H buf ∉ uploads H
        (w.trace ++ [Event.bexists (H buf) (c.BEXISTS w.st (H buf)).2]) := by
      rw [uploads_append]
      simp only [uploads, List.append_nil]
      intro hmem
      have := hg.2 _ hmem
      unfold BlobPresent at this
      rw [hex] at this
      simp at this
    have h2 := goodAt_bput H c hk _ _ buf hnew h1
    split
    · exact h2
    · split
      · exact h2
      · split
        · exact hladd _ _ _ h2
        · exact hladd _ _ _ h2
  · split
    · exact hladd _ _ _ h1
    · exact hladd _ _ _ h1

/-- A run over a list of buffers keeps the uploads pairwise different and
present. -/
theorem runChunks_good {σ : Type} (H : List Byte → String) (c : Conn σ) (hk : KeepsBlobs c)
    (key : String) (cs : List (List Byte)) :
    ∀ (fullHash : List Byte) (wr : WriteResult) (w : World σ),
      GoodAt H c w.st w.trace →
      GoodAt H c (runChunks H c key cs fullHash wr w).1.st
        (runChunks H c key cs fullHash wr w).1.trace := by
  induction cs with
  | nil => intro fullHash wr w hg; exact hg
  | cons ch cs ih =>
      intro fullHash wr w hg
      have hf := finalize_good H c hk key ch fullHash wr w hg
      simp only [runChunks]
      rcases hfin : finalize H c key ch fullHash wr w with ⟨w2, res⟩
      rw [hfin] at hf
      cases res with
      | error p => exact hf
      | ok v => exact ih _ _ _ hf

/-- A run of `FileWriter` keeps the uploads pairwise different and present. -/
theorem FileWriter_good {ρ σ : Type} (H : List Byte → String) (rs : Rolling ρ) (c : Conn σ)
    (hk : KeepsBlobs c) (minB maxB : Nat) (w : World σ) (key : String) (input : List Byte)
    (hg : GoodAt H c w.st w.trace) :
    GoodAt H c (FileWriter H rs c minB maxB w key (some input)).1.st
      (FileWriter H rs c minB maxB w key (some input)).1.trace := by
  have h0 : GoodAt H c (c.LADD w.st key 0 "").1
      (w.trace ++ [Event.ladd key 0 "" (c.LADD w.st key 0 "").2]) :=
    goodAt_step H c _ _ _ _ rfl (fun h hh => (hk.keeps h).ladd _ _ _ _ hh) hg
  unfold FileWriter
  simp only
  split
  · rw [writerLoop_eq_runChunks]
    have := runChunks_good H c hk key (chunker rs minB maxB input (rs.new 64) []) [] {}
      { w with st := (c.LADD w.st key 0 "").1,
               trace := w.trace ++ [Event.ladd key 0 "" (c.LADD w.st key 0 "").2] } h0
    split
    · rename_i hrun
      rw [hrun] at this
      exact this
    · rename_i hrun
      rw [hrun] at this
      exact this
  · exact h0

/-- A run of `SmallFileWriter` keeps the uploads pairwise different and
present. -/
theorem SmallFileWriter_good {σ : Type} (H : List Byte → String) (c : Conn σ)
    (hk : KeepsBlobs c) (w : World σ) (key : String) (input : List Byte)
    (hg : GoodAt H c w.st w.trace) :
    GoodAt H c (SmallFileWriter H c w key (some input)).1.st
      (SmallFileWriter H c w key (some input)).1.trace := by
  have h0 : GoodAt H c (c.LADD w.st key 0 "").1
      (w.trace ++ [Event.ladd key 0 "" (c.LADD w.st key 0 "").2]) :=
    goodAt_step H c _ _ _ _ rfl (fun h hh => (hk.keeps h).ladd _ _ _ _ hh) hg
  unfold SmallFileWriter
  simp only
  split
  · have := finalize_good H c hk key input [] {}
      { w with st := (c.LADD w.st key 0 "").1,
               trace := w.trace ++ [Event.ladd key 0 "" (c.LADD w.st key 0 "").2] } h0
    split
    · rename_i hrun
      rw [hrun] at this
      exact this
    · rename_i hrun
      rw [hrun] at this
      exact this
  · exact h0

/-- A sequence of ingestions keeps the uploads pairwise different and
present. -/
theorem runJobs_good {ρ σ : Type} (H : List Byte → String) (rs : Rolling ρ) (c : Conn σ)
    (hk : KeepsBlobs c) (minB maxB : Nat) (jobs : List Job) :
    ∀ w : World σ, GoodAt H c w.st w.trace →
      GoodAt H c (runJobs H rs c minB maxB jobs w).1.st
        (runJobs H rs c minB maxB jobs w).1.trace := by
  induction jobs with
  | nil => intro w hg; exact hg
  | cons j js ih =>
      intro w hg
      cases j with
      | file key input =>
          simp only [runJobs]
          exact ih _ (FileWriter_good H rs c hk minB maxB w key input hg)
      | small key input =>
          simp only [runJobs]
          exact ih _ (SmallFileWriter_good H c hk w key input hg)

theorem allAcked_append (H : List Byte → String) (xs ys : List Event) :
    AllAcked H (xs ++ ys) ↔ AllAcked H xs ∧ AllAcked H ys := by
  unfold AllAcked
  constructor
  · intro h
    exact ⟨fun d r hm => h d r (List.mem_append_left _ hm),
      fun d r hm => h d r (List.mem_append_right _ hm)⟩
  · rintro ⟨h1, h2⟩ d r hm
    rcases List.mem_append.mp hm with hm | hm
    · exact h1 d r hm
    · exact h2 d r hm

/-- The `BPUT` commands of buffers that went through were answered with the
hash of their data. -/
theorem okBlocks_acked (H : List Byte → String) (key : String)
    (done : List (List Byte × Bool)) :
    ∀ off : Int, AllAcked H (okBlocks H key off done) := by
  induction done with
  | nil => intro off d r hm; simp [okBlocks] at hm
  | cons x done ih =>
      intro off
      obtain ⟨ch, existed⟩ := x
      simp only [okBlocks]
      rw [allAcked_append]
      refine ⟨?_, ih _⟩
      intro d r hm
      cases existed
      · simp only [okBlock, Bool.false_eq_true, if_false, List.mem_cons, List.mem_singleton,
          List.not_mem_nil, or_false] at hm
        rcases hm with hm | hm | hm
        · cases hm
        · simp only [Event.bput.injEq] at hm
          rw [hm.1, hm.2]
        · cases hm
      · simp only [okBlock, if_true, List.mem_cons, List.mem_singleton,
          List.not_mem_nil, or_false] at hm
        rcases hm with hm | hm
        · cases hm
        · cases hm

/-- When every `BPUT` was answered with the hash of its data, the uploads are
the hashes of the data of all `BPUT` commands. -/
theorem uploads_eq_bputHashes (H : List Byte → String) (tr : List Event)
    (h : AllAcked H tr) : uploads H tr = bputHashes H tr := by
  induction tr with
  | nil => rfl
  | cons e tr ih =>
      have ht : AllAcked H tr := fun d r hm => h d r (List.mem_cons_of_mem _ hm)
      cases e with
      | bput d r =>
          have hr := h d r (by simp)
          subst hr
          simp [uploads, bputHashes, ih ht]
      | _ => simp [uploads, bputHashes, ih ht]

/-- In a sequence of ingestions that all return, every `BPUT` was answered
with the hash of its data. -/
theorem runJobs_acked {ρ σ : Type} (H : List Byte → String) (rs : Rolling ρ) (c : Conn σ)
    (minB maxB : Nat) (jobs : List Job) :
    ∀ w : World σ, AllAcked H w.trace →
      (∀ o ∈ (runJobs H rs c minB maxB jobs w).2, o.isRet = true) →
      AllAcked H (runJobs H rs c minB maxB jobs w).1.trace := by
  induction jobs with
  | nil => intro w hw _; exact hw
  | cons j js ih =>
      intro w hw hall
      cases j with
      | file key input =>
          simp only [runJobs] at hall ⊢
          have hret := hall (FileWriter H rs c minB maxB w key (some input)).2
            (List.mem_cons_self _ _)
          obtain ⟨wr, hout⟩ : ∃ wr, (FileWriter H rs c minB maxB w key (some input)).2
              = Outcome.ret wr := by
            cases hres : (FileWriter H rs c minB maxB w key (some input)).2 with
            | ret wr => exact ⟨wr, rfl⟩
            | err msg => rw [hres] at hret; simp [Outcome.isRet] at hret
            | panic p => rw [hres] at hret; simp [Outcome.isRet] at hret
          apply ih
          · have hrun : FileWriter H rs c minB maxB w key (some input)
                = ((FileWriter H rs c minB maxB w key (some input)).1, .ret wr) := by
              rw [← hout]
            obtain ⟨-, done, -, -, htr⟩ := FileWriter_ret H rs c minB maxB w _ key input wr hrun
            rw [htr, allAcked_append]
            refine ⟨hw, ?_⟩
            intro d r hm
            simp only [List.mem_cons] at hm
            rcases hm with hm | hm
            · cases hm
            · exact okBlocks_acked H key done 0 d r hm
          · intro o ho
            exact hall o (by simp [ho])
      | small key input =>
          simp only [runJobs] at hall ⊢
          have hret := hall (SmallFileWriter H c w key (some input)).2
            (List.mem_cons_self _ _)
          obtain ⟨wr, hout⟩ : ∃ wr, (SmallFileWriter H c w key (some input)).2
              = Outcome.ret wr := by
            cases hres : (SmallFileWriter H c w key (some input)).2 with
            | ret wr => exact ⟨wr, rfl⟩
            | err msg => rw [hres] at hret; simp [Outcome.isRet] at hret
            | panic p => rw [hres] at hret; simp [Outcome.isRet] at hret
          apply ih
          · have hrun : SmallFileWriter H c w key (some input)
                = ((SmallFileWriter H c w key (some input)).1, .ret wr) := by
              rw [← hout]
            obtain ⟨-, existed, -, htr⟩ := SmallFileWriter_ret H c w _ key input wr hrun
            rw [htr, allAcked_append]
            refine ⟨hw, ?_⟩
            intro d r hm
            simp only [List.mem_cons] at hm
            rcases hm with hm | hm
            · cases hm
            · have := okBlocks_acked H key [(input, existed)] 0 d r
                (by simpa [okBlocks] using hm)
              exact this
          · intro o ho
            exact hall o (by simp [ho])

/-- C16. Across any sequence of runs of `FileWriter` and `SmallFileWriter`,
over any files, against a store in which a blob exists once it has been put,
no hash is uploaded twice: the hashes of the `BPUT` commands that the store
answered with the hash of the data are pairwise different; and when every run
of the sequence returns, these are all `BPUT` commands, so no two `BPUT`
commands carry data with the same hash. -/
theorem no_chunk_uploaded_twice {ρ σ : Type} (H : List Byte → String) (rs : Rolling ρ)
    (c : Conn σ) (minB maxB : Nat) (jobs : List Job) (s : σ) (hk : KeepsBlobs c) :
    (uploads H (runJobs H rs c minB maxB jobs { st := s }).1.trace).Nodup ∧
    ((∀ o ∈ (runJobs H rs c minB maxB jobs { st := s }).2, o.isRet = true) →
      (bputHashes H (runJobs H rs c minB maxB jobs { st := s }).1.trace).Nodup) := by
  have hg := runJobs_good H rs c hk minB maxB jobs { st := s }
    ⟨by simp [uploads], by simp [uploads]⟩
  refine ⟨hg.1, ?_⟩
  intro hall
  have hack := runJobs_acked H rs c minB maxB jobs { st := s }
    (fun d r hm => by simp at hm) hall
  rw [← uploads_eq_bputHashes H _ hack]
  exact hg.1

/-- The store of `memConn` keeps its blobs. -/
theorem memConn_keepsBlobs (H : List Byte → String) : KeepsBlobs (memConn H) := by
  constructor
  · intro s d h hr
    simp only [memConn, Option.some.injEq] at hr
    subst hr
    simp [BlobPresent, memConn]
  · intro h
    constructor
    · intro s k o h1 hs; exact hs
    · intro s h1 hs; exact hs
    · intro s d hs
      simp only [BlobPresent, memConn, Option.some.injEq, List.contains_eq_any_beq,
        List.any_eq_true, beq_iff_eq, List.any_append, Bool.or_eq_true] at hs ⊢
      exact Or.inl hs
    · intro s k hs; exact hs
    · intro s a hs; exact hs
    · intro s hs; exact hs
    · intro s m hs; exact hs

/-- Witness of C16: three ingestions into the empty store with the bytes
`1 2 0` in each of them (twice in the first file): that buffer is uploaded
once. -/
theorem no_chunk_uploaded_twice_witness :
    bputHashes hexHash (runJobs hexHash zeroSplit (memConn hexHash) 2 4
        [Job.file "k1" [1, 2, 0, 1, 2, 0], Job.small "k2" [1, 2, 0],
         Job.file "k3" [1, 2, 0, 3]] { st := {} }).1.trace = ["hbca", "h", "hd"] ∧
      (bputHashes hexHash (runJobs hexHash zeroSplit (memConn hexHash) 2 4
        [Job.file "k1" [1, 2, 0, 1, 2, 0], Job.small "k2" [1, 2, 0],
         Job.file "k3" [1, 2, 0, 3]] { st := {} }).1.trace).Nodup :=
  ⟨rfl, (no_chunk_uploaded_twice hexHash zeroSplit (memConn hexHash) 2 4
    [Job.file "k1" [1, 2, 0, 1, 2, 0], Job.small "k2" [1, 2, 0], Job.file "k3" [1, 2, 0, 3]]
    {} (memConn_keepsBlobs hexHash)).2 (by decide)⟩

/-- Whatever follows it, an input that fills the buffer to `maxB` bytes or
more determines the first finalized buffer. -/
theorem chunker_prefix {ρ : Type} (rs : Rolling ρ) (minB maxB : Nat) (P : List Byte) :
    ∀ (r : ρ) (buf : List Byte), buf.length < maxB → maxB ≤ buf.length + P.length →
      ∃ (pre post : List Byte) (r1 : ρ), P = pre ++ post ∧ pre ≠ [] ∧
        ∀ B, chunker rs minB maxB (P ++ B) r buf
          = (buf ++ pre) :: chunker rs minB maxB (post ++ B) r1 [] := by
  induction P with
  | nil => intro r buf h1 h2; simp at h2; omega
  | cons b rest ih =>
      intro r buf h1 h2
      by_cases hcut : ((rs.onSplit (rs.write r b) && decide ((buf ++ [b]).length > minB))
          || decide ((buf ++ [b]).length ≥ maxB)) = true
      · refine ⟨[b], rest, rs.write r b, rfl, by simp, ?_⟩
        intro B
        simp only [List.cons_append, chunker, hcut, if_true]
        rfl
      · have hlt : (buf ++ [b]).length < maxB := by
          simp only [Bool.or_eq_true, Bool.and_eq_true, decide_eq_true_eq, not_or] at hcut
          omega
        obtain ⟨pre, post, r1, hsplit, -, hch⟩ := ih (rs.write r b) (buf ++ [b]) hlt
          (by simp only [List.length_append, List.length_singleton, List.length_cons] at h2 ⊢
              omega)
        refine ⟨b :: pre, post, r1, by simp [hsplit], by simp, ?_⟩
        intro B
        simp only [List.cons_append, chunker, hcut]
        simpa using hch B

/-- Without a split signal, a file shorter than `maxB` gets the sentinel and
one index entry, for the whole file. -/
theorem FileWriter_neverSplit_single_ladds (H : List Byte → String) (key : String)
    (minB maxB : Nat) (xs : List Byte) (hlen : xs.length < maxB) :
    ∃ w1 wr, FileWriter H neverSplit (memConn H) minB maxB emptyWorld key (some xs)
        = (w1, .ret wr) ∧
      ladds w1.trace = [(0, ""), ((xs.length : Int), H xs)] := by
  obtain ⟨w1, wr, h⟩ := FileWriter_reliable H neverSplit (memConn H) (memConn_reliable H)
    minB maxB emptyWorld key xs
  have hl := FileWriter_ladds H neverSplit (memConn H) minB maxB emptyWorld w1 key xs wr h
  have hcs : chunker neverSplit minB maxB xs (neverSplit.new 64) [] = [xs] := by
    have := chunker_neverSplit_lt minB maxB xs [] (by simpa using hlen)
    simpa using this
  rw [hcs] at hl
  refine ⟨w1, wr, h, ?_⟩
  rw [hl]
  simp [indexEntries, emptyWorld, ladds]

/-- Two inputs that differ in their last byte, 1 and 2, have different values
under `hexHash`. -/
theorem hexHash_snoc_ne (R : List Byte) : hexHash (R ++ [1]) ≠ hexHash (R ++ [2]) := by
  intro h
  have h1 := congrArg String.data h
  simp only [hexHash, List.cons.injEq, true_and, List.map_append, List.map_cons,
    List.map_nil, List.append_cancel_left_eq] at h1
  revert h1
  decide

/-- Two files that share their first `minB` bytes and differ in the byte after
them, without a split signal: each is finalized as one buffer and the indexes
share no hash but the placeholder of the sentinel. -/
theorem shared_run_no_common_chunk_general (minB maxB : Nat) (hlt : minB + 1 < maxB) :
    ∃ wa wra wb wrb,
      minB < (List.replicate minB (0 : Byte) ++ [1]).length ∧
      FileWriter hexHash neverSplit (memConn hexHash) minB maxB emptyWorld "a"
        (some (List.replicate minB 0 ++ [1])) = (wa, .ret wra) ∧
      FileWriter hexHash neverSplit (memConn hexHash) minB maxB emptyWorld "b"
        (some (List.replicate minB 0 ++ [2])) = (wb, .ret wrb) ∧
      ∀ e1 ∈ ladds wa.trace, ∀ e2 ∈ ladds wb.trace, e1.2 = e2.2 → e1.2 = "" := by
  obtain ⟨wa, wra, ha, hla⟩ := FileWriter_neverSplit_single_ladds hexHash "a" minB
    maxB (List.replicate minB 0 ++ [1])
    (by simp only [List.length_append, List.length_replicate, List.length_singleton]; exact hlt)
  obtain ⟨wb, wrb, hb, hlb⟩ := FileWriter_neverSplit_single_ladds hexHash "b" minB
    maxB (List.replicate minB 0 ++ [2])
    (by simp only [List.length_append, List.length_replicate, List.length_singleton]; exact hlt)
  refine ⟨wa, wra, wb, wrb, ?_, ha, hb, ?_⟩
  · simp only [List.length_append, List.length_replicate, List.length_singleton]
    omega
  · intro e1 he1 e2 he2 heq
    rw [hla] at he1
    rw [hlb] at he2
    simp only [List.mem_cons, List.mem_singleton, List.not_mem_nil, or_false] at he1 he2
    rcases he1 with rfl | rfl
    · rfl
    · rcases he2 with rfl | rfl
      · exact heq
      · exact absurd heq (hexHash_snoc_ne _)

/-- C17 (counterexample). Two files of 65537 bytes that share their first
`MinBlobSize` bytes (the same run at offset 0) and differ in the last byte,
with a rolling checksum that signals no split: each is finalized as one buffer,
and the two indexes have no hash in common but the placeholder of the
sentinel. -/
theorem shared_run_no_common_chunk :
    ∃ wa wra wb wrb,
      MinBlobSize < (List.replicate MinBlobSize (0 : Byte) ++ [1]).length ∧
      FileWriter hexHash neverSplit (memConn hexHash) MinBlobSize MaxBlobSize emptyWorld "a"
        (some (List.replicate MinBlobSize 0 ++ [1])) = (wa, .ret wra) ∧
      FileWriter hexHash neverSplit (memConn hexHash) MinBlobSize MaxBlobSize emptyWorld "b"
        (some (List.replicate MinBlobSize 0 ++ [2])) = (wb, .ret wrb) ∧
      ∀ e1 ∈ ladds wa.trace, ∀ e2 ∈ ladds wb.trace, e1.2 = e2.2 → e1.2 = "" :=
  shared_run_no_common_chunk_general MinBlobSize MaxBlobSize (by decide)

/-- C17 (amended). For two files that share their first bytes, a common prefix
`P` of at least `MaxBlobSize` bytes, and every split predicate: both files are
longer than `MinBlobSize`, so that `PutFile` hands them to `FileWriter`, and the
indexes of two runs that return have the entry of the first chunk in common,
the same offset and the same hash of a non-empty buffer, right after the
sentinel; with reliable stores both runs return. Stated for any sizes with
`minB < maxB`. -/
theorem common_prefix_shares_first_chunk {ρ σa σb : Type} (H : List Byte → String)
    (rs : Rolling ρ) (ca : Conn σa) (cb : Conn σb) (minB maxB : Nat)
    (wa : World σa) (wb : World σb) (keyA keyB : String) (P B1 B2 : List Byte)
    (hlt : minB < maxB) (hP : maxB ≤ P.length) :
    (minB < (P ++ B1).length ∧ minB < (P ++ B2).length) ∧
    (Reliable H ca → Reliable H cb →
      (∃ wa1 wra, FileWriter H rs ca minB maxB wa keyA (some (P ++ B1)) = (wa1, .ret wra)) ∧
      (∃ wb1 wrb, FileWriter H rs cb minB maxB wb keyB (some (P ++ B2)) = (wb1, .ret wrb))) ∧
    ∀ wa1 wra wb1 wrb,
      FileWriter H rs ca minB maxB wa keyA (some (P ++ B1)) = (wa1, .ret wra) →
      FileWriter H rs cb minB maxB wb keyB (some (P ++ B2)) = (wb1, .ret wrb) →
      ∃ (c1 : List Byte) (restA restB : List (Int × String)), c1 ≠ [] ∧
        ladds wa1.trace = ladds wa.trace ++ (0, "") :: ((c1.length : Int), H c1) :: restA ∧
        ladds wb1.trace = ladds wb.trace ++ (0, "") :: ((c1.length : Int), H c1) :: restB := by
  refine ⟨⟨?_, ?_⟩, fun ha hb => ⟨FileWriter_reliable H rs ca ha minB maxB wa keyA (P ++ B1),
    FileWriter_reliable H rs cb hb minB maxB wb keyB (P ++ B2)⟩, ?_⟩
  · simp only [List.length_append]; omega
  · simp only [List.length_append]; omega
  · intro wa1 wra wb1 wrb ha hb
    obtain ⟨pre, post, r1, -, hpre, hch⟩ := chunker_prefix rs minB maxB P (rs.new 64) []
      (by simp only [List.length_nil]; omega) (by simp only [List.length_nil]; omega)
    have hla := FileWriter_ladds H rs ca minB maxB wa wa1 keyA (P ++ B1) wra ha
    have hlb := FileWriter_ladds H rs cb minB maxB wb wb1 keyB (P ++ B2) wrb hb
    rw [hch B1] at hla
    rw [hch B2] at hlb
    simp only [List.nil_append, indexEntries, zero_add] at hla hlb
    exact ⟨pre, _, _, hpre, hla, hlb⟩

/-- Witness of C17 (amended): two files with the common prefix `1 2 0 3`, with
`maxB = 4`; the first chunk `1 2 0` is in both indexes. -/
theorem common_prefix_shares_first_chunk_witness :
    ∃ (c1 : List Byte) (restA restB : List (Int × String)), c1 ≠ [] ∧
      ladds (FileWriter hexHash zeroSplit (memConn hexHash) 2 4 emptyWorld "a"
          (some ([1, 2, 0, 3] ++ [5]))).1.trace
        = ladds emptyWorld.trace ++ (0, "") :: ((c1.length : Int), hexHash c1) :: restA ∧
      ladds (FileWriter hexHash zeroSplit (memConn hexHash) 2 4 emptyWorld "b"
          (some ([1, 2, 0, 3] ++ [6, 7]))).1.trace
        = ladds emptyWorld.trace ++ (0, "") :: ((c1.length : Int), hexHash c1) :: restB :=
  (common_prefix_shares_first_chunk hexHash zeroSplit (memConn hexHash) (memConn hexHash) 2 4
    emptyWorld emptyWorld "a" "b" [1, 2, 0, 3] [5] [6, 7] (by decide) (by decide)).2.2
    _ _ _ _ rfl rfl

/-- A finalization of package `writer` that goes through: the whole-file hash
input and the size. -/
theorem writer_finalize_ok {σ : Type} (H : List Byte → String) (c : writer.Conn σ)
    (key : String) (buf fullHash : List Byte) (wr : writer.WriteResult)
    (w w1 : writer.World σ) (wr1 : writer.WriteResult) (fullHash1 : List Byte)
    (h : writer.finalize H c key buf fullHash wr w = (w1, .ok (wr1, fullHash1))) :
    fullHash1 = fullHash ++ buf ∧ wr1.Size = wr.Size + buf.length := by
  unfold writer.finalize at h
  simp only at h
  split at h
  · simp at h
  · split at h
    · simp at h
    · split at h
      · simp at h
      · simp only [Prod.mk.injEq, Except.ok.injEq] at h
        obtain ⟨-, h2, h3⟩ := h
        subst h2 h3
        exact ⟨rfl, rfl⟩
  · simp only [Prod.mk.injEq, Except.ok.injEq] at h
    obtain ⟨-, h2, h3⟩ := h
    subst h2 h3
    exact ⟨rfl, rfl⟩

/-- With the store of `writer.memConn` every finalization goes through. -/
theorem writer_finalize_memConn (H : List Byte → String) (key : String)
    (buf fullHash : List Byte) (wr : writer.WriteResult) (w : writer.World writer.MemStore) :
    ∃ w1 wr1 fullHash1,
      writer.finalize H (writer.memConn H) key buf fullHash wr w
        = (w1, .ok (wr1, fullHash1)) := by
  unfold writer.finalize
  simp only [writer.memConn]
  split
  · rename_i h0; simp at h0
  · split
    · rename_i h0; exact absurd rfl h0
    · exact ⟨_, _, _, rfl⟩
  · exact ⟨_, _, _, rfl⟩

/-- A run of the loop of `writer.FileWriter` that goes through has fed the
whole-file hash the bytes of the file followed by a zero byte, and has counted
one byte more than the file has. -/
theorem writer_writerLoop_ok {ρ σ : Type} (H : List Byte → String) (rs : Rolling ρ)
    (c : writer.Conn σ) (key : String) (input : List Byte) :
    ∀ (r : ρ) (buf fullHash : List Byte) (wr : writer.WriteResult) (w w1 : writer.World σ)
      (wr1 : writer.WriteResult) (fullHash1 : List Byte),
      writer.writerLoop H rs c key input r buf fullHash wr w = (w1, .ok (wr1, fullHash1)) →
      fullHash1 = fullHash ++ buf ++ input ++ [0] ∧
        wr1.Size = wr.Size + buf.length + input.length + 1 := by
  induction input with
  | nil =>
      intro r buf fullHash wr w w1 wr1 fullHash1 h
      simp only [writer.writerLoop, Bool.or_true, if_true] at h
      obtain ⟨hf, hs⟩ := writer_finalize_ok H c key _ _ _ _ _ _ _ h
      refine ⟨by rw [hf]; simp, ?_⟩
      rw [hs]
      simp only [List.length_append, List.length_cons, List.length_nil]
      omega
  | cons b rest ih =>
      intro r buf fullHash wr w w1 wr1 fullHash1 h
      simp only [writer.writerLoop, Bool.or_false] at h
      split at h
      · rcases hfin : writer.finalize H c key (buf ++ [b]) fullHash wr w with ⟨w2, res⟩
        rw [hfin] at h
        cases res with
        | error p => simp at h
        | ok v =>
            obtain ⟨wr2, fullHash2⟩ := v
            simp only at h
            obtain ⟨hf, hs⟩ := writer_finalize_ok H c key _ _ _ _ _ _ _ hfin
            obtain ⟨hf1, hs1⟩ := ih _ _ _ _ _ _ _ _ h
            refine ⟨by rw [hf1, hf]; simp, ?_⟩
            rw [hs1, hs]
            simp only [List.length_append, List.length_cons, List.length_nil]
            omega
      · obtain ⟨hf1, hs1⟩ := ih _ _ _ _ _ _ _ _ h
        refine ⟨by rw [hf1]; simp, ?_⟩
        rw [hs1]
        simp only [List.length_append, List.length_cons, List.length_nil]
        omega

/-- With the store of `writer.memConn` the loop of `writer.FileWriter` goes
through. -/
theorem writer_writerLoop_memConn {ρ : Type} (H : List Byte → String) (rs : Rolling ρ)
    (key : String) (input : List Byte) :
    ∀ (r : ρ) (buf fullHash : List Byte) (wr : writer.WriteResult)
      (w : writer.World writer.MemStore),
      ∃ w1 wr1 fullHash1, writer.writerLoop H rs (writer.memConn H) key input r buf fullHash wr w
        = (w1, .ok (wr1, fullHash1)) := by
  induction input with
  | nil =>
      intro r buf fullHash wr w
      simp only [writer.writerLoop, Bool.or_true, if_true]
      exact writer_finalize_memConn H key _ _ _ _
  | cons b rest ih =>
      intro r buf fullHash wr w
      simp only [writer.writerLoop, Bool.or_false]
      split
      · obtain ⟨w2, wr2, fullHash2, hfin⟩ := writer_finalize_memConn H key (buf ++ [b])
          fullHash wr w
        rw [hfin]
        exact ih _ _ _ _ _
      · exact ih _ _ _ _ _

/-- C18 (the code at the failing input). For every file and every split
predicate, `writer.FileWriter` against the store of `writer.memConn` returns a
`WriteResult` whose `Size` is the length of the file plus one and whose `Hash`
is the digest of the file followed by a zero byte: the byte written at the end
of the stream (lines 75-76, executed also when `Read` reported `io.EOF`). -/
theorem writer_FileWriter_appends_zero_byte {ρ : Type} (H : List Byte → String)
    (rs : Rolling ρ) (key : String) (input : List Byte) :
    ∃ w1 wr, writer.FileWriter H rs (writer.memConn H) { st := {} } key (some input)
        = (w1, .ret wr) ∧
      wr.Size = input.length + 1 ∧ wr.Hash = H (input ++ [0]) := by
  obtain ⟨w1, wr1, fullHash1, hloop⟩ := writer_writerLoop_memConn H rs key input (rs.new 64)
    [] [] {} { st := {} }
  obtain ⟨hf, hs⟩ := writer_writerLoop_ok H rs (writer.memConn H) key input _ _ _ _ _ _ _ _
    hloop
  refine ⟨w1, { wr1 with Hash := H fullHash1 }, ?_, ?_, ?_⟩
  · unfold writer.FileWriter
    simp only [hloop]
  · show wr1.Size = _
    rw [hs]
    simp
  · show H fullHash1 = _
    rw [hf]
    simp

/-- The loop finalizes at least one buffer: the one at the end of the stream. -/
theorem chunker_ne_nil {ρ : Type} (rs : Rolling ρ) (minB maxB : Nat) (input : List Byte)
    (r : ρ) (buf : List Byte) : chunker rs minB maxB input r buf ≠ [] := by
  intro h0
  cases input with
  | nil => simp [chunker] at h0
  | cons b rest =>
      have h1 := congrArg List.flatten h0
      rw [chunker_flatten] at h1
      simp at h1

theorem bputData_append (xs ys : List Event) :
    bputData (xs ++ ys) = bputData xs ++ bputData ys := by
  induction xs with
  | nil => rfl
  | cons e xs ih => cases e <;> simp [bputData, ih]

/-- The data uploaded by buffers that went through: the buffers for which
`BEXISTS` answered `false`, in order. -/
theorem bputData_okBlocks (H : List Byte → String) (key : String)
    (done : List (List Byte × Bool)) :
    ∀ off : Int, bputData (okBlocks H key off done)
      = (done.filter (fun d => !d.2)).map Prod.fst := by
  induction done with
  | nil => intro off; rfl
  | cons d done ih =>
      intro off
      obtain ⟨ch, existed⟩ := d
      cases existed <;> simp [okBlocks, okBlock, bputData_append, bputData, ih]

/-- C1. For every input and every split predicate, a run of `FileWriter` that
returns has finalized a non-empty list of buffers whose concatenation, in the
order of finalization, is exactly the input; and these buffers are what the
run hashed, uploaded and indexed: its commands are the sentinel `LADD` followed,
for each buffer in order, by `BEXISTS` of its hash, `BPUT` of its bytes when
the answer was `false`, and `LADD` of its end offset and hash; the `Hash`
returned is the digest of the concatenation, `Size` its length and
`BlobsCount` the number of buffers. With a reliable store the run returns. -/
theorem FileWriter_chunks_concat_eq_input {ρ σ : Type} (H : List Byte → String)
    (rs : Rolling ρ) (c : Conn σ) (minB maxB : Nat) (w : World σ) (key : String)
    (input : List Byte) :
    (Reliable H c → ∃ w1 wr, FileWriter H rs c minB maxB w key (some input) = (w1, .ret wr)) ∧
    ∀ w1 wr, FileWriter H rs c minB maxB w key (some input) = (w1, .ret wr) →
      ∃ (done : List (List Byte × Bool)) (evs : List Event),
        done ≠ [] ∧ (done.map Prod.fst).flatten = input ∧
        w1.chunks = w.chunks ++ done.map Prod.fst ∧
        evs = okBlocks H key 0 done ∧
        w1.trace = w.trace ++ Event.ladd key 0 "" true :: evs ∧
        bputData evs = (done.filter (fun d => !d.2)).map Prod.fst ∧
        ladds evs = indexEntries H 0 (done.map Prod.fst) ∧
        wr.Hash = H (done.map Prod.fst).flatten ∧
        wr.Size = ((done.map Prod.fst).flatten.length : Int) ∧
        wr.BlobsCount = (done.length : Int) := by
  refine ⟨fun hrel => FileWriter_reliable H rs c hrel minB maxB w key input, ?_⟩
  intro w1 wr h
  obtain ⟨hch, done, hdone, hwr, htr⟩ := FileWriter_ret H rs c minB maxB w w1 key input wr h
  have hflat : (done.map Prod.fst).flatten = input := by
    rw [hdone, chunker_flatten]
    rfl
  refine ⟨done, _, ?_, hflat, by rw [hdone]; exact hch, rfl, htr, bputData_okBlocks H key done 0,
    ladds_okBlocks H key done 0, ?_, ?_, ?_⟩
  · intro h0
    rw [h0] at hdone
    exact chunker_ne_nil rs minB maxB input (rs.new 64) [] hdone.symm
  · rw [hwr, hflat]
  · rw [hwr]
    simp only [accounts_Size]
    simp
  · rw [hwr]
    simp only [accounts_BlobsCount]
    simp

/-- Witness of C1: a twelve-byte input on the empty store is cut into four
buffers; each is asked for, uploaded and indexed, and the data of the `BPUT`
commands, concatenated, is the input. -/
theorem FileWriter_chunks_concat_eq_input_witness :
    ∃ w1 wr, FileWriter hexHash zeroSplit (memConn hexHash) 2 4 emptyWorld "k"
        (some [1, 2, 0, 3, 0, 4, 0, 5, 6, 7, 8, 9]) = (w1, .ret wr) ∧
      w1.trace =
        [Event.ladd "k" 0 "" true,
         Event.bexists "hbca" (some false), Event.bput [1, 2, 0] (some "hbca"),
         Event.ladd "k" 3 "hbca" true,
         Event.bexists "hdaea" (some false), Event.bput [3, 0, 4, 0] (some "hdaea"),
         Event.ladd "k" 7 "hdaea" true,
         Event.bexists "hfghi" (some false), Event.bput [5, 6, 7, 8] (some "hfghi"),
         Event.ladd "k" 11 "hfghi" true,
         Event.bexists "hj" (some false), Event.bput [9] (some "hj"),
         Event.ladd "k" 12 "hj" true] ∧
      (bputData w1.trace).flatten = [1, 2, 0, 3, 0, 4, 0, 5, 6, 7, 8, 9] ∧
      ∃ (done : List (List Byte × Bool)) (evs : List Event),
        done ≠ [] ∧ (done.map Prod.fst).flatten = [1, 2, 0, 3, 0, 4, 0, 5, 6, 7, 8, 9] ∧
        w1.chunks = emptyWorld.chunks ++ done.map Prod.fst ∧
        evs = okBlocks hexHash "k" 0 done ∧
        w1.trace = emptyWorld.trace ++ Event.ladd "k" 0 "" true :: evs ∧
        bputData evs = (done.filter (fun d => !d.2)).map Prod.fst ∧
        ladds evs = indexEntries hexHash 0 (done.map Prod.fst) ∧
        wr.Hash = hexHash (done.map Prod.fst).flatten ∧
        wr.Size = ((done.map Prod.fst).flatten.length : Int) ∧
        wr.BlobsCount = (done.length : Int) :=
  ⟨_, _, rfl, rfl, rfl,
    (FileWriter_chunks_concat_eq_input hexHash zeroSplit (memConn hexHash) 2 4 emptyWorld "k"
      [1, 2, 0, 3, 0, 4, 0, 5, 6, 7, 8, 9]).2 _ _ rfl⟩

/-- C8. For every buffer finalized by `FileWriter` or `SmallFileWriter`, the
commands after its `BEXISTS` contain exactly one `BPUT` (of that buffer) when
`BEXISTS` answered `false` and none when it answered `true`. Consequently, in a
run that returns, the commands are the sentinel `LADD` followed by one block
per buffer with its `BEXISTS` answer, the number of `BPUT` commands is
`BlobsUploaded`, and the number of buffers answered `true`, for which nothing
was uploaded, is `BlobsSkipped`. With a reliable store both writers return. -/
theorem BPUT_iff_blob_absent {ρ σ : Type} (H : List Byte → String) (rs : Rolling ρ)
    (c : Conn σ) (minB maxB : Nat) (w : World σ) (key : String) (input : List Byte) :
    (Reliable H c →
      (∃ w1 wr, FileWriter H rs c minB maxB w key (some input) = (w1, .ret wr)) ∧
      (∃ w1 wr, SmallFileWriter H c w key (some input) = (w1, .ret wr))) ∧
    (∀ (buf fullHash : List Byte) (wr : WriteResult) (w0 : World σ),
      ∃ rest, (finalize H c key buf fullHash wr w0).1.trace
          = w0.trace ++ Event.bexists (H buf) (c.BEXISTS w0.st (H buf)).2 :: rest ∧
        rest.countP Event.isBput
          = (if (c.BEXISTS w0.st (H buf)).2 = some false then 1 else 0) ∧
        (∀ d reply, Event.bput d reply ∈ rest → d = buf)) ∧
    (∀ w1 wr, FileWriter H rs c minB maxB w key (some input) = (w1, .ret wr) →
      ∃ (done : List (List Byte × Bool)) (evs : List Event),
        done ≠ [] ∧
        w1.chunks = w.chunks ++ done.map Prod.fst ∧
        evs = okBlocks H key 0 done ∧
        w1.trace = w.trace ++ Event.ladd key 0 "" true :: evs ∧
        wr.BlobsUploaded = evs.countP Event.isBput ∧
        wr.BlobsUploaded = (done.filter (fun d => !d.2)).length ∧
        wr.BlobsSkipped = (done.filter (fun d => d.2)).length) ∧
    (∀ w1 wr, SmallFileWriter H c w key (some input) = (w1, .ret wr) →
      ∃ (existed : Bool) (evs : List Event),
        w1.chunks = w.chunks ++ [input] ∧
        evs = okBlock H key input.length input existed ∧
        w1.trace = w.trace ++ Event.ladd key 0 "" true :: evs ∧
        wr.BlobsUploaded = evs.countP Event.isBput ∧
        wr.BlobsUploaded = (if existed then 0 else 1) ∧
        wr.BlobsSkipped = (if existed then 1 else 0)) := by
  refine ⟨fun hrel => ⟨FileWriter_reliable H rs c hrel minB maxB w key input,
    SmallFileWriter_reliable H c hrel w key input⟩,
    fun buf fullHash wr w0 => finalize_bput_count H c key buf fullHash wr w0, ?_, ?_⟩
  · intro w1 wr h
    obtain ⟨hch, done, hdone, hwr, htr⟩ := FileWriter_ret H rs c minB maxB w w1 key input wr h
    have hup : wr.BlobsUploaded = ((done.filter (fun d => !d.2)).length : Int) := by
      rw [hwr]
      simp only [accounts_BlobsUploaded]
      simp
    have hsk : wr.BlobsSkipped = ((done.filter (fun d => d.2)).length : Int) := by
      rw [hwr]
      simp only [accounts_BlobsSkipped]
      simp
    refine ⟨done, _, ?_, by rw [hdone]; exact hch, rfl, htr, ?_, hup, hsk⟩
    · intro h0
      rw [h0] at hdone
      exact chunker_ne_nil rs minB maxB input (rs.new 64) [] hdone.symm
    · rw [countP_isBput_okBlocks, hup]
  · intro w1 wr h
    obtain ⟨hch, existed, hwr, htr⟩ := SmallFileWriter_ret H c w w1 key input wr h
    refine ⟨existed, _, hch, rfl, htr, ?_, ?_, ?_⟩
    · rw [hwr]; cases existed <;> simp [account, okBlock, Event.isBput]
    · rw [hwr]; cases existed <;> simp [account]
    · rw [hwr]; cases existed <;> simp [account]

/-- Witness of C8. `FileWriter` on a file with the same three bytes twice, on
the empty store: the first buffer is uploaded, the second one is skipped.
`SmallFileWriter` on three bytes, on the empty store, where the buffer is
uploaded with one `BPUT`, and on a store that holds the blob, where no `BPUT`
is sent. Both writers return on the store of `memConn`, which is reliable, and
`finalize` of three bytes on the empty store sends one `BPUT` after its
`BEXISTS`. -/
theorem BPUT_iff_blob_absent_witness :
    (∃ w1 wr, FileWriter hexHash zeroSplit (memConn hexHash) 2 4 emptyWorld "k"
        (some [1, 2, 0, 1, 2, 0]) = (w1, .ret wr) ∧
      w1.trace.countP Event.isBput = 2 ∧ wr.BlobsUploaded = 2 ∧ wr.BlobsSkipped = 1 ∧
      ∃ (done : List (List Byte × Bool)) (evs : List Event),
        done ≠ [] ∧
        w1.chunks = emptyWorld.chunks ++ done.map Prod.fst ∧
        evs = okBlocks hexHash "k" 0 done ∧
        w1.trace = emptyWorld.trace ++ Event.ladd "k" 0 "" true :: evs ∧
        wr.BlobsUploaded = evs.countP Event.isBput ∧
        wr.BlobsUploaded = (done.filter (fun d => !d.2)).length ∧
        wr.BlobsSkipped = (done.filter (fun d => d.2)).length) ∧
    (∃ w1 wr, SmallFileWriter hexHash (memConn hexHash) emptyWorld "k" (some [1, 2, 0])
        = (w1, .ret wr) ∧
      w1.trace = [Event.ladd "k" 0 "" true, Event.bexists "hbca" (some false),
        Event.bput [1, 2, 0] (some "hbca"), Event.ladd "k" 3 "hbca" true] ∧
      wr.BlobsUploaded = 1 ∧ wr.BlobsSkipped = 0 ∧
      ∃ (existed : Bool) (evs : List Event),
        w1.chunks = emptyWorld.chunks ++ [[1, 2, 0]] ∧
        evs = okBlock hexHash "k" ([1, 2, 0] : List Byte).length [1, 2, 0] existed ∧
        w1.trace = emptyWorld.trace ++ Event.ladd "k" 0 "" true :: evs ∧
        wr.BlobsUploaded = evs.countP Event.isBput ∧
        wr.BlobsUploaded = (if existed then 0 else 1) ∧
        wr.BlobsSkipped = (if existed then 1 else 0)) ∧
    (∃ w1 wr, SmallFileWriter hexHash (memConn hexHash) (worldWithBlobs ["hbca"]) "k"
        (some [1, 2, 0]) = (w1, .ret wr) ∧
      w1.trace = [Event.ladd "k" 0 "" true, Event.bexists "hbca" (some true),
        Event.ladd "k" 3 "hbca" true] ∧
      wr.BlobsUploaded = 0 ∧ wr.BlobsSkipped = 1 ∧
      ∃ (existed : Bool) (evs : List Event),
        w1.chunks = (worldWithBlobs ["hbca"]).chunks ++ [[1, 2, 0]] ∧
        evs = okBlock hexHash "k" ([1, 2, 0] : List Byte).length [1, 2, 0] existed ∧
        w1.trace = (worldWithBlobs ["hbca"]).trace ++ Event.ladd "k" 0 "" true :: evs ∧
        wr.BlobsUploaded = evs.countP Event.isBput ∧
        wr.BlobsUploaded = (if existed then 0 else 1) ∧
        wr.BlobsSkipped = (if existed then 1 else 0)) ∧
    ((∃ w1 wr, FileWriter hexHash zeroSplit (memConn hexHash) 2 4 emptyWorld "k"
        (some [1, 2, 0, 1, 2, 0]) = (w1, .ret wr)) ∧
      (∃ w1 wr, SmallFileWriter hexHash (memConn hexHash) emptyWorld "k"
        (some [1, 2, 0, 1, 2, 0]) = (w1, .ret wr))) ∧
    (∃ rest, (finalize hexHash (memConn hexHash) "k" [1, 2, 0] [] {} emptyWorld).1.trace
        = emptyWorld.trace ++ Event.bexists (hexHash [1, 2, 0])
            ((memConn hexHash).BEXISTS emptyWorld.st (hexHash [1, 2, 0])).2 :: rest ∧
      rest.countP Event.isBput
        = (if ((memConn hexHash).BEXISTS emptyWorld.st (hexHash [1, 2, 0])).2 = some false
            then 1 else 0) ∧
      (∀ d reply, Event.bput d reply ∈ rest → d = [1, 2, 0])) :=
  ⟨⟨_, _, rfl, by decide, by decide, by decide,
      (BPUT_iff_blob_absent hexHash zeroSplit (memConn hexHash) 2 4 emptyWorld "k"
        [1, 2, 0, 1, 2, 0]).2.2.1 _ _ rfl⟩,
   ⟨_, _, rfl, rfl, by decide, by decide,
      (BPUT_iff_blob_absent hexHash zeroSplit (memConn hexHash) 2 4 emptyWorld "k"
        [1, 2, 0]).2.2.2 _ _ rfl⟩,
   ⟨_, _, rfl, rfl, by decide, by decide,
      (BPUT_iff_blob_absent hexHash zeroSplit (memConn hexHash) 2 4 (worldWithBlobs ["hbca"])
        "k" [1, 2, 0]).2.2.2 _ _ rfl⟩,
   (BPUT_iff_blob_absent hexHash zeroSplit (memConn hexHash) 2 4 emptyWorld "k"
      [1, 2, 0, 1, 2, 0]).1 (memConn_reliable hexHash),
   (BPUT_iff_blob_absent hexHash zeroSplit (memConn hexHash) 2 4 emptyWorld "k"
      [1, 2, 0, 1, 2, 0]).2.1 [1, 2, 0] [] {} emptyWorld⟩

/-- The data of a `BPUT` among the commands of buffers that went through is
one of these buffers. -/
theorem okBlocks_bput_mem (H : List Byte → String) (key : String)
    (done : List (List Byte × Bool)) :
    ∀ (off : Int) (d : List Byte) (reply : Option String),
      Event.bput d reply ∈ okBlocks H key off done → d ∈ done.map Prod.fst := by
  induction done with
  | nil => intro off d reply hm; simp [okBlocks] at hm
  | cons x done ih =>
      intro off d reply hm
      obtain ⟨ch, existed⟩ := x
      simp only [okBlocks, List.mem_append] at hm
      rcases hm with hm | hm
      · cases existed
        · simp only [okBlock, Bool.false_eq_true, if_false, List.mem_cons, List.mem_singleton,
            List.not_mem_nil, or_false] at hm
          rcases hm with hm | hm | hm
          · cases hm
          · simp only [Event.bput.injEq] at hm
            simp [hm.1]
          · cases hm
        · simp only [okBlock, if_true, List.mem_cons, List.mem_singleton,
            List.not_mem_nil, or_false] at hm
          rcases hm with hm | hm
          · cases hm
          · cases hm
      · exact List.mem_cons_of_mem _ (ih _ d reply hm)

/-- The data of a `BPUT` among the commands of a buffer at which the run
panics is that buffer. -/
theorem FailBlock_bput_mem (H : List Byte → String) (key : String) (off : Int)
    (buf : List Byte) (evs : List Event) (p : Panic) (h : FailBlock H key off buf evs p)
    (d : List Byte) (reply : Option String) (hm : Event.bput d reply ∈ evs) : d = buf := by
  cases h <;> simp at hm <;> exact hm.1

/-- Without a split signal, an input that fills the buffer to exactly `maxB`
bytes and goes on with fewer than `maxB` bytes is finalized as two buffers. -/
theorem chunker_neverSplit_two (minB maxB : Nat) (xs ys : List Byte) :
    ∀ buf : List Byte, xs ≠ [] → buf.length + xs.length = maxB → ys.length < maxB →
      chunker neverSplit minB maxB (xs ++ ys) () buf = [buf ++ xs, ys] := by
  induction xs with
  | nil => intro buf h; exact absurd rfl h
  | cons b rest ih =>
      intro buf _ hlen hys
      simp only [List.length_cons] at hlen
      cases rest with
      | nil =>
          simp only [List.length_nil] at hlen
          have := chunker_neverSplit_lt minB maxB ys [] (by simpa using hys)
          simp only [List.nil_append] at this
          simpa [chunker, neverSplit, hlen] using this
      | cons b1 rest1 =>
          simp only [List.length_cons] at hlen
          have h1 : ¬ (maxB ≤ buf.length + 1) := by omega
          have := ih (buf ++ [b]) (by simp) (by simp; omega) hys
          simp only [List.cons_append, chunker, neverSplit, Bool.false_and, Bool.false_or,
            List.length_append, List.length_singleton, List.length_cons, List.length_nil,
            ge_iff_le, decide_eq_true_eq, h1, if_false] at this ⊢
          simpa [neverSplit, chunker, h1] using this

/-- The hashes asked for in a concatenation of histories. -/
theorem bexistsHashes_append (xs ys : List Event) :
    bexistsHashes (xs ++ ys) = bexistsHashes xs ++ bexistsHashes ys := by
  induction xs with
  | nil => rfl
  | cons e xs ih => cases e <;> simp [bexistsHashes, ih]

/-- Buffers that went through are asked for once each, in order. -/
theorem bexistsHashes_okBlocks (H : List Byte → String) (key : String)
    (done : List (List Byte × Bool)) :
    ∀ off : Int, bexistsHashes (okBlocks H key off done) = (done.map Prod.fst).map H := by
  induction done with
  | nil => intro off; rfl
  | cons d done ih =>
      intro off
      obtain ⟨ch, existed⟩ := d
      cases existed
      · simp [okBlocks, okBlock, bexistsHashes_append, bexistsHashes, ih]
      · simp [okBlocks, okBlock, bexistsHashes_append, bexistsHashes, ih]

/-- The buffer at which the run panics is asked for once. -/
theorem FailBlock_bexistsHashes (H : List Byte → String) (key : String) (off : Int)
    (buf : List Byte) (evs : List Event) (p : Panic) (h : FailBlock H key off buf evs p) :
    bexistsHashes evs = [H buf] := by
  cases h
  · rfl
  · rfl
  · rfl
  · rfl
  · rfl

/-- The commands of a run of `FileWriter`, whatever its outcome, against the
buffers it finalized: each buffer is asked for once, in order, and the data of
every `BPUT` is one of the buffers. -/
theorem FileWriter_commands_of_chunks {ρ σ : Type} (H : List Byte → String) (rs : Rolling ρ)
    (c : Conn σ) (minB maxB : Nat) (w w1 : World σ) (key : String)
    (input : List Byte) (out : Outcome WriteResult)
    (h : FileWriter H rs c minB maxB w key (some input) = (w1, out)) :
    ∃ (cs : List (List Byte)) (evs : List Event), w1.chunks = w.chunks ++ cs ∧
      w1.trace = w.trace ++ evs ∧ bexistsHashes evs = cs.map H ∧
      (∀ d reply, Event.bput d reply ∈ evs → d ∈ cs) := by
  cases out with
  | ret wr =>
      obtain ⟨hch, done, hdone, -, htr⟩ := FileWriter_ret H rs c minB maxB w w1 key input wr h
      refine ⟨done.map Prod.fst, _, by rw [hdone]; exact hch, htr, ?_, ?_⟩
      · simp only [bexistsHashes]
        exact bexistsHashes_okBlocks H key done 0
      · intro d reply hm
        rcases List.mem_cons.mp hm with hm | hm
        · cases hm
        · exact okBlocks_bput_mem H key done 0 d reply hm
  | err msg => exact absurd h (FileWriter_not_err H rs c minB maxB w w1 key input msg)
  | panic p =>
      rcases FileWriter_panic H rs c minB maxB w w1 key input p h with
        ⟨htr, -, hch⟩ | ⟨done, ch, rest, evs, -, hch, htr, hfail⟩
      · refine ⟨[], _, by simp [hch], htr, rfl, ?_⟩
        intro d reply hm
        simp at hm
      · refine ⟨done.map Prod.fst ++ [ch], Event.ladd key 0 "" true :: okBlocks H key 0 done ++ evs,
          by rw [hch, List.append_assoc], by rw [htr, List.append_assoc], ?_, ?_⟩
        · rw [List.cons_append]
          simp only [bexistsHashes]
          rw [bexistsHashes_append, bexistsHashes_okBlocks,
            FailBlock_bexistsHashes H key _ ch evs p hfail]
          simp
        · intro d reply hm
          rw [List.cons_append] at hm
          rcases List.mem_cons.mp hm with hm | hm
          · cases hm
          · rcases List.mem_append.mp hm with hm | hm
            · exact List.mem_append_left _ (okBlocks_bput_mem H key done 0 d reply hm)
            · rw [FailBlock_bput_mem H key _ ch evs p hfail d reply hm]
              simp

/-- Without a split signal, a run of `FileWriter` that returns on `maxB` equal
bytes followed by fewer than `maxB` bytes has finalized two buffers: the first
`maxB` bytes, and the rest at the end of the stream. -/
theorem FileWriter_neverSplit_two_chunks {σ : Type} (H : List Byte → String) (c : Conn σ)
    (minB maxB : Nat) (hpos : 0 < maxB) (w w1 : World σ) (key : String) (b : Byte)
    (ys : List Byte) (hys : ys.length < maxB) (wr : WriteResult)
    (h : FileWriter H neverSplit c minB maxB w key (some (List.replicate maxB b ++ ys))
      = (w1, .ret wr)) :
    w1.chunks = w.chunks ++ [List.replicate maxB b, ys] := by
  obtain ⟨hch, -⟩ := FileWriter_ret H neverSplit c minB maxB w w1 key _ wr h
  have hne : List.replicate maxB b ≠ [] := by
    intro h0
    have := congrArg List.length h0
    simp only [List.length_replicate, List.length_nil] at this
    omega
  have hcs := chunker_neverSplit_two minB maxB (List.replicate maxB b) ys [] hne
    (by simp only [List.length_nil, List.length_replicate]; omega) hys
  rw [List.nil_append] at hcs
  rw [hch]
  exact congrArg (fun x => w.chunks ++ x) hcs
/-- C19. For every input, every split predicate and sizes `minB < maxB` (in the
source `MinBlobSize`, 64 KiB, and `MaxBlobSize`, 1 MiB), every buffer finalized
by `FileWriter` is at most `maxB` bytes long and every buffer finalized before
the last one is longer than `minB`; only the last one, finalized at the end of
the stream in a run that returns, may be `minB` bytes or shorter. These buffers
are what the run sent: whatever the outcome, the `BEXISTS` commands ask for the
hashes of the buffers, one each in order, and the data of every `BPUT` is one
of them, so at most `maxB` bytes; in a run that returns, the commands are the
sentinel `LADD` followed by one block of `BEXISTS`, `BPUT` when absent, and
`LADD` per buffer, the buffers are not none and concatenate to the input, and
`BlobsCount` is their number. With a reliable store the run returns. -/
theorem FileWriter_chunk_sizes {ρ σ : Type} (H : List Byte → String) (rs : Rolling ρ)
    (c : Conn σ) (minB maxB : Nat) (hlt : minB < maxB) (w : World σ) (key : String)
    (input : List Byte) :
    (Reliable H c → ∃ w1 wr, FileWriter H rs c minB maxB w key (some input) = (w1, .ret wr)) ∧
    (∀ w1 out, FileWriter H rs c minB maxB w key (some input) = (w1, out) →
      ∃ (cs : List (List Byte)) (evs : List Event),
        w1.chunks = w.chunks ++ cs ∧
        w1.trace = w.trace ++ evs ∧
        bexistsHashes evs = cs.map H ∧
        (∀ d reply, Event.bput d reply ∈ evs → d ∈ cs ∧ d.length ≤ maxB) ∧
        (∀ ch ∈ cs, ch.length ≤ maxB) ∧
        (∀ ch ∈ cs.dropLast, minB < ch.length)) ∧
    (∀ w1 wr, FileWriter H rs c minB maxB w key (some input) = (w1, .ret wr) →
      ∃ done : List (List Byte × Bool),
        done ≠ [] ∧ (done.map Prod.fst).flatten = input ∧
        w1.chunks = w.chunks ++ done.map Prod.fst ∧
        w1.trace = w.trace ++ Event.ladd key 0 "" true :: okBlocks H key 0 done ∧
        wr.BlobsCount = (done.length : Int) ∧
        (∀ d ∈ done, d.1.length ≤ maxB) ∧
        (∀ d ∈ done.dropLast, minB < d.1.length)) := by
  have hle := chunker_length_le rs minB maxB input (rs.new 64) []
    (by simp only [List.length_nil]; omega)
  have hdl : ∀ ch ∈ (chunker rs minB maxB input (rs.new 64) []).dropLast, minB < ch.length := by
    intro ch hch
    have := (chunker_dropLast_bounds rs minB maxB input (rs.new 64) [] ch hch).2
    have := hle ch (List.mem_of_mem_dropLast hch)
    omega
  refine ⟨fun hrel => FileWriter_reliable H rs c hrel minB maxB w key input, ?_, ?_⟩
  · intro w1 out h
    obtain ⟨cs, evs, hcs, htr, hbe, hbp⟩ :=
      FileWriter_commands_of_chunks H rs c minB maxB w w1 key input out h
    obtain ⟨cs1, hcs1, hle1, hdl1, -⟩ :=
      FileWriter_chunks_bounds H rs c minB maxB hlt w w1 key input out h
    have heq : cs1 = cs := List.append_cancel_left (hcs1.symm.trans hcs)
    subst heq
    exact ⟨cs1, evs, hcs, htr, hbe, fun d reply hm => ⟨hbp d reply hm, hle1 d (hbp d reply hm)⟩,
      hle1, hdl1⟩
  · intro w1 wr h
    obtain ⟨hch, done, hdone, hwr, htr⟩ := FileWriter_ret H rs c minB maxB w w1 key input wr h
    refine ⟨done, ?_, ?_, by rw [hdone]; exact hch, htr, ?_, ?_, ?_⟩
    · intro h0
      rw [h0] at hdone
      exact chunker_ne_nil rs minB maxB input (rs.new 64) [] hdone.symm
    · rw [hdone, chunker_flatten]
      rfl
    · rw [hwr]
      simp only [accounts_BlobsCount]
      simp
    · intro d hd
      apply hle
      rw [← hdone]
      exact List.mem_map_of_mem Prod.fst hd
    · intro d hd
      apply hdl
      rw [← hdone, ← List.map_dropLast]
      exact List.mem_map_of_mem Prod.fst hd

/-- Witness of C19. With sizes 2 and 4, an eight-byte input is finalized as
three buffers: the zero byte at length 1 does not cut (minimum guard), the zero
byte at length 3 does, the next buffer is cut at 4 bytes without a split signal
(maximum guard), and the last byte is finalized at the end of the stream; the
commands sent are written out. With a store that corrupts uploads the run
panics at the first buffer, whose `BPUT` obeys the bound. With the sizes of the
source and no split signal, `MaxBlobSize` zero bytes followed by three bytes
are finalized as a buffer of exactly `MaxBlobSize` bytes and a last one of
three. -/
theorem FileWriter_chunk_sizes_witness :
    (∃ w1 wr, FileWriter hexHash zeroSplit (memConn hexHash) 2 4 emptyWorld "k"
        (some [0, 1, 0, 3, 4, 5, 6, 9]) = (w1, .ret wr) ∧
      w1.chunks = [[0, 1, 0], [3, 4, 5, 6], [9]] ∧
      w1.trace =
        [Event.ladd "k" 0 "" true,
         Event.bexists "haba" (some false), Event.bput [0, 1, 0] (some "haba"),
         Event.ladd "k" 3 "haba" true,
         Event.bexists "hdefg" (some false), Event.bput [3, 4, 5, 6] (some "hdefg"),
         Event.ladd "k" 7 "hdefg" true,
         Event.bexists "hj" (some false), Event.bput [9] (some "hj"),
         Event.ladd "k" 8 "hj" true] ∧
      (∃ (cs : List (List Byte)) (evs : List Event),
        w1.chunks = emptyWorld.chunks ++ cs ∧
        w1.trace = emptyWorld.trace ++ evs ∧
        bexistsHashes evs = cs.map hexHash ∧
        (∀ d reply, Event.bput d reply ∈ evs → d ∈ cs ∧ d.length ≤ 4) ∧
        (∀ ch ∈ cs, ch.length ≤ 4) ∧
        (∀ ch ∈ cs.dropLast, 2 < ch.length)) ∧
      ∃ done : List (List Byte × Bool),
        done ≠ [] ∧ (done.map Prod.fst).flatten = [0, 1, 0, 3, 4, 5, 6, 9] ∧
        w1.chunks = emptyWorld.chunks ++ done.map Prod.fst ∧
        w1.trace = emptyWorld.trace ++ Event.ladd "k" 0 "" true :: okBlocks hexHash "k" 0 done ∧
        wr.BlobsCount = (done.length : Int) ∧
        (∀ d ∈ done, d.1.length ≤ 4) ∧
        (∀ d ∈ done.dropLast, 2 < d.1.length)) ∧
    (∃ w1 p, FileWriter hexHash zeroSplit (corruptConn hexHash) 2 4 emptyWorld "k"
        (some [0, 1, 0, 3, 4, 5, 6, 9]) = (w1, .panic p) ∧
      w1.chunks = [[0, 1, 0]] ∧
      w1.trace =
        [Event.ladd "k" 0 "" true,
         Event.bexists "haba" (some false), Event.bput [0, 1, 0] (some "haaba")] ∧
      ∃ (cs : List (List Byte)) (evs : List Event),
        w1.chunks = emptyWorld.chunks ++ cs ∧
        w1.trace = emptyWorld.trace ++ evs ∧
        bexistsHashes evs = cs.map hexHash ∧
        (∀ d reply, Event.bput d reply ∈ evs → d ∈ cs ∧ d.length ≤ 4) ∧
        (∀ ch ∈ cs, ch.length ≤ 4) ∧
        (∀ ch ∈ cs.dropLast, 2 < ch.length)) ∧
    (MinBlobSize = 65536 ∧ MaxBlobSize = 1048576 ∧
      ∃ w1 wr, FileWriter hexHash neverSplit (memConn hexHash) MinBlobSize MaxBlobSize
        emptyWorld "k" (some (List.replicate MaxBlobSize 0 ++ [1, 2, 3])) = (w1, .ret wr) ∧
      w1.chunks = emptyWorld.chunks ++ [List.replicate MaxBlobSize 0, [1, 2, 3]] ∧
      ∃ done : List (List Byte × Bool),
        done ≠ [] ∧
        (done.map Prod.fst).flatten = List.replicate MaxBlobSize 0 ++ [1, 2, 3] ∧
        w1.chunks = emptyWorld.chunks ++ done.map Prod.fst ∧
        w1.trace = emptyWorld.trace ++ Event.ladd "k" 0 "" true :: okBlocks hexHash "k" 0 done ∧
        wr.BlobsCount = (done.length : Int) ∧
        (∀ d ∈ done, d.1.length ≤ MaxBlobSize) ∧
        (∀ d ∈ done.dropLast, MinBlobSize < d.1.length)) :=
  ⟨⟨_, _, rfl, rfl, rfl,
      (FileWriter_chunk_sizes hexHash zeroSplit (memConn hexHash) 2 4 (by decide) emptyWorld "k"
        [0, 1, 0, 3, 4, 5, 6, 9]).2.1 _ _ rfl,
      (FileWriter_chunk_sizes hexHash zeroSplit (memConn hexHash) 2 4 (by decide) emptyWorld "k"
        [0, 1, 0, 3, 4, 5, 6, 9]).2.2 _ _ rfl⟩,
   ⟨_, _, rfl, rfl, rfl,
      (FileWriter_chunk_sizes hexHash zeroSplit (corruptConn hexHash) 2 4 (by decide) emptyWorld
        "k" [0, 1, 0, 3, 4, 5, 6, 9]).2.1 _ _ rfl⟩,
   ⟨by decide, by decide,
      ((FileWriter_chunk_sizes hexHash neverSplit (memConn hexHash) MinBlobSize MaxBlobSize
        (by decide) emptyWorld "k" (List.replicate MaxBlobSize 0 ++ [1, 2, 3])).1
          (memConn_reliable hexHash)).elim fun w1 h1 => h1.elim fun wr h =>
        ⟨w1, wr, h,
          FileWriter_neverSplit_two_chunks hexHash (memConn hexHash) MinBlobSize MaxBlobSize
            (by decide) emptyWorld w1 "k" 0 [1, 2, 3] (by decide) wr h,
          (FileWriter_chunk_sizes hexHash neverSplit (memConn hexHash) MinBlobSize MaxBlobSize
            (by decide) emptyWorld "k" (List.replicate MaxBlobSize 0 ++ [1, 2, 3])).2.2
              w1 wr h⟩⟩⟩

end Blobstash
